import Mathlib

/-!
# Verification of `wc.c` (`Dependencies/ios_system/text_cmds/wc/wc.c`)

A shallow embedding of the counting routine `cnt` of `wc.c` and of the parts of
`wc_main` that drive it, followed by theorems about the embedded code.

Conventions of the embedding.

* A byte (`u_char`) is a `UInt8`; a wide character (`wchar_t`) is a `Nat`.
* The counters `linect`, `wordct`, `charct`, `tlinect`, `twordct`, `tcharct` are
  `uintmax_t` in the source: they are `Nat`s below `2 ^ 64` and every update is
  taken modulo `2 ^ 64` (`uadd`).
* A stream is the list of results of the successive `read` calls on it
  (`Read.data bytes` for a read that returned `bytes.length`, `Read.fail` for
  `-1`); a read of no bytes, and the end of the list, are end of file.
* `thread_stdout` is the list of counts printed, each tagged with the metric it
  is printed for; `thread_stderr` is the list of diagnostics.
* The C library is not part of the repository: `iswspace` and `MB_CUR_MAX` are
  parameters (`Locale`), `mbrtowc` is a UTF-8 decoder.
-/

namespace Wc

/-! ## Machine arithmetic -/

/-- Number of values of a `uintmax_t`. -/
def UINTMAX_MOD : Nat := 18446744073709551616

/-- Addition of `uintmax_t` values: `a += b`. -/
def uadd (a b : Nat) : Nat := (a + b) % UINTMAX_MOD

/-- The source's `SMALL_BUF_SIZE`, `1024 * 8`. -/
def SMALL_BUF_SIZE : Nat := 1024 * 8

/-- A `u_char`. -/
abbrev Byte := UInt8

/-! ## The C library: locale and multibyte decoder -/

/-- What the program takes from the current locale: `MB_CUR_MAX` and the
classification `iswspace` of wide characters. -/
structure Locale where
  MB_CUR_MAX : Nat
  iswspace : Nat → Bool

/-- The classification `iswspace` of the "C" locale: space, `\t`, `\n`, `\v`,
`\f`, `\r`. -/
def iswspaceC (wch : Nat) : Bool := wch == 32 || (9 ≤ wch && wch ≤ 13)

/-- The "C" locale: single-byte. -/
def localeC : Locale := ⟨1, iswspaceC⟩

/-- A UTF-8 locale with the white space of the "C" locale. -/
def localeUTF8 : Locale := ⟨4, iswspaceC⟩

/-- The conversion state `mbstate_t` of the UTF-8 decoder: the number of
continuation bytes still wanted, the least code point the pending sequence may
encode, and the bits gathered so far.  All zero is the initial state. -/
structure MbState where
  want : Nat
  lbound : Nat
  ch : Nat
deriving DecidableEq, Repr

/-- The state after `memset(&mbs, 0, sizeof(mbs))`. -/
def MbState.init : MbState := ⟨0, 0, 0⟩

/-- What a call of `mbrtowc` gives back: the return value (`-1` for
`(size_t)-1`, `-2` for `(size_t)-2`), the wide character stored through `pwc`
(meaningful when `ret ≥ 0`) and the conversion state after the call. -/
structure MbOut where
  ret : Int
  wch : Nat
  mbs : MbState
deriving DecidableEq, Repr

/-- Outcome of reading continuation bytes. -/
inductive ContOut where
  | bad : ContOut
  | more : Nat → Nat → ContOut
  | done : Nat → ContOut
deriving DecidableEq, Repr

/-- Modelled from the spec: the continuation-byte loop of the C library's UTF-8
`mbrtowc` (the library is not in the repository).  `want` continuation bytes
are still needed, `wch` holds the bits gathered so far.  A byte that is not
`10xxxxxx` is an error; running out of input leaves the sequence incomplete. -/
def contLoop : Nat → Nat → List Byte → ContOut
  | 0, wch, _ => .done wch
  | want + 1, wch, [] => .more (want + 1) wch
  | want + 1, wch, b :: s =>
    if b.toNat &&& 0xc0 ≠ 0x80 then .bad
    else contLoop want ((wch <<< 6) ||| (b.toNat &&& 0x3f)) s

/-- Modelled from the spec: the end of the C library's UTF-8 `mbrtowc`.  `len`
is the number of bytes of this call that a completed character uses up. -/
def mbFinish (len lbound : Nat) (ps : MbState) : ContOut → MbOut
  | .bad => ⟨-1, 0, ps⟩
  | .more want wch => ⟨-2, 0, ⟨want, lbound, wch⟩⟩
  | .done wch =>
    if wch < lbound then ⟨-1, 0, ps⟩
    else if (0xd800 ≤ wch ∧ wch ≤ 0xdfff) ∨ 0x10ffff < wch then ⟨-1, 0, ps⟩
    else ⟨if wch = 0 then 0 else len, wch, MbState.init⟩

/-- Modelled from the spec: the C library function
`mbrtowc(&wch, s, n, &mbs)` in a UTF-8 locale (the library is not in the
repository); `s` is the `n` bytes offered.  Results follow the C standard:
`-1` for an invalid sequence (state untouched), `-2` when the bytes offered are
a proper prefix of a character (all of them are taken into the state), `0` for
the NUL character, otherwise the number of bytes of this call that complete the
character.  Sequences are those of RFC 3629: up to four bytes, no overlong
forms, no surrogates, nothing above U+10FFFF. -/
def mbrtowc (s : List Byte) (ps : MbState) : MbOut :=
  if 4 < ps.want then ⟨-1, 0, ps⟩
  else match s with
    | [] => ⟨-2, 0, ps⟩
    | b :: rest =>
      if ps.want = 0 then
        let ch := b.toNat
        if ch &&& 0x80 = 0 then ⟨if ch ≠ 0 then 1 else 0, ch, MbState.init⟩
        else if ch &&& 0xe0 = 0xc0 then
          mbFinish 2 0x80 ps (contLoop 1 (ch &&& 0x1f) rest)
        else if ch &&& 0xf0 = 0xe0 then
          mbFinish 3 0x800 ps (contLoop 2 (ch &&& 0x0f) rest)
        else if ch &&& 0xf8 = 0xf0 then
          mbFinish 4 0x10000 ps (contLoop 3 (ch &&& 0x07) rest)
        else ⟨-1, 0, ps⟩
      else mbFinish ps.want ps.lbound ps (contLoop ps.want ps.ch (b :: rest))

/-- Modelled from the spec: the flushing call `mbrtowc(NULL, NULL, 0, &mbs)`,
which the C standard defines as `mbrtowc(NULL, "", 1, &mbs)`. -/
def mbrtowcFlush (ps : MbState) : Int := (mbrtowc [0] ps).ret

/-! ## The state of the program -/

/-- The option flags `doline`, `doword`, `dochar`, `domulti`. -/
structure Flags where
  doline : Bool
  doword : Bool
  dochar : Bool
  domulti : Bool
deriving DecidableEq, Repr

/-- A message on `thread_stderr`. -/
inductive Diag where
  | openErr : Diag
  | readErr : Diag
  | fstatErr : Diag
  | ilseq : Diag
  | usage : Diag
deriving DecidableEq, Repr

/-- A count printed on `thread_stdout` (format `" %7ju"` or `" %7lld"`), tagged
with the metric it is printed for. -/
inductive Out where
  | lines : Nat → Out
  | words : Nat → Out
  | chars : Nat → Out
deriving DecidableEq, Repr

/-- The result of one `read(fd, buf, buf_size)`: the bytes put into `buf`
(`len` is their number, `0` at end of file) or the failure `-1`. -/
inductive Read where
  | data : List Byte → Read
  | fail : Read
deriving DecidableEq, Repr

/-- The local variables of `cnt` that the counting loops update, with the
diagnostics written so far. -/
structure Scan where
  linect : Nat
  wordct : Nat
  charct : Nat
  gotsp : Bool
  warned : Bool
  mbs : MbState
  stderr : List Diag
deriving DecidableEq, Repr

/-- The locals at the label `word:` (lines 162 and 238-240):
`linect = wordct = charct = 0`, `gotsp = 1`, `warned = 0`, `mbs` zeroed. -/
def Scan.start : Scan := ⟨0, 0, 0, true, false, MbState.init, []⟩

/-- How a counting loop ends: at end of file (`done`), or through
`return (1)` after a failed read, with the message written (`readFailed`). -/
inductive Outcome where
  | done : Scan → Outcome
  | readFailed : Scan → Outcome
deriving DecidableEq, Repr

/-! ## The general scan (lines 238-284) -/

/-- Lines 268-278, the tally of one character `wch`: `charct++`, `++linect`
on a line feed, and the word transition on `gotsp`. -/
def tally (L : Locale) (wch : Nat) (s : Scan) : Scan :=
  let s1 := { s with charct := uadd s.charct 1 }
  let s2 := if wch = 10 then { s1 with linect := uadd s1.linect 1 } else s1
  if L.iswspace wch then { s2 with gotsp := true }
  else if s2.gotsp then { s2 with gotsp := false, wordct := uadd s2.wordct 1 }
  else s2

/-- Lines 255-261: the warning on the first invalid sequence, and the reset of
the conversion state. -/
def warnIlseq (s : Scan) : Scan :=
  let s1 := if !s.warned then { s with stderr := s.stderr ++ [Diag.ilseq], warned := true } else s
  { s1 with mbs := MbState.init }

/-- Lines 249-279, the loop `while (len > 0)` over the bytes `p[0..len)` of one
read.  The first argument bounds the number of iterations; `scanBuf` calls it
with `len`, which is enough because every iteration that does not leave the
loop takes at least one byte. -/
def scanLoop (L : Locale) (fl : Flags) : Nat → List Byte → Scan → Scan
  | 0, _, s => s
  | _ + 1, [], s => s
  | fuel + 1, b :: rest, s =>
    if !fl.domulti || L.MB_CUR_MAX == 1 then
      scanLoop L fl fuel rest (tally L b.toNat s)
    else
      let r := mbrtowc (b :: rest) s.mbs
      if r.ret = -1 then
        scanLoop L fl fuel rest (tally L b.toNat (warnIlseq s))
      else if r.ret = -2 then
        { s with mbs := r.mbs }
      else if r.ret = 0 then
        scanLoop L fl fuel rest (tally L r.wch { s with mbs := r.mbs })
      else
        scanLoop L fl fuel ((b :: rest).drop r.ret.toNat) (tally L r.wch { s with mbs := r.mbs })

/-- Lines 248-279 for one read that returned the bytes `buf`. -/
def scanBuf (L : Locale) (fl : Flags) (buf : List Byte) (s : Scan) : Scan :=
  scanLoop L fl buf.length buf s

/-- Lines 241-280, the loop `while ((len = read(fd, buf, buf_size)) != 0)`. -/
def scanReads (L : Locale) (fl : Flags) : List Read → Scan → Outcome
  | [], s => .done s
  | Read.fail :: _, s => .readFailed { s with stderr := s.stderr ++ [Diag.readErr] }
  | Read.data [] :: _, s => .done s
  | Read.data (b :: buf) :: rs, s => scanReads L fl rs (scanBuf L fl (b :: buf) s)

/-- Lines 281-284: the flush of the decoder at end of file, with the warning
for a dangling incomplete sequence. -/
def flushMbs (L : Locale) (fl : Flags) (s : Scan) : Scan :=
  if fl.domulti && decide (1 < L.MB_CUR_MAX) then
    if mbrtowcFlush s.mbs = -1 && !s.warned then
      { s with stderr := s.stderr ++ [Diag.ilseq] }
    else s
  else s

/-- Lines 238-284: the general scan of a stream, from the label `word:` to
the flush. -/
def generalScan (L : Locale) (fl : Flags) (reads : List Read) : Outcome :=
  match scanReads L fl reads Scan.start with
  | .done s => .done (flushMbs L fl s)
  | .readFailed s => .readFailed s

/-! ## The line-fast-path loop (lines 197-208) -/

/-- Lines 205-207: `for (p = buf; len--; ++p) if (*p == '\n') ++linect;`. -/
def countNewlines (buf : List Byte) (linect : Nat) : Nat :=
  buf.foldl (fun n b => if b.toNat = 10 then uadd n 1 else n) linect

/-- Lines 197-208, the loop `while ((len = read(fd, buf, buf_size)))` of the
line-fast-path; of the locals only `linect` and `charct` are touched. -/
def lineReads : List Read → Scan → Outcome
  | [], s => .done s
  | Read.fail :: _, s => .readFailed { s with stderr := s.stderr ++ [Diag.readErr] }
  | Read.data [] :: _, s => .done s
  | Read.data (b :: buf) :: rs, s =>
    lineReads rs { s with charct := uadd s.charct (b :: buf).length,
                          linect := countNewlines (b :: buf) s.linect }

/-! ## `cnt` (lines 145-299) -/

/-- What `fstat` reports: `S_ISREG(sb.st_mode)` and `sb.st_size`. -/
structure Stat where
  isReg : Bool
  st_size : Nat
deriving DecidableEq, Repr

/-- What the system answers for one file argument: whether `file` is `NULL`
(standard input), whether `open` succeeds, `f_iosize` of `fstatfs` (`none` when
it fails), whether `malloc` succeeds, the result of `fstat` (`none` when it
fails), and the results of the successive reads. -/
structure File where
  stdin : Bool
  openOk : Bool
  fstatfs : Option Nat
  mallocOk : Bool
  fstat : Option Stat
  reads : List Read
deriving DecidableEq, Repr

/-- The variables that outlive a call of `cnt`: the totals, the static buffer
variables of `cnt` (`small` says that `buf == small_buf`), and the two output
channels. -/
structure State where
  tlinect : Nat
  twordct : Nat
  tcharct : Nat
  small : Bool
  buf_size : Nat
  stdout : List Out
  stderr : List Diag
deriving DecidableEq, Repr

/-- The state when `wc_main` has initialised the totals (line 86) and `cnt` has
not been called yet (lines 157-158). -/
def State.init : State := ⟨0, 0, 0, true, SMALL_BUF_SIZE, [], []⟩

/-- Lines 174-187: the choice of the read buffer for this stream. -/
def sizeBuffer (f : File) (g : State) : State :=
  let f_iosize := match f.fstatfs with
    | none => SMALL_BUF_SIZE
    | some n => n
  if f_iosize ≠ g.buf_size then
    if f_iosize = SMALL_BUF_SIZE || !f.mallocOk then
      { g with small := true, buf_size := SMALL_BUF_SIZE }
    else
      { g with small := false, buf_size := f_iosize }
  else g

/-- Lines 238-298: from the label `word:` to the end of `cnt`. -/
def cntWord (L : Locale) (fl : Flags) (f : File) (g : State) : Nat × State :=
  match generalScan L fl f.reads with
  | .readFailed s => (1, { g with stderr := g.stderr ++ s.stderr })
  | .done s =>
    let g0 := { g with stderr := g.stderr ++ s.stderr }
    let g1 := if fl.doline then
        { g0 with tlinect := uadd g0.tlinect s.linect, stdout := g0.stdout ++ [Out.lines s.linect] }
      else g0
    let g2 := if fl.doword then
        { g1 with twordct := uadd g1.twordct s.wordct, stdout := g1.stdout ++ [Out.words s.wordct] }
      else g1
    let g3 := if fl.dochar || fl.domulti then
        { g2 with tcharct := uadd g2.tcharct s.charct, stdout := g2.stdout ++ [Out.chars s.charct] }
      else g2
    (0, g3)

/-- Lines 196-217: the line-fast-path. -/
def cntLine (fl : Flags) (f : File) (g : State) : Nat × State :=
  match lineReads f.reads Scan.start with
  | .readFailed s => (1, { g with stderr := g.stderr ++ s.stderr })
  | .done s =>
    let g1 := { g with tlinect := uadd g.tlinect s.linect, stdout := g.stdout ++ [Out.lines s.linect] }
    let g2 := if fl.dochar then
        { g1 with tcharct := uadd g1.tcharct s.charct, stdout := g1.stdout ++ [Out.chars s.charct] }
      else g1
    (0, g2)

/-- The function `cnt(file)`: the return value and the state after the call. -/
def cnt (L : Locale) (fl : Flags) (f : File) (g : State) : Nat × State :=
  if !f.stdin && !f.openOk then
    (1, { g with stderr := g.stderr ++ [Diag.openErr] })
  else
    let g := sizeBuffer f g
    if fl.doword || (fl.domulti && L.MB_CUR_MAX != 1) then cntWord L fl f g
    else if fl.doline then cntLine fl f g
    else if fl.dochar || fl.domulti then
      match f.fstat with
      | none => (1, { g with stderr := g.stderr ++ [Diag.fstatErr] })
      | some sb =>
        if sb.isReg then
          (0, { g with stdout := g.stdout ++ [Out.chars sb.st_size],
                       tcharct := uadd g.tcharct sb.st_size })
        else cntWord L fl f g
    else cntWord L fl f g

/-! ## The loop of `wc_main` over its file arguments (lines 116-130) -/

/-- Lines 124-130: `do { if (cnt(*argv) != 0) ++errors; ... } while (*++argv)`;
the result is `errors` and the state after the last file. -/
def countFiles (L : Locale) (fl : Flags) : List File → Nat → State → Nat × State
  | [], errors, g => (errors, g)
  | f :: fs, errors, g =>
    let r := cnt L fl f g
    countFiles L fl fs (if r.1 ≠ 0 then errors + 1 else errors) r.2


/-! ## `wc_main` (lines 78-143) -/

/-- Lines 89-108, the option loop: `opts` are the values that `getopt` returns
one after the other before `-1`.  `none` is the exit through `usage()`, taken
for `'?'` and every other value. -/
def optLoop : List Char → Flags → Option Flags
  | [], fl => some fl
  | ch :: rest, fl =>
    if ch = 'l' then optLoop rest { fl with doline := true }
    else if ch = 'w' then optLoop rest { fl with doword := true }
    else if ch = 'c' then optLoop rest { fl with dochar := true, domulti := false }
    else if ch = 'm' then optLoop rest { fl with domulti := true, dochar := false }
    else none

/-- Lines 112-114: `if (doline + doword + dochar + domulti == 0)
doline = doword = dochar = 1;`. -/
def defaultFlags (fl : Flags) : Flags :=
  if fl.doline.toNat + fl.doword.toNat + fl.dochar.toNat + fl.domulti.toNat = 0 then
    { fl with doline := true, doword := true, dochar := true }
  else fl

/-- Lines 85-114: the flags with which counting starts, from the values
returned by `getopt`; `none` when `usage()` ends the program. -/
def parseFlags (opts : List Char) : Option Flags :=
  match optLoop opts ⟨false, false, false, false⟩ with
  | none => none
  | some fl => some (defaultFlags fl)

/-- Lines 132-140: the line of totals, printed when `total > 1`. -/
def printTotals (fl : Flags) (total : Nat) (g : State) : State :=
  if 1 < total then
    let g1 := if fl.doline then { g with stdout := g.stdout ++ [Out.lines g.tlinect] } else g
    let g2 := if fl.doword then { g1 with stdout := g1.stdout ++ [Out.words g1.twordct] } else g1
    if fl.dochar || fl.domulti then { g2 with stdout := g2.stdout ++ [Out.chars g2.tcharct] }
    else g2
  else g

/-- The function `wc_main`: the exit status and the state at exit.  `opts` are
the values returned by `getopt`, `files` what the system answers for each file
argument, `stdinFile` what it answers for standard input, and `g0` the state on
entry (the static variables of `cnt` outlive a call of `wc_main`). -/
def wc_main (L : Locale) (opts : List Char) (stdinFile : File) (files : List File)
    (g0 : State) : Nat × State :=
  let g := { g0 with tlinect := 0, twordct := 0, tcharct := 0 }
  match parseFlags opts with
  | none => (1, { g with stderr := g.stderr ++ [Diag.usage] })
  | some fl =>
    match files with
    | [] =>
      let r := cnt L fl { stdinFile with stdin := true } g
      let errors : Nat := if r.1 ≠ 0 then 1 else 0
      (if errors = 0 then 0 else 1, printTotals fl 0 r.2)
    | f :: fs =>
      let r := countFiles L fl ((f :: fs).map (fun f => { f with stdin := false })) 0 g
      (if r.1 = 0 then 0 else 1, printTotals fl (f :: fs).length r.2)

/-! ## One iteration of the decode loop, and how the loop is left -/

/-- What one pass through the body of the loop of lines 249-279 does: it
advances by `clen` bytes after the tally (lines 268-278), or leaves the loop
through the `break` of line 265. -/
inductive Step where
  | advance : Nat → Scan → Step
  | leave : Scan → Step
deriving DecidableEq, Repr

/-- Lines 250-278 on the bytes `b :: rest` that remain (`len` of them): the
value of `clen` and the locals after the tally, or the `break`. -/
def scanStep (L : Locale) (fl : Flags) (b : Byte) (rest : List Byte) (s : Scan) : Step :=
  if !fl.domulti || L.MB_CUR_MAX == 1 then
    Step.advance 1 (tally L b.toNat s)
  else
    let r := mbrtowc (b :: rest) s.mbs
    if r.ret = -1 then
      Step.advance 1 (tally L b.toNat (warnIlseq s))
    else if r.ret = -2 then
      Step.leave { s with mbs := r.mbs }
    else if r.ret = 0 then
      Step.advance 1 (tally L r.wch { s with mbs := r.mbs })
    else
      Step.advance r.ret.toNat (tally L r.wch { s with mbs := r.mbs })

/-- How the loop of lines 249-279 stands after a number of iterations: left
because `len > 0` fails, left through `break` with the bytes that remained in
the buffer, or still running with bytes to go. -/
inductive LoopExit where
  | lenZero : Scan → LoopExit
  | broke : Scan → List Byte → LoopExit
  | running : Scan → List Byte → LoopExit
deriving DecidableEq, Repr

/-- The loop of lines 249-279 run for at most the given number of iterations,
with the way it is left. -/
def scanLoopExit (L : Locale) (fl : Flags) : Nat → List Byte → Scan → LoopExit
  | _, [], s => LoopExit.lenZero s
  | 0, b :: rest, s => LoopExit.running s (b :: rest)
  | fuel + 1, b :: rest, s =>
    match scanStep L fl b rest s with
    | Step.advance clen s1 => scanLoopExit L fl fuel ((b :: rest).drop clen) s1
    | Step.leave s1 => LoopExit.broke s1 (b :: rest)

/-! ## The read buffer (lines 156-158 and 174-187) -/

/-- What `buf` points to: the static array `small_buf`, or a block obtained
from `malloc` with the size asked for. -/
inductive Buf where
  | small_buf : Buf
  | heap : Nat → Buf
deriving DecidableEq, Repr

/-- The number of bytes the buffer can hold. -/
def Buf.capacity : Buf → Nat
  | Buf.small_buf => SMALL_BUF_SIZE
  | Buf.heap n => n

/-- The static variables `buf` and `buf_size` of `cnt`. -/
structure BufState where
  buf : Buf
  buf_size : Nat
deriving DecidableEq, Repr

/-- Lines 157-158: `buf = small_buf`, `buf_size = SMALL_BUF_SIZE`. -/
def BufState.init : BufState := ⟨Buf.small_buf, SMALL_BUF_SIZE⟩

/-- Lines 174-187 as a step on `buf` and `buf_size`: `fstatfs` is `f_iosize`
(`none` when `fstatfs` fails), `mallocOk` tells whether `malloc` succeeds. -/
def sizeStep (fstatfs : Option Nat) (mallocOk : Bool) (st : BufState) : BufState :=
  let f_iosize := match fstatfs with
    | none => SMALL_BUF_SIZE
    | some n => n
  if f_iosize ≠ st.buf_size then
    if f_iosize = SMALL_BUF_SIZE || !mallocOk then
      ⟨Buf.small_buf, SMALL_BUF_SIZE⟩
    else
      ⟨Buf.heap f_iosize, f_iosize⟩
  else st

/-! ## Counts and notions of the specification

These definitions follow the words of the specification and of the claims; the
theorems compare them with what the embedded code computes. -/

/-- The number of line-feed bytes (`0x0A`) of a stream. -/
def lfCount (bytes : List Byte) : Nat := bytes.countP (fun b => b.toNat = 10)

/-- The number of maximal runs of non-whitespace characters of a stream of
single-byte characters: the non-empty pieces left when the stream is cut at
every whitespace character. -/
def wordRuns (isw : Nat → Bool) (bytes : List Byte) : Nat :=
  ((bytes.splitOnP (fun b => isw b.toNat)).filter (fun w => !w.isEmpty)).length

/-- The number of positions of a stream that hold a non-whitespace character
which is the first character of the stream or comes right after a whitespace
character. -/
def wordStarts (isw : Nat → Bool) (bytes : List Byte) : Nat :=
  ((List.range bytes.length).filter (fun i =>
    !isw (bytes.getD i 0).toNat && (i == 0 || isw (bytes.getD (i - 1) 0).toNat))).length

/-- A well-formed encoded character: a sequence of bytes that the decoder,
started in its initial state, takes whole as one character (`mbrtowc` returns
its length, or `0` for the single byte NUL). -/
def wellFormedChar (c : List Byte) : Bool :=
  (mbrtowc c MbState.init).ret == (c.length : Int) ||
    ((mbrtowc c MbState.init).ret == 0 && c.length == 1)

/-- Whitespace padding of a sequence of characters: the second sequence is the
first with one more whitespace character at its start, at its end, right after
or right before a whitespace character, or with one whitespace character
replaced by another. -/
inductive WsPad {α : Type} (sp : α → Bool) : List α → List α → Prop where
  | atStart (w : α) (xs : List α) : sp w = true → WsPad sp xs (w :: xs)
  | atEnd (w : α) (xs : List α) : sp w = true → WsPad sp xs (xs ++ [w])
  | after (a b : List α) (x w : α) : sp x = true → sp w = true →
      WsPad sp (a ++ x :: b) (a ++ x :: w :: b)
  | before (a b : List α) (x w : α) : sp x = true → sp w = true →
      WsPad sp (a ++ x :: b) (a ++ w :: x :: b)
  | replace (a b : List α) (w w' : α) : sp w = true → sp w' = true →
      WsPad sp (a ++ w :: b) (a ++ w' :: b)

/-- A well-formed stream: a concatenation of well-formed encoded characters, so
a stream with no malformed sequence and no incomplete sequence at its end. -/
def wellFormedStream (bytes : List Byte) : Prop :=
  ∃ chars : List (List Byte), (∀ c ∈ chars, wellFormedChar c = true) ∧ chars.flatten = bytes

/-- The calls of `cnt` made when a list of streams is gone through in order,
whatever the calls return: each stream with the state it is called in and the
value returned. -/
def cntCalls (L : Locale) (fl : Flags) : List File → State → List (File × State × Nat)
  | [], _ => []
  | f :: fs, g => (f, g, (cnt L fl f g).1) :: cntCalls L fl fs (cnt L fl f g).2

/-- The buffer variables agree: `buf_size` is the capacity of the buffer in
use, and it is `SMALL_BUF_SIZE` exactly when that buffer is `small_buf`. -/
def BufInv (st : BufState) : Prop :=
  st.buf_size = st.buf.capacity ∧ (st.buf = Buf.small_buf ↔ st.buf_size = SMALL_BUF_SIZE)

/-! ## Auxiliary definitions of the proofs -/

/-- Words that begin in a sequence of characters, `sp` telling which characters
are white space and `gotsp` whether a word may begin at the first one. -/
def wordsFrom {α : Type} (sp : α → Bool) : Bool → List α → Nat
  | _, [] => 0
  | gotsp, b :: bs =>
    if sp b then wordsFrom sp true bs
    else (if gotsp then 1 else 0) + wordsFrom sp false bs

/-- The single-byte scan of a run of bytes: one `tally` per byte. -/
def tallyAll (L : Locale) (bytes : List Byte) (s : Scan) : Scan :=
  bytes.foldl (fun s b => tally L b.toNat s) s

/-- The tally of a sequence of well-formed encoded characters, one `tally` per
character. -/
def tallyChars (L : Locale) (chars : List (List Byte)) (s : Scan) : Scan :=
  chars.foldl (fun s c => tally L (mbrtowc c MbState.init).wch s) s

/-- The scans of the buffers of successive reads, one after the other. -/
def scanChunks (L : Locale) (fl : Flags) (chunks : List (List Byte)) (s : Scan) : Scan :=
  chunks.foldl (fun s c => scanBuf L fl c s) s

/-- The line-fast-path loop over the buffers of successive reads. -/
def lineChunks (chunks : List (List Byte)) (s : Scan) : Scan :=
  chunks.foldl (fun s c => { s with charct := uadd s.charct c.length,
                                    linect := countNewlines c s.linect }) s

/-- The conversion states the decoder can be in: initial, or in the middle of a
sequence of RFC 3629. -/
def MbOk (ps : MbState) : Prop := ps.want = 0 ∨ (ps.want ≤ 3 ∧ 0x80 ≤ ps.lbound)

/-- The four ways a call `mbrtowc(&wch, s, n, &mbs)` on the bytes `b :: rest`
can end, with what each tells about the bytes taken: an error; an incomplete
sequence, which takes all the bytes, none of them a line feed; the NUL
character, one zero byte; a character of `ret` bytes, among which there is a
line feed exactly when the character is the line feed. -/
def MbSpec (b : Byte) (rest : List Byte) (ps : MbState) (r : MbOut) : Prop :=
  r.ret = -1 ∨
  (r.ret = -2 ∧ lfCount (b :: rest) = 0 ∧ MbOk r.mbs ∧ r.mbs.want ≠ 0) ∨
  (r.ret = 0 ∧ ps.want = 0 ∧ b.toNat = 0 ∧ r.wch = 0 ∧ r.mbs = MbState.init) ∨
  (1 ≤ r.ret ∧ r.ret.toNat ≤ (b :: rest).length ∧ r.mbs = MbState.init ∧ r.wch ≠ 0 ∧
    lfCount ((b :: rest).take r.ret.toNat) = if r.wch = 10 then 1 else 0)

/-! ## The two counts of words of the specification agree -/

theorem wordRuns_aux (isw : Nat → Bool) (bs : List Byte) :
    ((bs.splitOnP (fun b => isw b.toNat)).filter (fun w => !w.isEmpty)).length
        = wordsFrom (fun b : Byte => isw b.toNat) true bs ∧
    (((bs.splitOnP (fun b => isw b.toNat)).tail).filter (fun w => !w.isEmpty)).length
        = wordsFrom (fun b : Byte => isw b.toNat) false bs := by
  induction bs with
  | nil => simp [wordsFrom]
  | cons x xs ih =>
    rw [List.splitOnP_cons]
    by_cases hx : isw x.toNat = true
    · simp [hx, wordsFrom, ih.1]
    · have hne := List.splitOnP_ne_nil (fun b => isw b.toNat) xs
      cases hS : List.splitOnP (fun b => isw b.toNat) xs with
      | nil => exact absurd hS hne
      | cons h t =>
        rw [hS] at ih
        simp only [List.tail_cons] at ih
        simp [hx, wordsFrom, List.modifyHead, ih.2]
        omega

theorem wordRuns_eq_wordsFrom (isw : Nat → Bool) (bs : List Byte) :
    wordRuns isw bs = wordsFrom (fun b : Byte => isw b.toNat) true bs := (wordRuns_aux isw bs).1

theorem wordStarts_aux (isw : Nat → Bool) (bs : List Byte) (prev : Bool) :
    ((List.range bs.length).filter (fun i =>
      !isw (bs.getD i 0).toNat && (if i = 0 then prev else isw (bs.getD (i - 1) 0).toNat))).length
      = wordsFrom (fun b : Byte => isw b.toNat) prev bs := by
  induction bs generalizing prev with
  | nil => simp [wordsFrom]
  | cons x xs ih =>
    rw [List.length_cons, List.range_succ_eq_map, List.filter_cons, List.filter_map]
    have hcongr : List.filter ((fun i => !isw ((x :: xs).getD i 0).toNat &&
          (if i = 0 then prev else isw ((x :: xs).getD (i - 1) 0).toNat)) ∘ Nat.succ) (List.range xs.length)
        = List.filter (fun i => !isw (xs.getD i 0).toNat &&
          (if i = 0 then isw x.toNat else isw (xs.getD (i - 1) 0).toNat)) (List.range xs.length) := by
      apply List.filter_congr
      intro i _
      cases i with
      | zero => simp
      | succ j => simp
    rw [hcongr]
    have h0 : (!isw ((x :: xs).getD 0 0).toNat &&
        (if (0 : Nat) = 0 then prev else isw ((x :: xs).getD (0 - 1) 0).toNat)) = (!isw x.toNat && prev) := by
      simp
    rw [h0]
    by_cases hx : isw x.toNat = true
    · rw [hx]
      simp only [Bool.not_true, Bool.false_and, Bool.false_eq_true, if_false, List.length_map]
      rw [ih true]
      simp [wordsFrom, hx]
    · have hx2 : isw x.toNat = false := by simpa using hx
      rw [hx2]
      cases prev
      · simp only [Bool.not_false, Bool.and_false, Bool.false_eq_true, if_false, List.length_map]
        rw [ih false]
        simp [wordsFrom, hx2]
      · simp only [Bool.not_false, Bool.and_true, if_true, List.length_cons, List.length_map]
        rw [ih false]
        simp [wordsFrom, hx2]
        omega

theorem wordStarts_eq_wordsFrom (isw : Nat → Bool) (bs : List Byte) :
    wordStarts isw bs = wordsFrom (fun b : Byte => isw b.toNat) true bs := by
  have h := wordStarts_aux isw bs true
  unfold wordStarts
  rw [← h]
  congr 1
  apply List.filter_congr
  intro i _
  by_cases hi : i = 0
  · subst hi; simp
  · have : (i == 0) = false := by simpa using hi
    rw [this, if_neg hi]; simp

/-! ## The general scan in single-byte mode -/

theorem scanLoop_single (L : Locale) (fl : Flags) (h : fl.domulti = false ∨ L.MB_CUR_MAX = 1)
    (fuel : Nat) (buf : List Byte) (s : Scan) (hf : buf.length ≤ fuel) :
    scanLoop L fl fuel buf s = tallyAll L buf s := by
  have hc : (!fl.domulti || L.MB_CUR_MAX == 1) = true := by
    rcases h with h | h <;> simp [h]
  induction buf generalizing fuel s with
  | nil => cases fuel <;> simp [scanLoop, tallyAll]
  | cons b rest ih =>
    cases fuel with
    | zero => simp at hf
    | succ n =>
      simp only [List.length_cons, Nat.add_le_add_iff_right] at hf
      simp only [scanLoop, hc, if_true]
      rw [ih n _ hf]
      simp [tallyAll]

theorem scanBuf_single (L : Locale) (fl : Flags) (h : fl.domulti = false ∨ L.MB_CUR_MAX = 1)
    (buf : List Byte) (s : Scan) : scanBuf L fl buf s = tallyAll L buf s :=
  scanLoop_single L fl h buf.length buf s (Nat.le_refl _)

theorem tallyAll_append (L : Locale) (a b : List Byte) (s : Scan) :
    tallyAll L (a ++ b) s = tallyAll L b (tallyAll L a s) := by
  simp [tallyAll, List.foldl_append]

theorem scanReads_single (L : Locale) (fl : Flags) (h : fl.domulti = false ∨ L.MB_CUR_MAX = 1)
    (chunks : List (List Byte)) (hne : ∀ c ∈ chunks, c ≠ []) (s : Scan) :
    scanReads L fl (chunks.map Read.data) s = Outcome.done (tallyAll L chunks.flatten s) := by
  induction chunks generalizing s with
  | nil => simp [scanReads, tallyAll]
  | cons c cs ih =>
    have hc : c ≠ [] := hne c (List.mem_cons_self _ _)
    cases c with
    | nil => exact absurd rfl hc
    | cons b buf =>
      simp only [List.map_cons, scanReads, List.flatten_cons]
      rw [ih (fun c hc => hne c (List.mem_cons_of_mem _ hc)), scanBuf_single L fl h, tallyAll_append]

theorem flushMbs_counts (L : Locale) (fl : Flags) (s : Scan) :
    (flushMbs L fl s).linect = s.linect ∧ (flushMbs L fl s).wordct = s.wordct ∧
    (flushMbs L fl s).charct = s.charct := by
  unfold flushMbs
  split
  · split <;> simp
  · simp

theorem flushMbs_single (L : Locale) (fl : Flags) (h : fl.domulti = false ∨ L.MB_CUR_MAX = 1)
    (s : Scan) : flushMbs L fl s = s := by
  unfold flushMbs
  rcases h with h | h <;> simp [h]

theorem generalScan_single (L : Locale) (fl : Flags) (h : fl.domulti = false ∨ L.MB_CUR_MAX = 1)
    (chunks : List (List Byte)) (hne : ∀ c ∈ chunks, c ≠ []) :
    generalScan L fl (chunks.map Read.data) = Outcome.done (tallyAll L chunks.flatten Scan.start) := by
  unfold generalScan
  rw [scanReads_single L fl h chunks hne]
  simp only [flushMbs_single L fl h]

/-! ### What `tallyAll` computes -/

theorem uadd_lt (a b : Nat) : uadd a b < UINTMAX_MOD := by
  unfold uadd
  exact Nat.mod_lt _ (by decide)

theorem tally_charct (L : Locale) (w : Nat) (s : Scan) :
    (tally L w s).charct = uadd s.charct 1 := by
  unfold tally
  dsimp only
  split_ifs <;> simp_all

theorem tally_linect (L : Locale) (w : Nat) (s : Scan) :
    (tally L w s).linect = if w = 10 then uadd s.linect 1 else s.linect := by
  unfold tally
  dsimp only
  split_ifs <;> simp_all

theorem tally_wordct (L : Locale) (w : Nat) (s : Scan) :
    (tally L w s).wordct = if L.iswspace w = false ∧ s.gotsp = true then uadd s.wordct 1 else s.wordct := by
  unfold tally
  dsimp only
  split_ifs <;> simp_all

theorem tally_gotsp (L : Locale) (w : Nat) (s : Scan) :
    (tally L w s).gotsp = L.iswspace w := by
  unfold tally
  dsimp only
  split_ifs <;> simp_all

theorem tally_rest (L : Locale) (w : Nat) (s : Scan) :
    (tally L w s).warned = s.warned ∧ (tally L w s).mbs = s.mbs ∧ (tally L w s).stderr = s.stderr := by
  unfold tally
  dsimp only
  split_ifs <;> simp_all

theorem tallyAll_charct (L : Locale) (bs : List Byte) (s : Scan) :
    (tallyAll L bs s).charct % UINTMAX_MOD = (s.charct + bs.length) % UINTMAX_MOD := by
  induction bs generalizing s with
  | nil => simp [tallyAll]
  | cons b bs ih =>
    have : tallyAll L (b :: bs) s = tallyAll L bs (tally L b.toNat s) := rfl
    rw [this, ih, tally_charct, uadd, Nat.mod_add_mod, List.length_cons]
    congr 1; omega

theorem tallyAll_linect (L : Locale) (bs : List Byte) (s : Scan) :
    (tallyAll L bs s).linect % UINTMAX_MOD = (s.linect + lfCount bs) % UINTMAX_MOD := by
  induction bs generalizing s with
  | nil => simp [tallyAll, lfCount]
  | cons b bs ih =>
    have : tallyAll L (b :: bs) s = tallyAll L bs (tally L b.toNat s) := rfl
    rw [this, ih, tally_linect]
    by_cases hb : b.toNat = 10
    · simp only [hb, if_true, uadd, Nat.mod_add_mod, lfCount, List.countP_cons, decide_True]
      congr 1; omega
    · simp [hb, lfCount, List.countP_cons]

theorem tallyAll_wordct (L : Locale) (bs : List Byte) (s : Scan) :
    (tallyAll L bs s).wordct % UINTMAX_MOD
      = (s.wordct + wordsFrom (fun b : Byte => L.iswspace b.toNat) s.gotsp bs) % UINTMAX_MOD := by
  induction bs generalizing s with
  | nil => simp [tallyAll, wordsFrom]
  | cons b bs ih =>
    have : tallyAll L (b :: bs) s = tallyAll L bs (tally L b.toNat s) := rfl
    rw [this, ih, tally_wordct, tally_gotsp]
    by_cases hw : L.iswspace b.toNat = true
    · simp [hw, wordsFrom]
    · have hw2 : L.iswspace b.toNat = false := by simpa using hw
      cases hg : s.gotsp
      · simp [hw2, hg, wordsFrom]
      · simp only [hw2, hg, and_self, if_true, uadd, Nat.mod_add_mod, wordsFrom, Bool.false_eq_true,
          if_false]
        congr 1; omega

theorem tallyAll_lt (L : Locale) (bs : List Byte) (s : Scan)
    (h : s.linect < UINTMAX_MOD ∧ s.wordct < UINTMAX_MOD ∧ s.charct < UINTMAX_MOD) :
    (tallyAll L bs s).linect < UINTMAX_MOD ∧ (tallyAll L bs s).wordct < UINTMAX_MOD ∧
    (tallyAll L bs s).charct < UINTMAX_MOD := by
  induction bs generalizing s with
  | nil => simpa [tallyAll] using h
  | cons b bs ih =>
    have : tallyAll L (b :: bs) s = tallyAll L bs (tally L b.toNat s) := rfl
    rw [this]
    apply ih
    rw [tally_linect, tally_wordct, tally_charct]
    refine ⟨?_, ?_, uadd_lt _ _⟩
    · split
      · exact uadd_lt _ _
      · exact h.1
    · split
      · exact uadd_lt _ _
      · exact h.2.1

theorem tallyAll_rest (L : Locale) (bs : List Byte) (s : Scan) :
    (tallyAll L bs s).warned = s.warned ∧ (tallyAll L bs s).mbs = s.mbs ∧
    (tallyAll L bs s).stderr = s.stderr := by
  induction bs generalizing s with
  | nil => simp [tallyAll]
  | cons b bs ih =>
    have : tallyAll L (b :: bs) s = tallyAll L bs (tally L b.toNat s) := rfl
    rw [this]
    have h1 := ih (tally L b.toNat s)
    have h2 := tally_rest L b.toNat s
    exact ⟨h1.1.trans h2.1, h1.2.1.trans h2.2.1, h1.2.2.trans h2.2.2⟩

theorem start_lt : Scan.start.linect < UINTMAX_MOD ∧ Scan.start.wordct < UINTMAX_MOD ∧
    Scan.start.charct < UINTMAX_MOD := by decide

/-- The counts of a single-byte scan from the start state. -/
theorem tallyAll_start (L : Locale) (bs : List Byte) :
    (tallyAll L bs Scan.start).linect = lfCount bs % UINTMAX_MOD ∧
    (tallyAll L bs Scan.start).wordct = wordsFrom (fun b : Byte => L.iswspace b.toNat) true bs % UINTMAX_MOD ∧
    (tallyAll L bs Scan.start).charct = bs.length % UINTMAX_MOD := by
  have hlt := tallyAll_lt L bs Scan.start start_lt
  have h1 := tallyAll_linect L bs Scan.start
  have h2 := tallyAll_wordct L bs Scan.start
  have h3 := tallyAll_charct L bs Scan.start
  rw [Nat.mod_eq_of_lt hlt.1] at h1
  rw [Nat.mod_eq_of_lt hlt.2.1] at h2
  rw [Nat.mod_eq_of_lt hlt.2.2] at h3
  simpa [Scan.start] using And.intro h1 (And.intro h2 h3)

theorem wordsFrom_le_length (isw : Nat → Bool) (g : Bool) (bs : List Byte) :
    wordsFrom (fun b : Byte => isw b.toNat) g bs ≤ bs.length := by
  induction bs generalizing g with
  | nil => simp [wordsFrom]
  | cons b bs ih =>
    unfold wordsFrom
    have h1 := ih true
    have h2 := ih false
    simp only [List.length_cons]
    split
    · omega
    · split <;> omega

theorem lfCount_le_length (bs : List Byte) : lfCount bs ≤ bs.length := List.countP_le_length _

/-! ## Claims about the single-byte general scan -/

/-- C1: in single-byte mode (`domulti` off or `MB_CUR_MAX == 1`), however the
byte stream is delivered as a sequence of non-empty reads, the general scan ends
at end of file and its `wordct` is the number of maximal runs of non-whitespace
characters of the whole stream, held in a `uintmax_t` (so modulo `2 ^ 64`, and
exactly that number for every stream shorter than `2 ^ 64` bytes); that number
is also the number of positions holding a non-whitespace character that is the
first of the stream or follows a whitespace character. -/
theorem general_scan_wordct_eq_word_runs (L : Locale) (fl : Flags)
    (hmode : fl.domulti = false ∨ L.MB_CUR_MAX = 1)
    (bytes : List Byte) (chunks : List (List Byte))
    (hne : ∀ c ∈ chunks, c ≠ []) (hjoin : chunks.flatten = bytes) :
    ∃ s, generalScan L fl (chunks.map Read.data) = Outcome.done s ∧
      s.wordct = wordRuns L.iswspace bytes % UINTMAX_MOD ∧
      (bytes.length < UINTMAX_MOD → s.wordct = wordRuns L.iswspace bytes) ∧
      wordRuns L.iswspace bytes = wordStarts L.iswspace bytes := by
  refine ⟨_, generalScan_single L fl hmode chunks hne, ?_, ?_, ?_⟩
  · rw [hjoin, (tallyAll_start L bytes).2.1, wordRuns_eq_wordsFrom]
  · intro hlen
    rw [hjoin, (tallyAll_start L bytes).2.1, wordRuns_eq_wordsFrom]
    exact Nat.mod_eq_of_lt (Nat.lt_of_le_of_lt (wordsFrom_le_length _ _ _) hlen)
  · rw [wordRuns_eq_wordsFrom, wordStarts_eq_wordsFrom]

theorem general_scan_wordct_eq_word_runs_witness :
    ∃ s, generalScan localeC ⟨true, true, true, false⟩
        ([[0x61, 0x20, 0x20], [0x62, 0x63], [0x0a, 0x64]].map Read.data) = Outcome.done s ∧
      s.wordct = wordRuns localeC.iswspace [0x61, 0x20, 0x20, 0x62, 0x63, 0x0a, 0x64] % UINTMAX_MOD ∧
      (([0x61, 0x20, 0x20, 0x62, 0x63, 0x0a, 0x64] : List Byte).length < UINTMAX_MOD →
        s.wordct = wordRuns localeC.iswspace [0x61, 0x20, 0x20, 0x62, 0x63, 0x0a, 0x64]) ∧
      wordRuns localeC.iswspace [0x61, 0x20, 0x20, 0x62, 0x63, 0x0a, 0x64]
        = wordStarts localeC.iswspace [0x61, 0x20, 0x20, 0x62, 0x63, 0x0a, 0x64] :=
  general_scan_wordct_eq_word_runs localeC ⟨true, true, true, false⟩ (Or.inl rfl)
    [0x61, 0x20, 0x20, 0x62, 0x63, 0x0a, 0x64] [[0x61, 0x20, 0x20], [0x62, 0x63], [0x0a, 0x64]]
    (by decide) (by decide)


/-- C3: in single-byte mode the general scan does not depend on how the stream
is cut into reads: the scan of the stream as one contiguous read ends in some
state `s` (in particular with some `linect`, `wordct`, `charct`), and the scan
of the two reads `stream[0..k)`, `stream[k..)` for every split offset `k`, as
well as the scan of every partition of the stream into non-empty reads, ends
in the same state `s`. -/
theorem general_scan_single_byte_split (L : Locale) (fl : Flags)
    (hmode : fl.domulti = false ∨ L.MB_CUR_MAX = 1) (bytes : List Byte) :
    ∃ s, generalScan L fl [Read.data bytes] = Outcome.done s ∧
      (∀ k, 0 < k → k ≤ bytes.length →
        generalScan L fl [Read.data (bytes.take k), Read.data (bytes.drop k)] = Outcome.done s) ∧
      (∀ chunks : List (List Byte), (∀ c ∈ chunks, c ≠ []) → chunks.flatten = bytes →
        generalScan L fl (chunks.map Read.data) = Outcome.done s) := by
  have hgen : ∀ chunks : List (List Byte), (∀ c ∈ chunks, c ≠ []) → chunks.flatten = bytes →
      generalScan L fl (chunks.map Read.data) = Outcome.done (tallyAll L bytes Scan.start) := by
    intro chunks hne hj
    rw [generalScan_single L fl hmode chunks hne, hj]
  have hone : generalScan L fl [Read.data bytes] = Outcome.done (tallyAll L bytes Scan.start) := by
    cases bytes with
    | nil => simp [generalScan, scanReads, flushMbs_single L fl hmode, tallyAll]
    | cons b bs => exact hgen [b :: bs] (by simp) (by simp)
  refine ⟨_, hone, ?_, hgen⟩
  intro k hk hkl
  by_cases hlt : k < bytes.length
  · have h := hgen [bytes.take k, bytes.drop k] (by
      intro c hc
      simp only [List.mem_cons, List.mem_singleton, List.not_mem_nil, or_false] at hc
      rcases hc with rfl | rfl
      · intro h0
        have h1 := congrArg List.length h0
        rw [List.length_take, List.length_nil] at h1
        omega
      · intro h0
        have h1 := congrArg List.length h0
        rw [List.length_drop, List.length_nil] at h1
        omega) (by simp)
    simpa using h
  · have hk2 : k = bytes.length := by omega
    subst hk2
    cases bytes with
    | nil => simp at hk
    | cons b bs =>
      have h := hgen [b :: bs] (by simp) (by simp)
      simp only [List.take_length, List.drop_length]
      simp only [List.map_cons, List.map_nil] at h
      simpa [generalScan, scanReads] using h

theorem general_scan_single_byte_split_witness :
    ∃ s, generalScan localeC ⟨true, true, true, false⟩
        [Read.data [0x61, 0x62, 0x20, 0x63, 0x0a]] = Outcome.done s ∧
      (∀ k, 0 < k → k ≤ ([0x61, 0x62, 0x20, 0x63, 0x0a] : List Byte).length →
        generalScan localeC ⟨true, true, true, false⟩
          [Read.data (([0x61, 0x62, 0x20, 0x63, 0x0a] : List Byte).take k),
           Read.data (([0x61, 0x62, 0x20, 0x63, 0x0a] : List Byte).drop k)] = Outcome.done s) ∧
      (∀ chunks : List (List Byte), (∀ c ∈ chunks, c ≠ []) →
        chunks.flatten = [0x61, 0x62, 0x20, 0x63, 0x0a] →
        generalScan localeC ⟨true, true, true, false⟩ (chunks.map Read.data) = Outcome.done s) :=
  general_scan_single_byte_split localeC ⟨true, true, true, false⟩ (Or.inl rfl)
    [0x61, 0x62, 0x20, 0x63, 0x0a]

/-! ## The UTF-8 decoder -/

theorem contLoop_more {w ch : Nat} {s : List Byte} {w' ch' : Nat}
    (h : contLoop w ch s = ContOut.more w' ch') :
    lfCount s = 0 ∧ 1 ≤ w' ∧ w' + s.length = w := by
  induction s generalizing w ch with
  | nil =>
    cases w with
    | zero => simp [contLoop] at h
    | succ n =>
      simp only [contLoop, ContOut.more.injEq] at h
      simp [lfCount]; omega
  | cons b s ih =>
    cases w with
    | zero => simp [contLoop] at h
    | succ n =>
      simp only [contLoop] at h
      split at h
      · cases h
      · rename_i hb
        have hb2 : b.toNat &&& 0xc0 = 0x80 := by simpa using hb
        have h3 := ih h
        have hne : b.toNat ≠ 10 := by
          intro h10
          rw [h10] at hb2
          exact absurd hb2 (by decide)
        refine ⟨?_, h3.2.1, ?_⟩
        · simp only [lfCount, List.countP_cons, hne, decide_False, Bool.false_eq_true, if_false,
            Nat.add_zero]
          exact h3.1
        · simp only [List.length_cons]; omega

theorem contLoop_done {w ch : Nat} {s : List Byte} {wch : Nat}
    (h : contLoop w ch s = ContOut.done wch) :
    w ≤ s.length ∧ lfCount (s.take w) = 0 := by
  induction s generalizing w ch with
  | nil =>
    cases w with
    | zero => simp [lfCount]
    | succ n => simp [contLoop] at h
  | cons b s ih =>
    cases w with
    | zero => simp [lfCount]
    | succ n =>
      simp only [contLoop] at h
      split at h
      · cases h
      · rename_i hb
        have hb2 : b.toNat &&& 0xc0 = 0x80 := by simpa using hb
        have h3 := ih h
        have hne : b.toNat ≠ 10 := by
          intro h10
          rw [h10] at hb2
          exact absurd hb2 (by decide)
        refine ⟨by simp only [List.length_cons]; omega, ?_⟩
        simp only [List.take_succ_cons, lfCount, List.countP_cons, hne, decide_False,
          Bool.false_eq_true, if_false, Nat.add_zero]
        exact h3.2

theorem MbOk_init : MbOk MbState.init := Or.inl rfl

theorem mbFinish_cases (len lb : Nat) (ps : MbState) (c : ContOut) :
    ((mbFinish len lb ps c).ret = -1) ∨
    (∃ w ch, c = ContOut.more w ch ∧ mbFinish len lb ps c = ⟨-2, 0, ⟨w, lb, ch⟩⟩) ∨
    (∃ wch, c = ContOut.done wch ∧ lb ≤ wch ∧
      mbFinish len lb ps c = ⟨if wch = 0 then 0 else len, wch, MbState.init⟩) := by
  cases c with
  | bad => left; rfl
  | more w ch => right; left; exact ⟨w, ch, rfl, rfl⟩
  | done wch =>
    unfold mbFinish
    by_cases h1 : wch < lb
    · left; simp [h1]
    · by_cases h2 : (0xd800 ≤ wch ∧ wch ≤ 0xdfff) ∨ 0x10ffff < wch
      · left; simp [h1, h2]
      · right; right
        refine ⟨wch, rfl, by omega, ?_⟩
        simp only [h1, h2, if_false]

theorem mbSpec_lead (n lb m : Nat) (hn : n ≤ 3) (hlb : 0x80 ≤ lb) (b : Byte) (rest : List Byte)
    (ps : MbState) (hb : b.toNat ≠ 10) :
    MbSpec b rest ps (mbFinish (n + 1) lb ps (contLoop n m rest)) := by
  rcases mbFinish_cases (n + 1) lb ps (contLoop n m rest) with h | ⟨w, ch, hc, h⟩ | ⟨wch, hc, hle, h⟩
  · exact Or.inl h
  · right; left
    have h3 := contLoop_more hc
    rw [h]
    refine ⟨rfl, ?_, Or.inr ⟨by simp only; omega, hlb⟩, by simp only; omega⟩
    simp only [lfCount, List.countP_cons, hb, decide_False, Bool.false_eq_true, if_false,
      Nat.add_zero]
    exact h3.1
  · right; right; right
    have h3 := contLoop_done hc
    have hw0 : wch ≠ 0 := by omega
    have hw10 : wch ≠ 10 := by omega
    rw [h]
    have hr : (if wch = 0 then (0 : Int) else ((n + 1 : Nat) : Int)) = ((n + 1 : Nat) : Int) := by
      simp [hw0]
    have ht : (((n + 1 : Nat) : Int)).toNat = n + 1 := by omega
    refine ⟨?_, ?_, rfl, hw0, ?_⟩
    · show 1 ≤ (if wch = 0 then (0 : Int) else ((n + 1 : Nat) : Int))
      rw [hr]; omega
    · show (if wch = 0 then (0 : Int) else ((n + 1 : Nat) : Int)).toNat ≤ (b :: rest).length
      rw [hr, ht]; simp only [List.length_cons]; omega
    · show lfCount ((b :: rest).take (if wch = 0 then (0 : Int) else ((n + 1 : Nat) : Int)).toNat)
        = if wch = 10 then 1 else 0
      rw [hr, ht, List.take_succ_cons, if_neg hw10]
      simp only [lfCount, List.countP_cons, hb, decide_False, Bool.false_eq_true, if_false,
        Nat.add_zero]
      exact h3.2

theorem mbrtowc_spec (b : Byte) (rest : List Byte) (ps : MbState) (hps : MbOk ps) :
    MbSpec b rest ps (mbrtowc (b :: rest) ps) := by
  unfold mbrtowc
  have hw : ¬ 4 < ps.want := by
    rcases hps with h | h <;> omega
  simp only [hw, if_false]
  by_cases h0 : ps.want = 0
  · simp only [h0, if_true]
    by_cases hA : b.toNat &&& 0x80 = 0
    · simp only [hA, if_true]
      by_cases hz : b.toNat = 0
      · right; right; left
        simp [hz, h0]
      · right; right; right
        have hr : (if b.toNat ≠ 0 then (1 : Int) else 0) = 1 := by simp [hz]
        refine ⟨?_, ?_, rfl, hz, ?_⟩
        · show 1 ≤ (if b.toNat ≠ 0 then (1 : Int) else 0)
          rw [hr]
        · show (if b.toNat ≠ 0 then (1 : Int) else 0).toNat ≤ (b :: rest).length
          rw [hr]; simp
        · show lfCount ((b :: rest).take (if b.toNat ≠ 0 then (1 : Int) else 0).toNat)
            = if b.toNat = 10 then 1 else 0
          rw [hr]
          simp [lfCount, List.countP_cons]
    · have hb : b.toNat ≠ 10 := by
        intro h10
        rw [h10] at hA
        exact hA (by decide)
      simp only [hA, if_false]
      split
      · exact mbSpec_lead 1 0x80 _ (by omega) (by omega) b rest ps hb
      · split
        · exact mbSpec_lead 2 0x800 _ (by omega) (by omega) b rest ps hb
        · split
          · exact mbSpec_lead 3 0x10000 _ (by omega) (by omega) b rest ps hb
          · exact Or.inl rfl
  · simp only [h0, if_false]
    have hps2 : ps.want ≤ 3 ∧ 0x80 ≤ ps.lbound := by
      rcases hps with h | h
      · exact absurd h h0
      · exact h
    rcases mbFinish_cases ps.want ps.lbound ps (contLoop ps.want ps.ch (b :: rest)) with
      h | ⟨w, ch, hc, h⟩ | ⟨wch, hc, hle, h⟩
    · exact Or.inl h
    · right; left
      have h3 := contLoop_more hc
      rw [h]
      exact ⟨rfl, h3.1, Or.inr ⟨by simp only; omega, hps2.2⟩, by simp only; omega⟩
    · right; right; right
      have h3 := contLoop_done hc
      have hw0 : wch ≠ 0 := by omega
      have hw10 : wch ≠ 10 := by omega
      rw [h]
      have hr : (if wch = 0 then (0 : Int) else (ps.want : Int)) = (ps.want : Int) := by
        simp [hw0]
      have ht : ((ps.want : Int)).toNat = ps.want := by omega
      refine ⟨?_, ?_, rfl, hw0, ?_⟩
      · show 1 ≤ (if wch = 0 then (0 : Int) else (ps.want : Int))
        rw [hr]; omega
      · show (if wch = 0 then (0 : Int) else (ps.want : Int)).toNat ≤ (b :: rest).length
        rw [hr, ht]; exact h3.1
      · show lfCount ((b :: rest).take (if wch = 0 then (0 : Int) else (ps.want : Int)).toNat)
          = if wch = 10 then 1 else 0
        rw [hr, ht, if_neg hw10]
        exact h3.2

theorem mbrtowc_ret (s : List Byte) (ps : MbState) :
    (mbrtowc s ps).ret = -1 ∨ (mbrtowc s ps).ret = -2 ∨ (mbrtowc s ps).ret = 0 ∨
      1 ≤ (mbrtowc s ps).ret := by
  have hfin : ∀ (len lb : Nat) (c : ContOut), 1 ≤ len →
      (mbFinish len lb ps c).ret = -1 ∨ (mbFinish len lb ps c).ret = -2 ∨
      (mbFinish len lb ps c).ret = 0 ∨ 1 ≤ (mbFinish len lb ps c).ret := by
    intro len lb c hlen
    rcases mbFinish_cases len lb ps c with h | ⟨w, ch, _, h⟩ | ⟨wch, _, _, h⟩
    · exact Or.inl h
    · right; left; rw [h]
    · rw [h]
      by_cases hz : wch = 0
      · simp [hz]
      · right; right; right
        simp only [hz, if_false]
        omega
  unfold mbrtowc
  split
  · left; rfl
  · cases s with
    | nil => right; left; rfl
    | cons b rest =>
      simp only
      split
      · split
        · by_cases hz : b.toNat = 0
          · simp [hz]
          · simp [hz]
        · split
          · exact hfin 2 _ _ (by omega)
          · split
            · exact hfin 3 _ _ (by omega)
            · split
              · exact hfin 4 _ _ (by omega)
              · left; rfl
      · rename_i hw
        exact hfin _ _ _ (by omega)

/-! ## The inner loop of the general scan: enough iterations, and its unfolding -/

theorem scanLoop_fuel (L : Locale) (fl : Flags) (fuel : Nat) :
    ∀ (buf : List Byte) (s : Scan), buf.length ≤ fuel →
      scanLoop L fl fuel buf s = scanLoop L fl buf.length buf s := by
  induction fuel using Nat.strong_induction_on with
  | _ fuel ih =>
    intro buf s hf
    cases buf with
    | nil => cases fuel <;> simp [scanLoop]
    | cons b rest =>
      cases fuel with
      | zero => simp at hf
      | succ n =>
        simp only [List.length_cons, Nat.add_le_add_iff_right] at hf
        have hrest : ∀ s', scanLoop L fl n rest s' = scanLoop L fl rest.length rest s' :=
          fun s' => ih n (Nat.lt_succ_self n) rest s' hf
        have hdrop : ∀ (k : Nat) s', 1 ≤ k →
            scanLoop L fl n ((b :: rest).drop k) s'
              = scanLoop L fl rest.length ((b :: rest).drop k) s' := by
          intro k s' hk
          have hlen : ((b :: rest).drop k).length ≤ rest.length := by
            simp only [List.length_drop, List.length_cons]; omega
          rw [ih n (Nat.lt_succ_self n) _ s' (Nat.le_trans hlen hf),
            ih rest.length (Nat.lt_succ_of_le hf) _ s' hlen]
        simp only [List.length_cons, scanLoop]
        split
        · exact hrest _
        · split
          · exact hrest _
          · split
            · rfl
            · split
              · exact hrest _
              · rename_i h1 h2 h3
                apply hdrop
                rcases mbrtowc_ret (b :: rest) s.mbs with h | h | h | h
                · exact absurd h h1
                · exact absurd h h2
                · exact absurd h h3
                · omega

theorem scanBuf_nil (L : Locale) (fl : Flags) (s : Scan) : scanBuf L fl [] s = s := rfl

/-- One iteration of the loop of lines 249-279 in single-byte mode. -/
theorem scanBuf_cons_single (L : Locale) (fl : Flags)
    (hm : (!fl.domulti || L.MB_CUR_MAX == 1) = true) (b : Byte) (rest : List Byte) (s : Scan) :
    scanBuf L fl (b :: rest) s = scanBuf L fl rest (tally L b.toNat s) := by
  simp only [scanBuf, List.length_cons, scanLoop, hm, if_true]

/-- One iteration of the loop of lines 249-279 in multibyte mode. -/
theorem scanBuf_cons_multi (L : Locale) (fl : Flags)
    (hm : (!fl.domulti || L.MB_CUR_MAX == 1) = false) (b : Byte) (rest : List Byte) (s : Scan) :
    scanBuf L fl (b :: rest) s =
      if (mbrtowc (b :: rest) s.mbs).ret = -1 then
        scanBuf L fl rest (tally L b.toNat (warnIlseq s))
      else if (mbrtowc (b :: rest) s.mbs).ret = -2 then
        { s with mbs := (mbrtowc (b :: rest) s.mbs).mbs }
      else if (mbrtowc (b :: rest) s.mbs).ret = 0 then
        scanBuf L fl rest (tally L (mbrtowc (b :: rest) s.mbs).wch
          { s with mbs := (mbrtowc (b :: rest) s.mbs).mbs })
      else
        scanBuf L fl ((b :: rest).drop (mbrtowc (b :: rest) s.mbs).ret.toNat)
          (tally L (mbrtowc (b :: rest) s.mbs).wch
            { s with mbs := (mbrtowc (b :: rest) s.mbs).mbs }) := by
  simp only [scanBuf, List.length_cons, scanLoop, hm, Bool.false_eq_true, if_false]
  split
  · rfl
  · split
    · rfl
    · split
      · rfl
      · rename_i h1 h2 h3
        apply scanLoop_fuel
        rcases mbrtowc_ret (b :: rest) s.mbs with h | h | h | h
        · exact absurd h h1
        · exact absurd h h2
        · exact absurd h h3
        · simp only [List.length_drop, List.length_cons]; omega

theorem warnIlseq_fields (s : Scan) :
    (warnIlseq s).linect = s.linect ∧ (warnIlseq s).wordct = s.wordct ∧
    (warnIlseq s).charct = s.charct ∧ (warnIlseq s).gotsp = s.gotsp ∧
    (warnIlseq s).mbs = MbState.init ∧ (warnIlseq s).warned = true := by
  unfold warnIlseq
  cases h : s.warned <;> simp [h]

/-! ## Line feeds seen by the general scan in either mode -/

theorem lfCount_append (a b : List Byte) : lfCount (a ++ b) = lfCount a + lfCount b := by
  simp [lfCount, List.countP_append]

theorem lfCount_cons (b : Byte) (bs : List Byte) :
    lfCount (b :: bs) = lfCount bs + if b.toNat = 10 then 1 else 0 := by
  simp [lfCount, List.countP_cons]

theorem scanBuf_linect (L : Locale) (fl : Flags) (n : Nat) :
    ∀ (buf : List Byte) (s : Scan), buf.length ≤ n → MbOk s.mbs →
      (scanBuf L fl buf s).linect % UINTMAX_MOD = (s.linect + lfCount buf) % UINTMAX_MOD ∧
      MbOk (scanBuf L fl buf s).mbs ∧
      (s.linect < UINTMAX_MOD → (scanBuf L fl buf s).linect < UINTMAX_MOD) := by
  induction n with
  | zero =>
    intro buf s hlen hok
    have : buf = [] := List.eq_nil_of_length_eq_zero (Nat.le_zero.mp hlen)
    subst this
    simp [scanBuf_nil, lfCount, hok]
  | succ n ih =>
    intro buf s hlen hok
    cases buf with
    | nil => simp [scanBuf_nil, lfCount, hok]
    | cons b rest =>
      simp only [List.length_cons, Nat.add_le_add_iff_right] at hlen
      have htl : ∀ (w : Nat) (s0 : Scan), (tally L w s0).linect % UINTMAX_MOD
          = (s0.linect + if w = 10 then 1 else 0) % UINTMAX_MOD := by
        intro w s0
        rw [tally_linect]
        split <;> simp [uadd]
      have htlt : ∀ (w : Nat) (s0 : Scan), s0.linect < UINTMAX_MOD →
          (tally L w s0).linect < UINTMAX_MOD := by
        intro w s0 h0
        rw [tally_linect]
        split
        · exact uadd_lt _ _
        · exact h0
      -- the step through a tallied character followed by the scan of `tl`
      have hstep : ∀ (w : Nat) (s0 : Scan) (tl : List Byte), tl.length ≤ n → MbOk s0.mbs →
          s0.linect = s.linect →
          (s.linect + ((if w = 10 then 1 else 0) + lfCount tl)) % UINTMAX_MOD
            = (s.linect + lfCount (b :: rest)) % UINTMAX_MOD →
          (scanBuf L fl tl (tally L w s0)).linect % UINTMAX_MOD
              = (s.linect + lfCount (b :: rest)) % UINTMAX_MOD ∧
            MbOk (scanBuf L fl tl (tally L w s0)).mbs ∧
            (s.linect < UINTMAX_MOD → (scanBuf L fl tl (tally L w s0)).linect < UINTMAX_MOD) := by
        intro w s0 tl htl2 hok0 hlin heq
        have hmbs : (tally L w s0).mbs = s0.mbs := (tally_rest L w s0).2.1
        have h := ih tl (tally L w s0) htl2 (by rw [hmbs]; exact hok0)
        refine ⟨?_, h.2.1, fun hlt => h.2.2 (htlt w s0 (by rw [hlin]; exact hlt))⟩
        rw [h.1, Nat.add_mod, htl, hlin, ← Nat.add_mod, ← heq]
        congr 1; omega
      by_cases hm : (!fl.domulti || L.MB_CUR_MAX == 1) = true
      · rw [scanBuf_cons_single L fl hm]
        exact hstep b.toNat s rest hlen hok rfl (by rw [lfCount_cons]; congr 1; omega)
      · have hm2 : (!fl.domulti || L.MB_CUR_MAX == 1) = false := by simpa using hm
        rw [scanBuf_cons_multi L fl hm2]
        rcases mbrtowc_spec b rest s.mbs hok with h | ⟨h, hlf, hok2, _⟩ | ⟨h, _, hb, hw, hst⟩ |
          ⟨h, hle, hst, _, hlf⟩
        · rw [if_pos h]
          have hwf := warnIlseq_fields s
          exact hstep b.toNat (warnIlseq s) rest hlen (by rw [hwf.2.2.2.2.1]; exact MbOk_init)
            hwf.1 (by rw [lfCount_cons]; congr 1; omega)
        · have h1 : (mbrtowc (b :: rest) s.mbs).ret ≠ -1 := by omega
          rw [if_neg h1, if_pos h]
          simp only [hlf, Nat.add_zero]
          exact ⟨trivial, hok2, fun h => h⟩
        · have h1 : (mbrtowc (b :: rest) s.mbs).ret ≠ -1 := by omega
          have h2 : (mbrtowc (b :: rest) s.mbs).ret ≠ -2 := by omega
          rw [if_neg h1, if_neg h2, if_pos h]
          refine hstep _ _ rest hlen (by simp only [hst]; exact MbOk_init) rfl ?_
          rw [lfCount_cons, hw, hb]
          congr 1; omega
        · have h1 : (mbrtowc (b :: rest) s.mbs).ret ≠ -1 := by omega
          have h2 : (mbrtowc (b :: rest) s.mbs).ret ≠ -2 := by omega
          have h3 : (mbrtowc (b :: rest) s.mbs).ret ≠ 0 := by omega
          rw [if_neg h1, if_neg h2, if_neg h3]
          have hk : 1 ≤ (mbrtowc (b :: rest) s.mbs).ret.toNat := by omega
          refine hstep _ _ _ ?_ (by simp only [hst]; exact MbOk_init) rfl ?_
          · simp only [List.length_drop, List.length_cons]; omega
          · conv_rhs => rw [← List.take_append_drop (mbrtowc (b :: rest) s.mbs).ret.toNat (b :: rest)]
            rw [lfCount_append, hlf]

/-! ## The read loops on streams whose reads all succeed -/

theorem scanReads_data (L : Locale) (fl : Flags) (chunks : List (List Byte))
    (hne : ∀ c ∈ chunks, c ≠ []) (s : Scan) :
    scanReads L fl (chunks.map Read.data) s = Outcome.done (scanChunks L fl chunks s) := by
  induction chunks generalizing s with
  | nil => rfl
  | cons c cs ih =>
    have hc : c ≠ [] := hne c (List.mem_cons_self _ _)
    cases c with
    | nil => exact absurd rfl hc
    | cons b buf =>
      simp only [List.map_cons, scanReads]
      rw [ih (fun c hc => hne c (List.mem_cons_of_mem _ hc))]
      rfl

theorem generalScan_data (L : Locale) (fl : Flags) (chunks : List (List Byte))
    (hne : ∀ c ∈ chunks, c ≠ []) :
    generalScan L fl (chunks.map Read.data)
      = Outcome.done (flushMbs L fl (scanChunks L fl chunks Scan.start)) := by
  unfold generalScan
  rw [scanReads_data L fl chunks hne]

theorem lineReads_data (chunks : List (List Byte)) (hne : ∀ c ∈ chunks, c ≠ []) (s : Scan) :
    lineReads (chunks.map Read.data) s = Outcome.done (lineChunks chunks s) := by
  induction chunks generalizing s with
  | nil => rfl
  | cons c cs ih =>
    have hc : c ≠ [] := hne c (List.mem_cons_self _ _)
    cases c with
    | nil => exact absurd rfl hc
    | cons b buf =>
      simp only [List.map_cons, lineReads]
      rw [ih (fun c hc => hne c (List.mem_cons_of_mem _ hc))]
      rfl

theorem countNewlines_mod (buf : List Byte) (n : Nat) :
    countNewlines buf n % UINTMAX_MOD = (n + lfCount buf) % UINTMAX_MOD ∧
    (n < UINTMAX_MOD → countNewlines buf n < UINTMAX_MOD) := by
  induction buf generalizing n with
  | nil => simp [countNewlines, lfCount]
  | cons b bs ih =>
    have hunf : countNewlines (b :: bs) n
        = countNewlines bs (if b.toNat = 10 then uadd n 1 else n) := rfl
    rw [hunf, lfCount_cons]
    by_cases hb : b.toNat = 10
    · simp only [hb, if_true]
      refine ⟨?_, fun _ => (ih _).2 (uadd_lt _ _)⟩
      rw [(ih _).1, uadd, Nat.mod_add_mod]
      congr 1; omega
    · simp only [hb, if_false, Nat.add_zero]
      exact ih n

theorem lineChunks_counts (chunks : List (List Byte)) (s : Scan) :
    (lineChunks chunks s).linect % UINTMAX_MOD
      = (s.linect + lfCount chunks.flatten) % UINTMAX_MOD ∧
    (lineChunks chunks s).charct % UINTMAX_MOD
      = (s.charct + chunks.flatten.length) % UINTMAX_MOD ∧
    (s.linect < UINTMAX_MOD → (lineChunks chunks s).linect < UINTMAX_MOD) ∧
    (s.charct < UINTMAX_MOD → (lineChunks chunks s).charct < UINTMAX_MOD) ∧
    (lineChunks chunks s).stderr = s.stderr := by
  induction chunks generalizing s with
  | nil => simp [lineChunks, lfCount]
  | cons c cs ih =>
    have hunf : lineChunks (c :: cs) s
        = lineChunks cs { s with charct := uadd s.charct c.length,
                                 linect := countNewlines c s.linect } := rfl
    rw [hunf]
    have h := ih { s with charct := uadd s.charct c.length, linect := countNewlines c s.linect }
    have hc := countNewlines_mod c s.linect
    refine ⟨?_, ?_, fun hlt => h.2.2.1 (hc.2 hlt), fun _ => h.2.2.2.1 (uadd_lt _ _), h.2.2.2.2⟩
    · rw [h.1, List.flatten_cons, lfCount_append]
      simp only
      rw [Nat.add_mod, hc.1, ← Nat.add_mod]
      congr 1; omega
    · rw [h.2.1, List.flatten_cons, List.length_append]
      simp only [uadd]
      rw [Nat.mod_add_mod]
      congr 1; omega

theorem scanChunks_linect (L : Locale) (fl : Flags) (chunks : List (List Byte)) (s : Scan)
    (hok : MbOk s.mbs) :
    (scanChunks L fl chunks s).linect % UINTMAX_MOD
      = (s.linect + lfCount chunks.flatten) % UINTMAX_MOD ∧
    (s.linect < UINTMAX_MOD → (scanChunks L fl chunks s).linect < UINTMAX_MOD) := by
  induction chunks generalizing s with
  | nil => simp [scanChunks, lfCount]
  | cons c cs ih =>
    have hunf : scanChunks L fl (c :: cs) s = scanChunks L fl cs (scanBuf L fl c s) := rfl
    rw [hunf]
    have hc := scanBuf_linect L fl c.length c s (Nat.le_refl _) hok
    have h := ih (scanBuf L fl c s) hc.2.1
    refine ⟨?_, fun hlt => h.2 (hc.2.2 hlt)⟩
    rw [h.1, List.flatten_cons, lfCount_append, Nat.add_mod, hc.1, ← Nat.add_mod]
    congr 1; omega

/-- C2: for every byte stream and every way of cutting it into non-empty reads,
in every locale and for every flag setting (so in single-byte mode and in
multibyte mode with the UTF-8 decoder, malformed sequences included), the
line-fast-path loop and the general scan both reach end of file with the same
`linect`, which is the number of `0x0A` bytes of the stream held in a
`uintmax_t` (modulo `2 ^ 64`; exactly that number for streams shorter than
`2 ^ 64` bytes). -/
theorem line_count_fast_path_eq_general_scan (L : Locale) (fl : Flags)
    (bytes : List Byte) (chunks : List (List Byte))
    (hne : ∀ c ∈ chunks, c ≠ []) (hjoin : chunks.flatten = bytes) :
    ∃ s1 s2, lineReads (chunks.map Read.data) Scan.start = Outcome.done s1 ∧
      generalScan L fl (chunks.map Read.data) = Outcome.done s2 ∧
      s1.linect = s2.linect ∧
      s2.linect = lfCount bytes % UINTMAX_MOD ∧
      (bytes.length < UINTMAX_MOD → s1.linect = lfCount bytes ∧ s2.linect = lfCount bytes) := by
  refine ⟨_, _, lineReads_data chunks hne _, generalScan_data L fl chunks hne, ?_⟩
  have h1 := lineChunks_counts chunks Scan.start
  have h2 := scanChunks_linect L fl chunks Scan.start MbOk_init
  have e1 : (lineChunks chunks Scan.start).linect = lfCount bytes % UINTMAX_MOD := by
    have := h1.1
    rw [Nat.mod_eq_of_lt (h1.2.2.1 start_lt.1), hjoin] at this
    simpa [Scan.start] using this
  have e2 : (flushMbs L fl (scanChunks L fl chunks Scan.start)).linect
      = lfCount bytes % UINTMAX_MOD := by
    rw [(flushMbs_counts L fl _).1]
    have := h2.1
    rw [Nat.mod_eq_of_lt (h2.2 start_lt.1), hjoin] at this
    simpa [Scan.start] using this
  refine ⟨by rw [e1, e2], e2, ?_⟩
  intro hlen
  have hlt : lfCount bytes % UINTMAX_MOD = lfCount bytes :=
    Nat.mod_eq_of_lt (Nat.lt_of_le_of_lt (lfCount_le_length bytes) hlen)
  exact ⟨by rw [e1, hlt], by rw [e2, hlt]⟩

theorem line_count_fast_path_eq_general_scan_witness :
    (∀ c ∈ ([[0x61, 0x0a, 0xe2], [0x0a, 0xf0, 0x9f], [0x98, 0x80, 0x0a]] : List (List Byte)), c ≠ []) ∧
    ∃ s1 s2, lineReads (([[0x61, 0x0a, 0xe2], [0x0a, 0xf0, 0x9f], [0x98, 0x80, 0x0a]] :
        List (List Byte)).map Read.data) Scan.start = Outcome.done s1 ∧
      generalScan localeUTF8 ⟨true, false, false, true⟩
        (([[0x61, 0x0a, 0xe2], [0x0a, 0xf0, 0x9f], [0x98, 0x80, 0x0a]] :
          List (List Byte)).map Read.data) = Outcome.done s2 ∧
      s1.linect = s2.linect ∧
      s2.linect = lfCount [0x61, 0x0a, 0xe2, 0x0a, 0xf0, 0x9f, 0x98, 0x80, 0x0a] % UINTMAX_MOD ∧
      (([0x61, 0x0a, 0xe2, 0x0a, 0xf0, 0x9f, 0x98, 0x80, 0x0a] : List Byte).length < UINTMAX_MOD →
        s1.linect = lfCount [0x61, 0x0a, 0xe2, 0x0a, 0xf0, 0x9f, 0x98, 0x80, 0x0a] ∧
        s2.linect = lfCount [0x61, 0x0a, 0xe2, 0x0a, 0xf0, 0x9f, 0x98, 0x80, 0x0a]) :=
  ⟨by decide, line_count_fast_path_eq_general_scan localeUTF8 ⟨true, false, false, true⟩
    [0x61, 0x0a, 0xe2, 0x0a, 0xf0, 0x9f, 0x98, 0x80, 0x0a]
    [[0x61, 0x0a, 0xe2], [0x0a, 0xf0, 0x9f], [0x98, 0x80, 0x0a]] (by decide) (by decide)⟩

/-! ## The decoder on a buffer and on a longer buffer -/

theorem contLoop_append (w ch : Nat) (x y : List Byte) :
    contLoop w ch (x ++ y) =
      match contLoop w ch x with
      | ContOut.more w1 ch1 => contLoop w1 ch1 y
      | r => r := by
  induction x generalizing w ch with
  | nil =>
    cases w with
    | zero => simp [contLoop]
    | succ n => simp [contLoop]
  | cons b x ih =>
    cases w with
    | zero => simp [contLoop]
    | succ n =>
      simp only [List.cons_append, contLoop]
      split
      · rfl
      · exact ih n _

theorem mbFinish_ret_neg_one_iff (len1 len2 lb : Nat) (ps1 ps2 : MbState) (c : ContOut) :
    (mbFinish len1 lb ps1 c).ret = -1 ↔ (mbFinish len2 lb ps2 c).ret = -1 := by
  cases c with
  | bad => simp [mbFinish]
  | more w ch => simp [mbFinish]
  | done wch =>
    unfold mbFinish
    by_cases h1 : wch < lb
    · simp [h1]
    · by_cases h2 : (0xd800 ≤ wch ∧ wch ≤ 0xdfff) ∨ 0x10ffff < wch
      · simp [h1, h2]
      · simp only [h1, h2, if_false]
        constructor
        · intro h; split at h <;> omega
        · intro h; split at h <;> omega

/-- The result of a call that completes, over the bytes `x ++ y`, a sequence
that `x` alone leaves incomplete, compared with the resuming call over `y`. -/
theorem mbFinish_resume (len w1 lb : Nat) (ps1 ps2 : MbState) (c : ContOut) (k : Nat)
    (hlen : len = k + w1) (hw1 : 1 ≤ w1) (hlb : 0x80 ≤ lb) :
    ((mbFinish len lb ps1 c).ret = -1 ↔ (mbFinish w1 lb ps2 c).ret = -1) ∧
    ((mbFinish w1 lb ps2 c).ret = -2 → mbFinish len lb ps1 c = mbFinish w1 lb ps2 c) ∧
    ((mbFinish w1 lb ps2 c).ret ≠ 0) ∧ ((mbFinish len lb ps1 c).ret ≠ 0) ∧
    (1 ≤ (mbFinish w1 lb ps2 c).ret →
      (mbFinish len lb ps1 c).ret = k + (mbFinish w1 lb ps2 c).ret ∧
      (mbFinish len lb ps1 c).wch = (mbFinish w1 lb ps2 c).wch ∧
      (mbFinish len lb ps1 c).mbs = MbState.init ∧ (mbFinish w1 lb ps2 c).mbs = MbState.init) := by
  refine ⟨mbFinish_ret_neg_one_iff _ _ _ _ _ _, ?_⟩
  cases c with
  | bad => simp [mbFinish]
  | more w ch => simp [mbFinish]
  | done wch =>
    unfold mbFinish
    by_cases h1 : wch < lb
    · simp [h1]
    · by_cases h2 : (0xd800 ≤ wch ∧ wch ≤ 0xdfff) ∨ 0x10ffff < wch
      · simp [h1, h2]
      · have hw0 : wch ≠ 0 := by omega
        simp only [h1, h2, if_false, hw0]
        subst hlen
        refine ⟨?_, ?_, ?_, ?_⟩
        · intro h; omega
        · omega
        · omega
        · intro _
          simp

theorem mbrtowc_resumed (b : Byte) (rest : List Byte) (ps : MbState)
    (h4 : ps.want ≤ 4) (h0 : ps.want ≠ 0) :
    mbrtowc (b :: rest) ps = mbFinish ps.want ps.lbound ps (contLoop ps.want ps.ch (b :: rest)) := by
  unfold mbrtowc
  have : ¬ 4 < ps.want := by omega
  simp only [this, if_false, h0]

theorem mbFinish_append_done (len lb w ch : Nat) (ps : MbState) (x y : List Byte)
    (h : (mbFinish len lb ps (contLoop w ch x)).ret ≠ -2) :
    mbFinish len lb ps (contLoop w ch (x ++ y)) = mbFinish len lb ps (contLoop w ch x) := by
  rw [contLoop_append]
  cases hc : contLoop w ch x with
  | bad => rfl
  | done wch => rfl
  | more w1 ch1 =>
    rw [hc] at h
    exact absurd rfl h

theorem mbFinish_append_more (len lb w ch pre : Nat) (ps : MbState) (x : List Byte)
    (b1 : Byte) (y : List Byte) (hlen : len = pre + w) (hw : w ≤ 3) (hlb : 0x80 ≤ lb)
    (h : (mbFinish len lb ps (contLoop w ch x)).ret = -2) :
    (mbFinish len lb ps (contLoop w ch x)).mbs.want ≠ 0 ∧
    ((mbFinish len lb ps (contLoop w ch (x ++ b1 :: y))).ret = -1 ↔
      (mbrtowc (b1 :: y) (mbFinish len lb ps (contLoop w ch x)).mbs).ret = -1) ∧
    ((mbrtowc (b1 :: y) (mbFinish len lb ps (contLoop w ch x)).mbs).ret = -2 →
      mbFinish len lb ps (contLoop w ch (x ++ b1 :: y))
        = mbrtowc (b1 :: y) (mbFinish len lb ps (contLoop w ch x)).mbs) ∧
    ((mbrtowc (b1 :: y) (mbFinish len lb ps (contLoop w ch x)).mbs).ret ≠ 0) ∧
    ((mbFinish len lb ps (contLoop w ch (x ++ b1 :: y))).ret ≠ 0) ∧
    (1 ≤ (mbrtowc (b1 :: y) (mbFinish len lb ps (contLoop w ch x)).mbs).ret →
      (mbFinish len lb ps (contLoop w ch (x ++ b1 :: y))).ret
        = ((pre + x.length : Nat) : Int)
          + (mbrtowc (b1 :: y) (mbFinish len lb ps (contLoop w ch x)).mbs).ret ∧
      (mbFinish len lb ps (contLoop w ch (x ++ b1 :: y))).wch
        = (mbrtowc (b1 :: y) (mbFinish len lb ps (contLoop w ch x)).mbs).wch ∧
      (mbFinish len lb ps (contLoop w ch (x ++ b1 :: y))).mbs = MbState.init ∧
      (mbrtowc (b1 :: y) (mbFinish len lb ps (contLoop w ch x)).mbs).mbs = MbState.init) := by
  rcases mbFinish_cases len lb ps (contLoop w ch x) with h1 | ⟨w1, ch1, hc, h1⟩ | ⟨wch, _, _, h1⟩
  · omega
  · have hm := contLoop_more hc
    rw [contLoop_append, hc]
    have e1 : mbFinish len lb ps (ContOut.more w1 ch1) = ⟨-2, 0, ⟨w1, lb, ch1⟩⟩ := rfl
    rw [e1]
    simp only
    rw [mbrtowc_resumed b1 y ⟨w1, lb, ch1⟩ (by simp only; omega) (by simp only; omega)]
    simp only
    have hres := mbFinish_resume len w1 lb ps ⟨w1, lb, ch1⟩ (contLoop w1 ch1 (b1 :: y))
      (pre + x.length) (by omega) hm.2.1 hlb
    exact ⟨by omega, hres.1, hres.2.1, hres.2.2.1, hres.2.2.2.1, hres.2.2.2.2⟩
  · rw [h1] at h
    simp only at h
    split at h <;> omega

/-- A call that does not end on an incomplete sequence gives the same result
when more bytes follow in the buffer. -/
theorem mbrtowc_append_done (b0 : Byte) (a y : List Byte) (ps : MbState)
    (h : (mbrtowc (b0 :: a) ps).ret ≠ -2) :
    mbrtowc (b0 :: a ++ y) ps = mbrtowc (b0 :: a) ps := by
  unfold mbrtowc at h ⊢
  by_cases h4 : 4 < ps.want
  · simp only [h4, if_true]
  · simp only [h4, if_false] at h ⊢
    by_cases h0 : ps.want = 0
    · simp only [h0, if_true, List.cons_append] at h ⊢
      split
      · rfl
      · rename_i hA
        simp only [hA, if_false] at h
        split
        · rename_i hB
          simp only [hB, if_true] at h
          exact mbFinish_append_done _ _ _ _ _ _ _ h
        · rename_i hB
          simp only [hB, if_false] at h
          split
          · rename_i hC
            simp only [hC, if_true] at h
            exact mbFinish_append_done _ _ _ _ _ _ _ h
          · rename_i hC
            simp only [hC, if_false] at h
            split
            · rename_i hD
              simp only [hD, if_true] at h
              exact mbFinish_append_done _ _ _ _ _ _ _ h
            · rfl
    · simp only [h0, if_false] at h ⊢
      exact mbFinish_append_done _ _ _ _ _ (b0 :: a) y h

/-- The shape of a call of the decoder on a non-empty buffer: either the first
byte alone decides the result, or the result is that of the continuation loop
over the bytes `x` that follow the `pre` bytes already looked at. -/
theorem mbrtowc_form (b0 : Byte) (rest : List Byte) (ps : MbState) (hps : MbOk ps) :
    ((mbrtowc (b0 :: rest) ps).ret ≠ -2 ∧
      ∀ y, mbrtowc (b0 :: rest ++ y) ps = mbrtowc (b0 :: rest) ps) ∨
    ∃ (len lb w ch pre : Nat) (x : List Byte),
      pre + x.length = (b0 :: rest).length ∧ len = pre + w ∧ w ≤ 3 ∧ 0x80 ≤ lb ∧
      ∀ y, mbrtowc (b0 :: rest ++ y) ps = mbFinish len lb ps (contLoop w ch (x ++ y)) := by
  have h4 : ¬ 4 < ps.want := by
    rcases hps with h | h <;> omega
  by_cases h0 : ps.want = 0
  · by_cases hA : b0.toNat &&& 0x80 = 0
    · left
      have hform : ∀ y, mbrtowc (b0 :: rest ++ y) ps
          = ⟨if b0.toNat ≠ 0 then 1 else 0, b0.toNat, MbState.init⟩ := by
        intro y
        simp only [mbrtowc, h0, Nat.not_lt_zero, if_false, if_true, hA, List.cons_append]
      have h1 := hform []
      rw [List.append_nil] at h1
      refine ⟨?_, fun y => by rw [hform y, h1]⟩
      rw [h1]
      simp only
      split <;> omega
    · by_cases hB : b0.toNat &&& 0xe0 = 0xc0
      · right
        refine ⟨2, 0x80, 1, b0.toNat &&& 0x1f, 1, rest, by simp; omega, rfl, by omega, by omega, ?_⟩
        intro y
        simp only [mbrtowc, h0, Nat.not_lt_zero, if_false, if_true, hA, hB, List.cons_append]
      · by_cases hC : b0.toNat &&& 0xf0 = 0xe0
        · right
          refine ⟨3, 0x800, 2, b0.toNat &&& 0x0f, 1, rest, by simp; omega, rfl, by omega,
            by omega, ?_⟩
          intro y
          simp only [mbrtowc, h0, Nat.not_lt_zero, if_false, if_true, hA, hB, hC, List.cons_append]
        · by_cases hD : b0.toNat &&& 0xf8 = 0xf0
          · right
            refine ⟨4, 0x10000, 3, b0.toNat &&& 0x07, 1, rest, by simp; omega, rfl, by omega,
              by omega, ?_⟩
            intro y
            simp only [mbrtowc, h0, Nat.not_lt_zero, if_false, if_true, hA, hB, hC, hD, List.cons_append]
          · left
            have hform : ∀ y, mbrtowc (b0 :: rest ++ y) ps = ⟨-1, 0, ps⟩ := by
              intro y
              simp only [mbrtowc, h0, Nat.not_lt_zero, if_false, if_true, hA, hB, hC, hD, List.cons_append]
            have h1 := hform []
            rw [List.append_nil] at h1
            refine ⟨?_, fun y => by rw [hform y, h1]⟩
            rw [h1]
            simp
  · right
    have hps2 : ps.want ≤ 3 ∧ 0x80 ≤ ps.lbound := by
      rcases hps with h | h
      · exact absurd h h0
      · exact h
    refine ⟨ps.want, ps.lbound, ps.want, ps.ch, 0, b0 :: rest, by simp, by omega, hps2.1,
      hps2.2, ?_⟩
    intro y
    rw [List.cons_append, mbrtowc_resumed b0 (rest ++ y) ps (by omega) h0]

/-- A call that ends on an incomplete sequence, against the call on the longer
buffer and the resuming call on the bytes added. -/
theorem mbrtowc_append_more (b0 : Byte) (a : List Byte) (ps : MbState) (b1 : Byte)
    (y : List Byte) (hps : MbOk ps) (h : (mbrtowc (b0 :: a) ps).ret = -2) :
    (mbrtowc (b0 :: a) ps).mbs.want ≠ 0 ∧
    ((mbrtowc (b0 :: a ++ b1 :: y) ps).ret = -1 ↔
      (mbrtowc (b1 :: y) (mbrtowc (b0 :: a) ps).mbs).ret = -1) ∧
    ((mbrtowc (b1 :: y) (mbrtowc (b0 :: a) ps).mbs).ret = -2 →
      mbrtowc (b0 :: a ++ b1 :: y) ps = mbrtowc (b1 :: y) (mbrtowc (b0 :: a) ps).mbs) ∧
    ((mbrtowc (b1 :: y) (mbrtowc (b0 :: a) ps).mbs).ret ≠ 0) ∧
    ((mbrtowc (b0 :: a ++ b1 :: y) ps).ret ≠ 0) ∧
    (1 ≤ (mbrtowc (b1 :: y) (mbrtowc (b0 :: a) ps).mbs).ret →
      (mbrtowc (b0 :: a ++ b1 :: y) ps).ret
        = (((b0 :: a).length : Nat) : Int) + (mbrtowc (b1 :: y) (mbrtowc (b0 :: a) ps).mbs).ret ∧
      (mbrtowc (b0 :: a ++ b1 :: y) ps).wch
        = (mbrtowc (b1 :: y) (mbrtowc (b0 :: a) ps).mbs).wch ∧
      (mbrtowc (b0 :: a ++ b1 :: y) ps).mbs = MbState.init ∧
      (mbrtowc (b1 :: y) (mbrtowc (b0 :: a) ps).mbs).mbs = MbState.init) := by
  rcases mbrtowc_form b0 a ps hps with ⟨hne, _⟩ | ⟨len, lb, w, ch, pre, x, hpx, hlen, hw, hlb, hform⟩
  · exact absurd h hne
  · have h1 := hform []
    rw [List.append_nil, List.append_nil] at h1
    rw [hform (b1 :: y), h1, ← hpx]
    rw [h1] at h
    exact mbFinish_append_more len lb w ch pre ps x b1 y hlen hw hlb h

/-! ## The general scan of a buffer and of the same bytes in two buffers -/

theorem tally_warned_mbs (L : Locale) (w : Nat) (s : Scan) :
    (tally L w s).warned = s.warned ∧ (tally L w s).mbs = s.mbs := by
  have h := tally_rest L w s
  exact ⟨h.1, h.2.1⟩

theorem scanBuf_warned_mono (L : Locale) (fl : Flags) (n : Nat) :
    ∀ (buf : List Byte) (s : Scan), buf.length ≤ n → s.warned = true →
      (scanBuf L fl buf s).warned = true := by
  induction n with
  | zero =>
    intro buf s hlen hw
    have : buf = [] := List.eq_nil_of_length_eq_zero (Nat.le_zero.mp hlen)
    subst this
    exact hw
  | succ n ih =>
    intro buf s hlen hw
    cases buf with
    | nil => exact hw
    | cons b rest =>
      simp only [List.length_cons, Nat.add_le_add_iff_right] at hlen
      by_cases hm : (!fl.domulti || L.MB_CUR_MAX == 1) = true
      · rw [scanBuf_cons_single L fl hm]
        exact ih rest _ hlen (by rw [(tally_warned_mbs L _ _).1]; exact hw)
      · have hm2 : (!fl.domulti || L.MB_CUR_MAX == 1) = false := by simpa using hm
        rw [scanBuf_cons_multi L fl hm2]
        split
        · exact ih rest _ hlen (by rw [(tally_warned_mbs L _ _).1]; exact (warnIlseq_fields s).2.2.2.2.2)
        · split
          · exact hw
          · split
            · exact ih rest _ hlen (by rw [(tally_warned_mbs L _ _).1]; exact hw)
            · rename_i h1 h2 h3
              refine ih _ _ ?_ (by rw [(tally_warned_mbs L _ _).1]; exact hw)
              rcases mbrtowc_ret (b :: rest) s.mbs with h | h | h | h
              · exact absurd h h1
              · exact absurd h h2
              · exact absurd h h3
              · simp only [List.length_drop, List.length_cons]; omega

/-- In multibyte mode the scan of `a ++ b` as one buffer is the scan of `a`
followed by the scan of `b`, unless `a` ends inside a multibyte sequence and
the decoder reports an error when it resumes that sequence on `b`. -/
theorem scanBuf_append (L : Locale) (fl : Flags)
    (hm : (!fl.domulti || L.MB_CUR_MAX == 1) = false) (n : Nat) :
    ∀ (a b : List Byte) (s : Scan), a.length ≤ n → MbOk s.mbs →
      (b = [] ∨ (scanBuf L fl a s).mbs.want = 0 ∨
        (mbrtowc b (scanBuf L fl a s).mbs).ret ≠ -1) →
      scanBuf L fl (a ++ b) s = scanBuf L fl b (scanBuf L fl a s) := by
  induction n with
  | zero =>
    intro a b s hlen _ _
    have : a = [] := List.eq_nil_of_length_eq_zero (Nat.le_zero.mp hlen)
    subst this
    rfl
  | succ n ih =>
    intro a b s hlen hok hcond
    cases a with
    | nil => rfl
    | cons b0 a =>
      simp only [List.length_cons, Nat.add_le_add_iff_right] at hlen
      by_cases hr : (mbrtowc (b0 :: a) s.mbs).ret = -2
      · -- `a` ends inside a sequence
        have hsa : scanBuf L fl (b0 :: a) s = { s with mbs := (mbrtowc (b0 :: a) s.mbs).mbs } := by
          rw [scanBuf_cons_multi L fl hm, if_neg (by omega), if_pos hr]
        cases b with
        | nil => rw [List.append_nil]; rfl
        | cons b1 y =>
          have hap := mbrtowc_append_more b0 a s.mbs b1 y hok hr
          rw [hsa] at hcond ⊢
          simp only at hcond
          have hq1 : (mbrtowc (b1 :: y) (mbrtowc (b0 :: a) s.mbs).mbs).ret ≠ -1 := by
            rcases hcond with h | h | h
            · cases h
            · exact absurd h hap.1
            · exact h
          have hr1 : (mbrtowc (b0 :: a ++ b1 :: y) s.mbs).ret ≠ -1 := fun h => hq1 (hap.2.1.mp h)
          rw [scanBuf_cons_multi L fl hm b1 y, List.cons_append, scanBuf_cons_multi L fl hm b0]
          simp only
          rw [if_neg hq1, if_neg (by rw [← List.cons_append]; exact hr1)]
          rcases mbrtowc_ret (b1 :: y) (mbrtowc (b0 :: a) s.mbs).mbs with h | h | h | h
          · exact absurd h hq1
          · have e := hap.2.2.1 h
            rw [List.cons_append] at e
            rw [if_pos h, if_pos (by rw [e]; exact h), e]
          · exact absurd h hap.2.2.2.1
          · have e := hap.2.2.2.2.2 h
            rw [List.cons_append] at e
            have hr0 := hap.2.2.2.2.1
            rw [List.cons_append] at hr0
            have hk : (mbrtowc (b0 :: (a ++ b1 :: y)) s.mbs).ret.toNat
                = (b0 :: a).length + (mbrtowc (b1 :: y) (mbrtowc (b0 :: a) s.mbs).mbs).ret.toNat := by
              rw [e.1]; omega
            have hq2 : (mbrtowc (b1 :: y) (mbrtowc (b0 :: a) s.mbs).mbs).ret ≠ -2 := by omega
            have hr2 : (mbrtowc (b0 :: (a ++ b1 :: y)) s.mbs).ret ≠ -2 := by rw [e.1]; omega
            rw [if_neg hr2, if_neg hr0, if_neg hq2, if_neg hap.2.2.2.1,
              hk, e.2.1, e.2.2.1, e.2.2.2, ← List.cons_append, List.drop_append]
      · -- the first character of `a` is decided inside `a`
        have e := mbrtowc_append_done b0 a b s.mbs hr
        have hstep : ∀ (tl : List Byte) (s0 : Scan), tl.length ≤ n → MbOk s0.mbs →
            scanBuf L fl (b0 :: a) s = scanBuf L fl tl s0 →
            scanBuf L fl (tl ++ b) s0 = scanBuf L fl b (scanBuf L fl (b0 :: a) s) := by
          intro tl s0 htl hok0 heq
          rw [heq] at hcond ⊢
          exact ih tl b s0 htl hok0 hcond
        rcases mbrtowc_spec b0 a s.mbs hok with h | ⟨h, _⟩ | ⟨h, _, _, _, hst⟩ | ⟨h, hle, hst, _, _⟩
        · have hsa : scanBuf L fl (b0 :: a) s = scanBuf L fl a (tally L b0.toNat (warnIlseq s)) := by
            rw [scanBuf_cons_multi L fl hm, if_pos h]
          rw [List.cons_append, scanBuf_cons_multi L fl hm b0 (a ++ b), ← List.cons_append, e,
            if_pos h]
          exact hstep a _ hlen (by
            rw [(tally_warned_mbs L _ _).2, (warnIlseq_fields s).2.2.2.2.1]; exact MbOk_init) hsa
        · exact absurd h hr
        · have hsa : scanBuf L fl (b0 :: a) s = scanBuf L fl a (tally L (mbrtowc (b0 :: a) s.mbs).wch
              { s with mbs := (mbrtowc (b0 :: a) s.mbs).mbs }) := by
            rw [scanBuf_cons_multi L fl hm, if_neg (by omega), if_neg (by omega), if_pos h]
          rw [List.cons_append, scanBuf_cons_multi L fl hm b0 (a ++ b), ← List.cons_append, e,
            if_neg (by omega), if_neg (by omega), if_pos h]
          exact hstep a _ hlen (by
            rw [(tally_warned_mbs L _ _).2]; simp only [hst]; exact MbOk_init) hsa
        · have hsa : scanBuf L fl (b0 :: a) s
              = scanBuf L fl ((b0 :: a).drop (mbrtowc (b0 :: a) s.mbs).ret.toNat)
                (tally L (mbrtowc (b0 :: a) s.mbs).wch
                  { s with mbs := (mbrtowc (b0 :: a) s.mbs).mbs }) := by
            rw [scanBuf_cons_multi L fl hm, if_neg (by omega), if_neg (by omega), if_neg (by omega)]
          rw [List.cons_append, scanBuf_cons_multi L fl hm b0 (a ++ b), ← List.cons_append, e,
            if_neg (by omega), if_neg (by omega), if_neg (by omega),
            List.drop_append_of_le_length hle]
          refine hstep _ _ ?_ (by
            rw [(tally_warned_mbs L _ _).2]; simp only [hst]; exact MbOk_init) hsa
          simp only [List.length_drop, List.length_cons]; omega

/-- If the scan of `a ++ b` as one buffer meets no invalid sequence, the decoder
does not fail when it resumes on `b` after the scan of `a`. -/
theorem scanBuf_clean (L : Locale) (fl : Flags)
    (hm : (!fl.domulti || L.MB_CUR_MAX == 1) = false) (n : Nat) :
    ∀ (a b : List Byte) (s : Scan), a.length ≤ n → MbOk s.mbs →
      (scanBuf L fl (a ++ b) s).warned = false →
      (b = [] ∨ (scanBuf L fl a s).mbs.want = 0 ∨
        (mbrtowc b (scanBuf L fl a s).mbs).ret ≠ -1) := by
  have hfirst : ∀ (b1 : Byte) (y : List Byte) (s : Scan),
      (scanBuf L fl (b1 :: y) s).warned = false → (mbrtowc (b1 :: y) s.mbs).ret ≠ -1 := by
    intro b1 y s hw h
    rw [scanBuf_cons_multi L fl hm, if_pos h] at hw
    have := scanBuf_warned_mono L fl y.length y (tally L b1.toNat (warnIlseq s)) (Nat.le_refl _)
      (by rw [(tally_warned_mbs L _ _).1]; exact (warnIlseq_fields s).2.2.2.2.2)
    rw [this] at hw
    cases hw
  induction n with
  | zero =>
    intro a b s hlen _ hw
    have : a = [] := List.eq_nil_of_length_eq_zero (Nat.le_zero.mp hlen)
    subst this
    cases b with
    | nil => exact Or.inl rfl
    | cons b1 y => exact Or.inr (Or.inr (hfirst b1 y s hw))
  | succ n ih =>
    intro a b s hlen hok hw
    cases a with
    | nil =>
      cases b with
      | nil => exact Or.inl rfl
      | cons b1 y => exact Or.inr (Or.inr (hfirst b1 y s hw))
    | cons b0 a =>
      simp only [List.length_cons, Nat.add_le_add_iff_right] at hlen
      by_cases hr : (mbrtowc (b0 :: a) s.mbs).ret = -2
      · have hsa : scanBuf L fl (b0 :: a) s = { s with mbs := (mbrtowc (b0 :: a) s.mbs).mbs } := by
          rw [scanBuf_cons_multi L fl hm, if_neg (by omega), if_pos hr]
        cases b with
        | nil => exact Or.inl rfl
        | cons b1 y =>
          have hap := mbrtowc_append_more b0 a s.mbs b1 y hok hr
          rw [hsa]
          right; right
          intro hq
          have hr1 := hap.2.1.mpr hq
          rw [List.cons_append] at hw hr1
          exact hfirst b0 (a ++ b1 :: y) s hw hr1
      · have e := mbrtowc_append_done b0 a b s.mbs hr
        have hstep : ∀ (tl : List Byte) (s0 : Scan), tl.length ≤ n → MbOk s0.mbs →
            scanBuf L fl (b0 :: a) s = scanBuf L fl tl s0 →
            (scanBuf L fl (tl ++ b) s0).warned = false →
            (b = [] ∨ (scanBuf L fl (b0 :: a) s).mbs.want = 0 ∨
              (mbrtowc b (scanBuf L fl (b0 :: a) s).mbs).ret ≠ -1) := by
          intro tl s0 htl hok0 heq hw0
          rw [heq]
          exact ih tl b s0 htl hok0 hw0
        rw [List.cons_append, scanBuf_cons_multi L fl hm b0 (a ++ b), ← List.cons_append, e] at hw
        rcases mbrtowc_spec b0 a s.mbs hok with h | ⟨h, _⟩ | ⟨h, _, _, _, hst⟩ | ⟨h, hle, hst, _, _⟩
        · rw [if_pos h] at hw
          exact hstep a _ hlen (by
            rw [(tally_warned_mbs L _ _).2, (warnIlseq_fields s).2.2.2.2.1]; exact MbOk_init)
            (by rw [scanBuf_cons_multi L fl hm, if_pos h]) hw
        · exact absurd h hr
        · rw [if_neg (by omega), if_neg (by omega), if_pos h] at hw
          exact hstep a _ hlen (by
            rw [(tally_warned_mbs L _ _).2]; simp only [hst]; exact MbOk_init)
            (by rw [scanBuf_cons_multi L fl hm, if_neg (by omega), if_neg (by omega), if_pos h]) hw
        · rw [if_neg (by omega), if_neg (by omega), if_neg (by omega),
            List.drop_append_of_le_length hle] at hw
          refine hstep _ _ ?_ (by
            rw [(tally_warned_mbs L _ _).2]; simp only [hst]; exact MbOk_init)
            (by rw [scanBuf_cons_multi L fl hm, if_neg (by omega), if_neg (by omega),
              if_neg (by omega)]) hw
          simp only [List.length_drop, List.length_cons]; omega

/-- In multibyte mode, when the scan of the whole stream as one buffer meets no
invalid sequence, the scan of the stream cut into buffers gives the same. -/
theorem scanChunks_eq_scanBuf (L : Locale) (fl : Flags)
    (hm : (!fl.domulti || L.MB_CUR_MAX == 1) = false) (chunks : List (List Byte)) :
    ∀ s : Scan, MbOk s.mbs → (scanBuf L fl chunks.flatten s).warned = false →
      scanChunks L fl chunks s = scanBuf L fl chunks.flatten s := by
  induction chunks with
  | nil => intro s _ _; rfl
  | cons c cs ih =>
    intro s hok hw
    rw [List.flatten_cons] at hw ⊢
    have hcond := scanBuf_clean L fl hm c.length c cs.flatten s (Nat.le_refl _) hok hw
    have happ := scanBuf_append L fl hm c.length c cs.flatten s (Nat.le_refl _) hok hcond
    have hunf : scanChunks L fl (c :: cs) s = scanChunks L fl cs (scanBuf L fl c s) := rfl
    rw [hunf, happ]
    rw [happ] at hw
    exact ih _ (scanBuf_linect L fl c.length c s (Nat.le_refl _) hok).2.1 hw

/-! ## Claims about the multibyte general scan -/

theorem multi_mode (L : Locale) (fl : Flags) (h : fl.domulti = true ∧ 1 < L.MB_CUR_MAX) :
    (!fl.domulti || L.MB_CUR_MAX == 1) = false := by
  have h1 : L.MB_CUR_MAX ≠ 1 := by omega
  simp [h.1, h1]

/-- C4, counterexample: in the UTF-8 locale with `-l -w -m`, the stream
`E2 20 41` read whole gives 3 characters and 2 words (`E2` is an invalid
sequence, counted as a character that begins a word), but read as `E2` then
`20 41` it gives 2 characters and 1 word: the byte `E2`, held in the conversion
state when the first read ends, is dropped when the decoder fails on the
second read. -/
theorem general_scan_multibyte_split_counterexample :
    generalScan localeUTF8 ⟨true, true, false, true⟩ [Read.data [0xe2, 0x20, 0x41]]
      = Outcome.done ⟨0, 2, 3, false, true, MbState.init, [Diag.ilseq]⟩ ∧
    generalScan localeUTF8 ⟨true, true, false, true⟩
        [Read.data (([0xe2, 0x20, 0x41] : List Byte).take 1),
         Read.data (([0xe2, 0x20, 0x41] : List Byte).drop 1)]
      = Outcome.done ⟨0, 1, 2, false, true, MbState.init, [Diag.ilseq]⟩ := by
  decide

/-- C4, amended: in multibyte mode (`domulti` set, `MB_CUR_MAX > 1`, UTF-8
decoder), for every byte stream and every split offset `k`, also inside a
multibyte sequence, such that the first read ends with the decoder in its
initial state or the decoder does not report an invalid sequence when it
resumes on the second read, the general scan over the two reads
`stream[0..k)`, `stream[k..)` ends in the same state (same `linect`, `wordct`,
`charct`, same diagnostics) as over the single contiguous read. -/
theorem general_scan_multibyte_split (L : Locale) (fl : Flags)
    (hmulti : fl.domulti = true ∧ 1 < L.MB_CUR_MAX) (bytes : List Byte) (k : Nat)
    (hk : 0 < k) (hkl : k ≤ bytes.length)
    (hres : (scanBuf L fl (bytes.take k) Scan.start).mbs.want = 0 ∨
      (mbrtowc (bytes.drop k) (scanBuf L fl (bytes.take k) Scan.start).mbs).ret ≠ -1) :
    ∃ s, generalScan L fl [Read.data bytes] = Outcome.done s ∧
      generalScan L fl [Read.data (bytes.take k), Read.data (bytes.drop k)] = Outcome.done s := by
  have hm := multi_mode L fl hmulti
  have happ := scanBuf_append L fl hm (bytes.take k).length (bytes.take k) (bytes.drop k)
    Scan.start (Nat.le_refl _) MbOk_init (Or.inr hres)
  rw [List.take_append_drop] at happ
  have hne : bytes ≠ [] := by
    intro h0; rw [h0] at hkl; simp at hkl; omega
  have htake : bytes.take k ≠ [] := by
    intro h0
    have := congrArg List.length h0
    rw [List.length_take, List.length_nil] at this
    omega
  have hone : generalScan L fl [Read.data bytes]
      = Outcome.done (flushMbs L fl (scanBuf L fl bytes Scan.start)) := by
    have := generalScan_data L fl [bytes] (by simpa using hne)
    simpa [scanChunks] using this
  refine ⟨_, hone, ?_⟩
  by_cases hd : bytes.drop k = []
  · rw [hd] at happ ⊢
    rw [happ, scanBuf_nil]
    cases ht : bytes.take k with
    | nil => exact absurd ht htake
    | cons b t => simp [generalScan, scanReads]
  · have := generalScan_data L fl [bytes.take k, bytes.drop k] (by
      intro c hc
      simp only [List.mem_cons, List.mem_singleton, List.not_mem_nil, or_false] at hc
      rcases hc with rfl | rfl
      · exact htake
      · exact hd)
    rw [happ]
    simpa [scanChunks] using this

theorem general_scan_multibyte_split_witness :
    (0 < 1 ∧ 1 ≤ ([0xe2, 0x82, 0xac, 0x20, 0x41] : List Byte).length) ∧
    ∃ s, generalScan localeUTF8 ⟨true, true, false, true⟩
        [Read.data [0xe2, 0x82, 0xac, 0x20, 0x41]] = Outcome.done s ∧
      generalScan localeUTF8 ⟨true, true, false, true⟩
        [Read.data (([0xe2, 0x82, 0xac, 0x20, 0x41] : List Byte).take 1),
         Read.data (([0xe2, 0x82, 0xac, 0x20, 0x41] : List Byte).drop 1)] = Outcome.done s :=
  ⟨by decide, general_scan_multibyte_split localeUTF8 ⟨true, true, false, true⟩ (by decide)
    [0xe2, 0x82, 0xac, 0x20, 0x41] 1 (by decide) (by decide) (by decide)⟩

theorem wellFormedChar_cases {c : List Byte} (h : wellFormedChar c = true) :
    ∃ b0 c', c = b0 :: c' ∧
      (((mbrtowc (b0 :: c') MbState.init).ret = ((b0 :: c').length : Int)) ∨
       ((mbrtowc (b0 :: c') MbState.init).ret = 0 ∧ c' = [])) := by
  cases c with
  | nil => simp [wellFormedChar, mbrtowc, MbState.init] at h
  | cons b0 c' =>
    refine ⟨b0, c', rfl, ?_⟩
    simp only [wellFormedChar, Bool.or_eq_true, beq_iff_eq, Bool.and_eq_true] at h
    rcases h with h | ⟨h1, h2⟩
    · exact Or.inl h
    · right
      refine ⟨h1, ?_⟩
      simp only [List.length_cons] at h2
      exact List.eq_nil_of_length_eq_zero (by omega)

/-- In multibyte mode the scan of a buffer made of well-formed encoded
characters tallies one character for each of them and leaves the decoder in its
initial state. -/
theorem scanBuf_wellFormed (L : Locale) (fl : Flags)
    (hm : (!fl.domulti || L.MB_CUR_MAX == 1) = false) (chars : List (List Byte)) :
    ∀ s : Scan, s.mbs = MbState.init → (∀ c ∈ chars, wellFormedChar c = true) →
      scanBuf L fl chars.flatten s = tallyChars L chars s := by
  induction chars with
  | nil => intro s _ _; rfl
  | cons c cs ih =>
    intro s hs hwf
    obtain ⟨b0, c', rfl, hc⟩ := wellFormedChar_cases (hwf c (List.mem_cons_self _ _))
    have hwf2 : ∀ c ∈ cs, wellFormedChar c = true := fun c hc => hwf c (List.mem_cons_of_mem _ hc)
    have hunf : tallyChars L ((b0 :: c') :: cs) s
        = tallyChars L cs (tally L (mbrtowc (b0 :: c') MbState.init).wch s) := rfl
    have hne2 : (mbrtowc (b0 :: c') MbState.init).ret ≠ -2 := by
      rcases hc with h | ⟨h, _⟩
      · rw [h]; simp only [List.length_cons]; omega
      · omega
    have e := mbrtowc_append_done b0 c' cs.flatten MbState.init hne2
    have hs2 : ({ s with mbs := MbState.init } : Scan) = s := by
      cases s; simp only at hs; subst hs; rfl
    rw [hunf, List.flatten_cons, List.cons_append, scanBuf_cons_multi L fl hm, hs,
      ← List.cons_append, e]
    rcases mbrtowc_spec b0 c' MbState.init MbOk_init with h | ⟨h, _⟩ | ⟨h, _, _, _, hst⟩ |
      ⟨h, hle, hst, _, _⟩
    · rcases hc with h' | ⟨h', _⟩
      · rw [h'] at h; simp only [List.length_cons] at h; omega
      · omega
    · exact absurd h hne2
    · rcases hc with h' | ⟨_, h'⟩
      · rw [h'] at h; simp only [List.length_cons] at h; omega
      · subst h'
        rw [if_neg (by omega), if_neg (by omega), if_pos h, hst, hs2, List.nil_append]
        exact ih _ (by rw [(tally_warned_mbs L _ _).2]; exact hs) hwf2
    · rcases hc with h' | ⟨h', _⟩
      · rw [if_neg (by omega), if_neg (by omega), if_neg (by omega), hst, hs2, h']
        have : ((((b0 :: c').length : Nat) : Int)).toNat = (b0 :: c').length := by omega
        rw [this, List.drop_left]
        exact ih _ (by rw [(tally_warned_mbs L _ _).2]; exact hs) hwf2
      · omega

theorem tallyChars_fields (L : Locale) (chars : List (List Byte)) (s : Scan) :
    (tallyChars L chars s).charct % UINTMAX_MOD = (s.charct + chars.length) % UINTMAX_MOD ∧
    (s.charct < UINTMAX_MOD → (tallyChars L chars s).charct < UINTMAX_MOD) ∧
    (tallyChars L chars s).warned = s.warned ∧ (tallyChars L chars s).mbs = s.mbs ∧
    (tallyChars L chars s).stderr = s.stderr := by
  induction chars generalizing s with
  | nil => simp [tallyChars]
  | cons c cs ih =>
    have hunf : tallyChars L (c :: cs) s
        = tallyChars L cs (tally L (mbrtowc c MbState.init).wch s) := rfl
    rw [hunf]
    have h := ih (tally L (mbrtowc c MbState.init).wch s)
    have ht := tally_rest L (mbrtowc c MbState.init).wch s
    refine ⟨?_, fun _ => h.2.1 (by rw [tally_charct]; exact uadd_lt _ _), h.2.2.1.trans ht.1,
      h.2.2.2.1.trans ht.2.1, h.2.2.2.2.trans ht.2.2⟩
    rw [h.1, tally_charct, uadd, Nat.mod_add_mod, List.length_cons]
    congr 1; omega

theorem length_flatten_of_length_eq (N : Nat) (chars : List (List Byte))
    (h : ∀ c ∈ chars, c.length = N) : chars.flatten.length = N * chars.length := by
  induction chars with
  | nil => simp
  | cons c cs ih =>
    rw [List.flatten_cons, List.length_append, ih (fun c hc => h c (List.mem_cons_of_mem _ hc)),
      h c (List.mem_cons_self _ _), List.length_cons]
    ring

/-- C10: in multibyte mode (`domulti` set, `MB_CUR_MAX > 1`, UTF-8 decoder), for
every stream that is a concatenation of well-formed encoded characters each
exactly `N ≥ 1` bytes long, and every way of cutting it into non-empty reads,
the general scan reaches end of file with `charct = byteCount / N` (one per
decoded character; held in a `uintmax_t`, so modulo `2 ^ 64`, and exactly
`byteCount / N` for streams shorter than `2 ^ 64` bytes) and with no warning
written. -/
theorem general_scan_charct_n_byte_chars (L : Locale) (fl : Flags)
    (hmulti : fl.domulti = true ∧ 1 < L.MB_CUR_MAX) (N : Nat) (hN : 1 ≤ N)
    (chars : List (List Byte)) (hwf : ∀ c ∈ chars, wellFormedChar c = true ∧ c.length = N)
    (chunks : List (List Byte)) (hne : ∀ c ∈ chunks, c ≠ [])
    (hjoin : chunks.flatten = chars.flatten) :
    ∃ s, generalScan L fl (chunks.map Read.data) = Outcome.done s ∧
      s.charct = (chars.flatten.length / N) % UINTMAX_MOD ∧
      (chars.flatten.length < UINTMAX_MOD → s.charct = chars.flatten.length / N) ∧
      s.warned = false ∧ s.stderr = [] := by
  have hm := multi_mode L fl hmulti
  have hcont := scanBuf_wellFormed L fl hm chars Scan.start rfl (fun c hc => (hwf c hc).1)
  have hf := tallyChars_fields L chars Scan.start
  have hw : (scanBuf L fl chunks.flatten Scan.start).warned = false := by
    rw [hjoin, hcont, hf.2.2.1]; rfl
  have hch := scanChunks_eq_scanBuf L fl hm chunks Scan.start MbOk_init hw
  rw [hjoin, hcont] at hch
  have hlen := length_flatten_of_length_eq N chars (fun c hc => (hwf c hc).2)
  have hdiv : chars.flatten.length / N = chars.length := by
    rw [hlen]; exact Nat.mul_div_cancel_left _ (by omega)
  have hflush : flushMbs L fl (tallyChars L chars Scan.start) = tallyChars L chars Scan.start := by
    unfold flushMbs
    have : mbrtowcFlush (tallyChars L chars Scan.start).mbs ≠ -1 := by
      rw [hf.2.2.2.1]; decide
    simp [this]
  have hc1 : (tallyChars L chars Scan.start).charct = chars.length % UINTMAX_MOD := by
    have := hf.1
    rw [Nat.mod_eq_of_lt (hf.2.1 start_lt.2.2)] at this
    simpa [Scan.start] using this
  refine ⟨_, generalScan_data L fl chunks hne, ?_, ?_, ?_, ?_⟩
  · rw [hch, hflush, hdiv, hc1]
  · intro hl
    rw [hch, hflush, hdiv, hc1]
    apply Nat.mod_eq_of_lt
    have : chars.length ≤ chars.flatten.length := by
      rw [hlen]; exact Nat.le_mul_of_pos_left _ (by omega)
    omega
  · rw [hch, hflush, hf.2.2.1]; rfl
  · rw [hch, hflush, hf.2.2.2.2]; rfl

theorem general_scan_charct_n_byte_chars_witness :
    (1 ≤ 3 ∧
     (∀ c ∈ ([[0xe2, 0x82, 0xac], [0xe3, 0x81, 0x82], [0xe2, 0x80, 0x83]] : List (List Byte)),
        wellFormedChar c = true ∧ c.length = 3) ∧
     (∀ c ∈ ([[0xe2, 0x82], [0xac, 0xe3, 0x81, 0x82, 0xe2], [0x80], [0x83]] : List (List Byte)),
        c ≠ [])) ∧
    ∃ s, generalScan localeUTF8 ⟨false, false, false, true⟩
        (([[0xe2, 0x82], [0xac, 0xe3, 0x81, 0x82, 0xe2], [0x80], [0x83]] :
          List (List Byte)).map Read.data) = Outcome.done s ∧
      s.charct = (([[0xe2, 0x82, 0xac], [0xe3, 0x81, 0x82], [0xe2, 0x80, 0x83]] :
          List (List Byte)).flatten.length / 3) % UINTMAX_MOD ∧
      ((([[0xe2, 0x82, 0xac], [0xe3, 0x81, 0x82], [0xe2, 0x80, 0x83]] :
          List (List Byte)).flatten.length < UINTMAX_MOD) →
        s.charct = ([[0xe2, 0x82, 0xac], [0xe3, 0x81, 0x82], [0xe2, 0x80, 0x83]] :
          List (List Byte)).flatten.length / 3) ∧
      s.warned = false ∧ s.stderr = [] :=
  ⟨by decide, general_scan_charct_n_byte_chars localeUTF8 ⟨false, false, false, true⟩ (by decide)
    3 (by decide) [[0xe2, 0x82, 0xac], [0xe3, 0x81, 0x82], [0xe2, 0x80, 0x83]] (by decide)
    [[0xe2, 0x82], [0xac, 0xe3, 0x81, 0x82, 0xe2], [0x80], [0x83]] (by decide) (by decide)⟩

/-! ## Whitespace padding -/

theorem wordsFrom_append_ws {α : Type} (sp : α → Bool) (g : Bool) (a b : List α) (w : α)
    (hw : sp w = true) :
    wordsFrom sp g (a ++ w :: b) = wordsFrom sp g a + wordsFrom sp true b := by
  induction a generalizing g with
  | nil => simp [wordsFrom, hw]
  | cons x a ih =>
    by_cases hx : sp x = true
    · simp [wordsFrom, hx, ih]
    · simp [wordsFrom, hx, ih]; omega

theorem wordsFrom_wsPad {α : Type} (sp : α → Bool) (xs ys : List α) (h : WsPad sp xs ys) :
    wordsFrom sp true xs = wordsFrom sp true ys := by
  cases h with
  | atStart w xs hw => simp [wordsFrom, hw]
  | atEnd w xs hw => rw [wordsFrom_append_ws sp true xs [] w hw]; simp [wordsFrom]
  | after a b x w hx hw =>
    rw [wordsFrom_append_ws sp true a b x hx, wordsFrom_append_ws sp true a (w :: b) x hx]
    simp [wordsFrom, hw]
  | before a b x w hx hw =>
    rw [wordsFrom_append_ws sp true a b x hx, wordsFrom_append_ws sp true a (x :: b) w hw]
    simp [wordsFrom, hx]
  | replace a b w w' hw hw' =>
    rw [wordsFrom_append_ws sp true a b w hw, wordsFrom_append_ws sp true a b w' hw']

theorem tallyChars_wordct (L : Locale) (chars : List (List Byte)) (s : Scan) :
    (tallyChars L chars s).wordct % UINTMAX_MOD
      = (s.wordct + wordsFrom (fun c => L.iswspace (mbrtowc c MbState.init).wch) s.gotsp chars)
          % UINTMAX_MOD ∧
    (s.wordct < UINTMAX_MOD → (tallyChars L chars s).wordct < UINTMAX_MOD) := by
  induction chars generalizing s with
  | nil => simp [tallyChars, wordsFrom]
  | cons c cs ih =>
    have hunf : tallyChars L (c :: cs) s
        = tallyChars L cs (tally L (mbrtowc c MbState.init).wch s) := rfl
    rw [hunf]
    have h := ih (tally L (mbrtowc c MbState.init).wch s)
    refine ⟨?_, fun hlt => h.2 (by
      rw [tally_wordct]
      split
      · exact uadd_lt _ _
      · exact hlt)⟩
    rw [h.1, tally_wordct, tally_gotsp]
    by_cases hw : L.iswspace (mbrtowc c MbState.init).wch = true
    · simp [hw, wordsFrom]
    · have hw2 : L.iswspace (mbrtowc c MbState.init).wch = false := by simpa using hw
      cases hg : s.gotsp
      · simp [hw2, hg, wordsFrom]
      · simp only [hw2, hg, and_self, if_true, uadd, Nat.mod_add_mod, wordsFrom, Bool.false_eq_true,
          if_false]
        congr 1; omega

/-- The word count of the general scan of a stream of single-byte characters,
however it is cut into reads. -/
theorem generalScan_single_wordct (L : Locale) (fl : Flags)
    (hmode : fl.domulti = false ∨ L.MB_CUR_MAX = 1) (bytes : List Byte)
    (chunks : List (List Byte)) (hne : ∀ c ∈ chunks, c ≠ []) (hjoin : chunks.flatten = bytes) :
    ∃ s, generalScan L fl (chunks.map Read.data) = Outcome.done s ∧
      s.wordct = wordsFrom (fun b : Byte => L.iswspace b.toNat) true bytes % UINTMAX_MOD := by
  refine ⟨_, generalScan_single L fl hmode chunks hne, ?_⟩
  rw [hjoin, (tallyAll_start L bytes).2.1]

/-- The word count of the general scan of a stream of well-formed encoded
characters in multibyte mode, however it is cut into reads. -/
theorem generalScan_wellFormed_wordct (L : Locale) (fl : Flags)
    (hmulti : fl.domulti = true ∧ 1 < L.MB_CUR_MAX) (chars : List (List Byte))
    (hwf : ∀ c ∈ chars, wellFormedChar c = true)
    (chunks : List (List Byte)) (hne : ∀ c ∈ chunks, c ≠ [])
    (hjoin : chunks.flatten = chars.flatten) :
    ∃ s, generalScan L fl (chunks.map Read.data) = Outcome.done s ∧
      s.wordct = wordsFrom (fun c => L.iswspace (mbrtowc c MbState.init).wch) true chars
        % UINTMAX_MOD := by
  have hm := multi_mode L fl hmulti
  have hcont := scanBuf_wellFormed L fl hm chars Scan.start rfl hwf
  have hf := tallyChars_fields L chars Scan.start
  have hw : (scanBuf L fl chunks.flatten Scan.start).warned = false := by
    rw [hjoin, hcont, hf.2.2.1]; rfl
  have hch := scanChunks_eq_scanBuf L fl hm chunks Scan.start MbOk_init hw
  rw [hjoin, hcont] at hch
  refine ⟨_, generalScan_data L fl chunks hne, ?_⟩
  rw [hch, (flushMbs_counts L fl _).2.1]
  have h := tallyChars_wordct L chars Scan.start
  have h1 := h.1
  rw [Nat.mod_eq_of_lt (h.2 start_lt.2.1)] at h1
  simpa [Scan.start] using h1

/-- C9, counterexample: in the UTF-8 locale with `-w -m`, the stream `E2` (the
first byte of a three-byte sequence, left incomplete at end of file) has no
word, and the same stream with a space added at its end has one: the space
makes `E2` an invalid sequence, which is counted as a character and begins a
word. -/
theorem word_count_whitespace_padding_counterexample :
    generalScan localeUTF8 ⟨false, true, false, true⟩ [Read.data [0xe2]]
      = Outcome.done ⟨0, 0, 0, true, false, ⟨2, 0x800, 2⟩, [Diag.ilseq]⟩ ∧
    generalScan localeUTF8 ⟨false, true, false, true⟩ [Read.data ([0xe2] ++ [0x20])]
      = Outcome.done ⟨0, 1, 2, true, true, MbState.init, [Diag.ilseq]⟩ ∧
    localeUTF8.iswspace 0x20 = true := by
  decide

/-- C9, amended: the word count of the general scan is invariant under
whitespace padding for every stream in single-byte mode, and in multibyte mode
for every stream that is a concatenation of well-formed encoded characters:
adding one more whitespace character at the start of the stream, at its end,
right after or right before a whitespace character, or replacing a whitespace
character by another one, leaves `wordct` unchanged, however the two streams
are cut into reads; and in the "C" locale the streams `a  b`, `a b`, `a\tb`,
`a\nb` and `  a b  ` all give `wordct = 2`. -/
theorem word_count_whitespace_padding (L : Locale) (fl : Flags) :
    (fl.domulti = false ∨ L.MB_CUR_MAX = 1 →
      ∀ xs ys : List Byte, WsPad (fun b : Byte => L.iswspace b.toNat) xs ys →
      ∀ cx cy : List (List Byte), (∀ c ∈ cx, c ≠ []) → (∀ c ∈ cy, c ≠ []) →
        cx.flatten = xs → cy.flatten = ys →
        ∃ sx sy, generalScan L fl (cx.map Read.data) = Outcome.done sx ∧
          generalScan L fl (cy.map Read.data) = Outcome.done sy ∧ sx.wordct = sy.wordct) ∧
    (fl.domulti = true ∧ 1 < L.MB_CUR_MAX →
      ∀ xs ys : List (List Byte), (∀ c ∈ xs, wellFormedChar c = true) →
        (∀ c ∈ ys, wellFormedChar c = true) →
        WsPad (fun c => L.iswspace (mbrtowc c MbState.init).wch) xs ys →
      ∀ cx cy : List (List Byte), (∀ c ∈ cx, c ≠ []) → (∀ c ∈ cy, c ≠ []) →
        cx.flatten = xs.flatten → cy.flatten = ys.flatten →
        ∃ sx sy, generalScan L fl (cx.map Read.data) = Outcome.done sx ∧
          generalScan L fl (cy.map Read.data) = Outcome.done sy ∧ sx.wordct = sy.wordct) ∧
    (generalScan localeC ⟨true, true, true, false⟩ [Read.data [0x61, 0x20, 0x20, 0x62]]
        = Outcome.done ⟨0, 2, 4, false, false, MbState.init, []⟩ ∧
      generalScan localeC ⟨true, true, true, false⟩ [Read.data [0x61, 0x20, 0x62]]
        = Outcome.done ⟨0, 2, 3, false, false, MbState.init, []⟩ ∧
      generalScan localeC ⟨true, true, true, false⟩ [Read.data [0x61, 0x09, 0x62]]
        = Outcome.done ⟨0, 2, 3, false, false, MbState.init, []⟩ ∧
      generalScan localeC ⟨true, true, true, false⟩ [Read.data [0x61, 0x0a, 0x62]]
        = Outcome.done ⟨1, 2, 3, false, false, MbState.init, []⟩ ∧
      generalScan localeC ⟨true, true, true, false⟩
          [Read.data [0x20, 0x20, 0x61, 0x20, 0x62, 0x20, 0x20]]
        = Outcome.done ⟨0, 2, 7, true, false, MbState.init, []⟩) := by
  refine ⟨?_, ?_, by decide⟩
  · intro hmode xs ys hpad cx cy hcx hcy hjx hjy
    obtain ⟨sx, hsx, hwx⟩ := generalScan_single_wordct L fl hmode xs cx hcx hjx
    obtain ⟨sy, hsy, hwy⟩ := generalScan_single_wordct L fl hmode ys cy hcy hjy
    exact ⟨sx, sy, hsx, hsy, by rw [hwx, hwy, wordsFrom_wsPad _ xs ys hpad]⟩
  · intro hmulti xs ys hwx hwy hpad cx cy hcx hcy hjx hjy
    obtain ⟨sx, hsx, hex⟩ := generalScan_wellFormed_wordct L fl hmulti xs hwx cx hcx hjx
    obtain ⟨sy, hsy, hey⟩ := generalScan_wellFormed_wordct L fl hmulti ys hwy cy hcy hjy
    exact ⟨sx, sy, hsx, hsy, by rw [hex, hey, wordsFrom_wsPad _ xs ys hpad]⟩

theorem word_count_whitespace_padding_witness :
    ∃ sx sy, generalScan localeC ⟨true, true, true, false⟩
        (([[0x61], [0x20, 0x62]] : List (List Byte)).map Read.data) = Outcome.done sx ∧
      generalScan localeC ⟨true, true, true, false⟩
        (([[0x61, 0x20], [0x09, 0x62]] : List (List Byte)).map Read.data) = Outcome.done sy ∧
      sx.wordct = sy.wordct :=
  (word_count_whitespace_padding localeC ⟨true, true, true, false⟩).1 (Or.inl rfl)
    [0x61, 0x20, 0x62] [0x61, 0x20, 0x09, 0x62]
    (WsPad.after [0x61] [0x62] 0x20 0x09 (by decide) (by decide))
    [[0x61], [0x20, 0x62]] [[0x61, 0x20], [0x09, 0x62]] (by decide) (by decide) (by decide)
    (by decide)

/-! ## Claims about `cnt` -/

/-- C6: the line-fast-path folds and prints the char count only under `dochar`.
With `-l -m` in the "C" locale (`doline`, `domulti`, `MB_CUR_MAX == 1`) the
stream `a\n` takes the line-fast-path: `cnt` returns 0, prints the line count
alone and leaves `tcharct` at 0, although the two bytes were counted; with
`-l -c` the same stream prints the char count 2 and adds it to `tcharct`. -/
theorem line_fast_path_drops_multibyte_char_count :
    cnt localeC ⟨true, false, false, true⟩
        ⟨false, true, some SMALL_BUF_SIZE, true, some ⟨true, 2⟩, [Read.data [0x61, 0x0a]]⟩
        State.init
      = (0, ⟨1, 0, 0, true, SMALL_BUF_SIZE, [Out.lines 1], []⟩) ∧
    lineReads [Read.data [0x61, 0x0a]] Scan.start
      = Outcome.done ⟨1, 0, 2, true, false, MbState.init, []⟩ ∧
    cnt localeC ⟨true, false, true, false⟩
        ⟨false, true, some SMALL_BUF_SIZE, true, some ⟨true, 2⟩, [Read.data [0x61, 0x0a]]⟩
        State.init
      = (0, ⟨1, 0, 2, true, SMALL_BUF_SIZE, [Out.lines 1, Out.chars 2], []⟩) := by
  decide

/-- C5: with `-l -m` in the "C" locale, the two streams `a\n` and `bc\n` are
both scanned successfully on the line-fast-path, which counts 2 and 3 bytes;
after the batch `tlinect` is 2, the sum of the line counts, but `tcharct` is
still 0 and not 5, although the char metric is selected and `wc_main` prints
`tcharct` as its total. -/
theorem running_totals_miss_multibyte_char_count :
    countFiles localeC ⟨true, false, false, true⟩
        [⟨false, true, some SMALL_BUF_SIZE, true, some ⟨true, 2⟩, [Read.data [0x61, 0x0a]]⟩,
         ⟨false, true, some SMALL_BUF_SIZE, true, some ⟨true, 3⟩, [Read.data [0x62, 0x63, 0x0a]]⟩]
        0 State.init
      = (0, ⟨2, 0, 0, true, SMALL_BUF_SIZE, [Out.lines 1, Out.lines 1], []⟩) ∧
    lineReads [Read.data [0x61, 0x0a]] Scan.start
      = Outcome.done ⟨1, 0, 2, true, false, MbState.init, []⟩ ∧
    lineReads [Read.data [0x62, 0x63, 0x0a]] Scan.start
      = Outcome.done ⟨1, 0, 3, true, false, MbState.init, []⟩ := by
  decide

/-- C7, counterexample: with `-c` alone, a stream on which `fstat` fails makes
`cnt` write the `fstat` message and return 1; nothing is scanned or counted. -/
theorem fstat_failure_is_an_error :
    cnt localeC ⟨false, false, true, false⟩
        ⟨false, true, some SMALL_BUF_SIZE, true, none, [Read.data [0x61, 0x0a]]⟩ State.init
      = (1, ⟨0, 0, 0, true, SMALL_BUF_SIZE, [], [Diag.fstatErr]⟩) := by
  decide

/-- C7, amended: when only a char metric is requested (no lines, no words,
`dochar` or `domulti`, and not `domulti` with a multibyte encoding, which goes
straight to the general scan) and the stream was opened: if `fstat` fails,
`cnt` reports it (the `fstat` message) and returns 1 with the totals and the
output as they were; if `fstat` succeeds and the stream is not a regular file,
`cnt` falls through to the general scan and, when all reads succeed, returns 0
with the number of characters read (the number of bytes, as a `uintmax_t`)
printed as char count and added to `tcharct`. -/
theorem cnt_char_only_fstat (L : Locale) (fl : Flags) (f : File) (g : State)
    (hline : fl.doline = false) (hword : fl.doword = false)
    (hchar : fl.dochar = true ∨ fl.domulti = true)
    (hmode : fl.domulti = false ∨ L.MB_CUR_MAX = 1)
    (hopen : f.stdin = true ∨ f.openOk = true) :
    (f.fstat = none →
      cnt L fl f g = (1, { sizeBuffer f g with stderr := g.stderr ++ [Diag.fstatErr] })) ∧
    (∀ sb, f.fstat = some sb → sb.isReg = false →
      cnt L fl f g = cntWord L fl f (sizeBuffer f g) ∧
      ∀ chunks : List (List Byte), (∀ c ∈ chunks, c ≠ []) → f.reads = chunks.map Read.data →
        cnt L fl f g = (0, { sizeBuffer f g with
          tcharct := uadd g.tcharct (chunks.flatten.length % UINTMAX_MOD),
          stdout := g.stdout ++ [Out.chars (chunks.flatten.length % UINTMAX_MOD)] })) := by
  have hopen2 : (!f.stdin && !f.openOk) = false := by
    rcases hopen with h | h <;> simp [h]
  have hw : (fl.doword || (fl.domulti && L.MB_CUR_MAX != 1)) = false := by
    rcases hmode with h | h <;> simp [hword, h]
  have hc : (fl.dochar || fl.domulti) = true := by
    rcases hchar with h | h <;> simp [h]
  have hsb : (sizeBuffer f g).stderr = g.stderr ∧ (sizeBuffer f g).stdout = g.stdout ∧
      (sizeBuffer f g).tcharct = g.tcharct := by
    unfold sizeBuffer
    dsimp only
    split_ifs <;> simp
  constructor
  · intro hst
    simp only [cnt, hopen2, Bool.false_eq_true, if_false, hw, hline, hc, if_true, hst, hsb.1]
  · intro sb hst hreg
    have hcnt : cnt L fl f g = cntWord L fl f (sizeBuffer f g) := by
      simp only [cnt, hopen2, Bool.false_eq_true, if_false, hw, hline, hc, if_true, hst, hreg]
    refine ⟨hcnt, ?_⟩
    intro chunks hne hreads
    rw [hcnt]
    unfold cntWord
    rw [hreads, generalScan_single L fl hmode chunks hne]
    have hs := tallyAll_start L chunks.flatten
    have hr := tallyAll_rest L chunks.flatten Scan.start
    simp only [hline, hword, hc, Bool.false_eq_true, if_false, if_true, hs.2.2, hr.2.2, hsb.1,
      hsb.2.1, hsb.2.2]
    simp only [Scan.start, List.append_nil]

theorem cnt_char_only_fstat_witness :
    (cnt localeC ⟨false, false, true, false⟩
        ⟨false, true, some SMALL_BUF_SIZE, true, some ⟨false, 0⟩, [Read.data [0x61, 0x0a]]⟩
        State.init
      = cntWord localeC ⟨false, false, true, false⟩
        ⟨false, true, some SMALL_BUF_SIZE, true, some ⟨false, 0⟩, [Read.data [0x61, 0x0a]]⟩
        (sizeBuffer ⟨false, true, some SMALL_BUF_SIZE, true, some ⟨false, 0⟩,
          [Read.data [0x61, 0x0a]]⟩ State.init)) :=
  ((cnt_char_only_fstat localeC ⟨false, false, true, false⟩
    ⟨false, true, some SMALL_BUF_SIZE, true, some ⟨false, 0⟩, [Read.data [0x61, 0x0a]]⟩
    State.init rfl rfl (Or.inl rfl) (Or.inl rfl) (Or.inr rfl)).2 ⟨false, 0⟩ rfl rfl).1

/-- C8: with only bytes requested (`dochar` alone), for a stream backed by a
regular file whose reported size `st_size` is the number of bytes of the
stream, the size-shortcut path of `cnt` returns 0, prints `st_size` as char
count and adds it to `tcharct`; the general scan of the same bytes, under any
cutting into non-empty reads, ends with `charct = st_size`, the byte length,
and `cnt` gives exactly what the general scan would have given. -/
theorem size_shortcut_eq_general_scan (L : Locale) (fl : Flags) (f : File) (g : State)
    (hline : fl.doline = false) (hword : fl.doword = false) (hchar : fl.dochar = true)
    (hmulti : fl.domulti = false) (hopen : f.stdin = true ∨ f.openOk = true)
    (sb : Stat) (hstat : f.fstat = some sb) (hreg : sb.isReg = true)
    (hoff : sb.st_size < 2 ^ 63)
    (chunks : List (List Byte)) (hne : ∀ c ∈ chunks, c ≠ [])
    (hreads : f.reads = chunks.map Read.data) (hsize : sb.st_size = chunks.flatten.length) :
    cnt L fl f g = (0, { sizeBuffer f g with
        stdout := g.stdout ++ [Out.chars sb.st_size],
        tcharct := uadd g.tcharct sb.st_size }) ∧
    (∃ s, generalScan L fl f.reads = Outcome.done s ∧ s.charct = sb.st_size ∧
      s.charct = chunks.flatten.length) ∧
    cnt L fl f g = cntWord L fl f (sizeBuffer f g) := by
  have hopen2 : (!f.stdin && !f.openOk) = false := by
    rcases hopen with h | h <;> simp [h]
  have hsb : (sizeBuffer f g).stderr = g.stderr ∧ (sizeBuffer f g).stdout = g.stdout ∧
      (sizeBuffer f g).tcharct = g.tcharct := by
    unfold sizeBuffer
    dsimp only
    split_ifs <;> simp
  have hcnt : cnt L fl f g = (0, { sizeBuffer f g with
      stdout := g.stdout ++ [Out.chars sb.st_size],
      tcharct := uadd g.tcharct sb.st_size }) := by
    simp only [cnt, hopen2, Bool.false_eq_true, if_false, hword, hmulti, hline, hchar,
      Bool.false_and, Bool.or_false, Bool.true_or, if_true, hstat, hreg, hsb.2.1, hsb.2.2]
  have hs := tallyAll_start L chunks.flatten
  have hr := tallyAll_rest L chunks.flatten Scan.start
  have hlt : chunks.flatten.length % UINTMAX_MOD = chunks.flatten.length := by
    apply Nat.mod_eq_of_lt
    rw [← hsize]
    exact Nat.lt_trans hoff (by decide)
  refine ⟨hcnt, ⟨_, by rw [hreads]; exact generalScan_single L fl (Or.inl hmulti) chunks hne,
    by rw [hs.2.2, hlt, hsize], by rw [hs.2.2, hlt]⟩, ?_⟩
  rw [hcnt]
  unfold cntWord
  rw [hreads, generalScan_single L fl (Or.inl hmulti) chunks hne]
  simp only [hline, hword, hchar, Bool.false_eq_true, if_false, Bool.true_or, if_true, hs.2.2,
    hr.2.2, hsb.1, hsb.2.1, hsb.2.2, hlt, hsize]
  simp only [Scan.start, List.append_nil]

theorem size_shortcut_eq_general_scan_witness :
    cnt localeC ⟨false, false, true, false⟩
        ⟨false, true, some SMALL_BUF_SIZE, true, some ⟨true, 5⟩,
          [Read.data [0x61, 0x62], Read.data [0x20, 0x63, 0x0a]]⟩ State.init
      = (0, { sizeBuffer ⟨false, true, some SMALL_BUF_SIZE, true, some ⟨true, 5⟩,
          [Read.data [0x61, 0x62], Read.data [0x20, 0x63, 0x0a]]⟩ State.init with
        stdout := State.init.stdout ++ [Out.chars 5],
        tcharct := uadd State.init.tcharct 5 }) ∧
    (∃ s, generalScan localeC ⟨false, false, true, false⟩
        [Read.data [0x61, 0x62], Read.data [0x20, 0x63, 0x0a]] = Outcome.done s ∧
      s.charct = 5 ∧
      s.charct = ([[0x61, 0x62], [0x20, 0x63, 0x0a]] : List (List Byte)).flatten.length) ∧
    cnt localeC ⟨false, false, true, false⟩
        ⟨false, true, some SMALL_BUF_SIZE, true, some ⟨true, 5⟩,
          [Read.data [0x61, 0x62], Read.data [0x20, 0x63, 0x0a]]⟩ State.init
      = cntWord localeC ⟨false, false, true, false⟩
        ⟨false, true, some SMALL_BUF_SIZE, true, some ⟨true, 5⟩,
          [Read.data [0x61, 0x62], Read.data [0x20, 0x63, 0x0a]]⟩
        (sizeBuffer ⟨false, true, some SMALL_BUF_SIZE, true, some ⟨true, 5⟩,
          [Read.data [0x61, 0x62], Read.data [0x20, 0x63, 0x0a]]⟩ State.init) :=
  size_shortcut_eq_general_scan localeC ⟨false, false, true, false⟩
    ⟨false, true, some SMALL_BUF_SIZE, true, some ⟨true, 5⟩,
      [Read.data [0x61, 0x62], Read.data [0x20, 0x63, 0x0a]]⟩ State.init
    rfl rfl rfl rfl (Or.inr rfl) ⟨true, 5⟩ rfl rfl (by decide)
    [[0x61, 0x62], [0x20, 0x63, 0x0a]] (by decide) rfl (by decide)

/-! ## Streams of white space, empty streams -/

theorem wordsFrom_all_ws {α : Type} (sp : α → Bool) (g : Bool) (bs : List α)
    (h : ∀ b ∈ bs, sp b = true) : wordsFrom sp g bs = 0 := by
  induction bs generalizing g with
  | nil => rfl
  | cons b bs ih =>
    have hb : sp b = true := h b (List.mem_cons_self _ _)
    simp only [wordsFrom, hb, if_true]
    exact ih true (fun x hx => h x (List.mem_cons_of_mem _ hx))

/-- C12: for every stream that consists of whitespace characters only, scanned
in single-byte mode and cut into non-empty reads in any way, the general scan
reaches end of file with `wordct = 0`, `linect` the number of line-feed bytes
and `charct` the byte length of the stream (as `uintmax_t`, so modulo `2 ^ 64`,
and exactly those numbers when the stream is shorter than `2 ^ 64` bytes); for
three spaces, a newline, two spaces in the "C" locale: 0 words, 1 line, 6
chars. -/
theorem whitespace_only_stream_counts (L : Locale) (fl : Flags)
    (hmode : fl.domulti = false ∨ L.MB_CUR_MAX = 1) (bytes : List Byte)
    (hws : ∀ b ∈ bytes, L.iswspace b.toNat = true)
    (chunks : List (List Byte)) (hne : ∀ c ∈ chunks, c ≠ []) (hjoin : chunks.flatten = bytes) :
    (∃ s, generalScan L fl (chunks.map Read.data) = Outcome.done s ∧
      s.wordct = 0 ∧ s.linect = lfCount bytes % UINTMAX_MOD ∧
      s.charct = bytes.length % UINTMAX_MOD ∧
      (bytes.length < UINTMAX_MOD → s.linect = lfCount bytes ∧ s.charct = bytes.length)) ∧
    generalScan localeC ⟨true, true, true, false⟩ [Read.data [0x20, 0x20, 0x20, 0x0a, 0x20, 0x20]]
      = Outcome.done ⟨1, 0, 6, true, false, MbState.init, []⟩ := by
  refine ⟨⟨_, generalScan_single L fl hmode chunks hne, ?_, ?_, ?_, ?_⟩, by decide⟩
  · rw [hjoin, (tallyAll_start L bytes).2.1,
      wordsFrom_all_ws (fun b : Byte => L.iswspace b.toNat) true bytes hws]
    rfl
  · rw [hjoin, (tallyAll_start L bytes).1]
  · rw [hjoin, (tallyAll_start L bytes).2.2]
  · intro hlen
    rw [hjoin, (tallyAll_start L bytes).1, (tallyAll_start L bytes).2.2]
    exact ⟨Nat.mod_eq_of_lt (Nat.lt_of_le_of_lt (lfCount_le_length bytes) hlen),
      Nat.mod_eq_of_lt hlen⟩

theorem whitespace_only_stream_counts_witness :
    (∃ s, generalScan localeC ⟨true, true, true, false⟩
        (([[0x20, 0x09], [0x0a, 0x0a, 0x20]] : List (List Byte)).map Read.data) = Outcome.done s ∧
      s.wordct = 0 ∧ s.linect = lfCount [0x20, 0x09, 0x0a, 0x0a, 0x20] % UINTMAX_MOD ∧
      s.charct = ([0x20, 0x09, 0x0a, 0x0a, 0x20] : List Byte).length % UINTMAX_MOD ∧
      (([0x20, 0x09, 0x0a, 0x0a, 0x20] : List Byte).length < UINTMAX_MOD →
        s.linect = lfCount [0x20, 0x09, 0x0a, 0x0a, 0x20] ∧
        s.charct = ([0x20, 0x09, 0x0a, 0x0a, 0x20] : List Byte).length)) ∧
    generalScan localeC ⟨true, true, true, false⟩ [Read.data [0x20, 0x20, 0x20, 0x0a, 0x20, 0x20]]
      = Outcome.done ⟨1, 0, 6, true, false, MbState.init, []⟩ :=
  whitespace_only_stream_counts localeC ⟨true, true, true, false⟩ (Or.inl rfl)
    [0x20, 0x09, 0x0a, 0x0a, 0x20] (by decide) [[0x20, 0x09], [0x0a, 0x0a, 0x20]] (by decide)
    (by decide)

/-! ## `cnt` on streams that are empty or fail -/

theorem sizeBuffer_fields (f : File) (g : State) :
    (sizeBuffer f g).tlinect = g.tlinect ∧ (sizeBuffer f g).twordct = g.twordct ∧
    (sizeBuffer f g).tcharct = g.tcharct ∧ (sizeBuffer f g).stdout = g.stdout ∧
    (sizeBuffer f g).stderr = g.stderr := by
  unfold sizeBuffer
  dsimp only
  split_ifs <;> simp

theorem uadd_zero (a : Nat) (h : a < UINTMAX_MOD) : uadd a 0 = a := by
  unfold uadd
  rw [Nat.add_zero]
  exact Nat.mod_eq_of_lt h

theorem scanReads_empty (L : Locale) (fl : Flags) (reads : List Read)
    (h : reads = [] ∨ ∃ rs, reads = Read.data [] :: rs) (s : Scan) :
    scanReads L fl reads s = Outcome.done s := by
  rcases h with h | ⟨rs, h⟩ <;> subst h <;> rfl

theorem lineReads_empty (reads : List Read)
    (h : reads = [] ∨ ∃ rs, reads = Read.data [] :: rs) (s : Scan) :
    lineReads reads s = Outcome.done s := by
  rcases h with h | ⟨rs, h⟩ <;> subst h <;> rfl

theorem flushMbs_start (L : Locale) (fl : Flags) : flushMbs L fl Scan.start = Scan.start := by
  unfold flushMbs
  have : mbrtowcFlush Scan.start.mbs ≠ -1 := by decide
  simp [this]

theorem generalScan_empty (L : Locale) (fl : Flags) (reads : List Read)
    (h : reads = [] ∨ ∃ rs, reads = Read.data [] :: rs) :
    generalScan L fl reads = Outcome.done Scan.start := by
  unfold generalScan
  rw [scanReads_empty L fl reads h]
  simp only [flushMbs_start]

theorem cntWord_empty (L : Locale) (fl : Flags) (f : File) (g : State)
    (h : f.reads = [] ∨ ∃ rs, f.reads = Read.data [] :: rs)
    (htot : g.tlinect < UINTMAX_MOD ∧ g.twordct < UINTMAX_MOD ∧ g.tcharct < UINTMAX_MOD) :
    (cntWord L fl f g).1 = 0 ∧ (cntWord L fl f g).2.tlinect = g.tlinect ∧
    (cntWord L fl f g).2.twordct = g.twordct ∧ (cntWord L fl f g).2.tcharct = g.tcharct ∧
    (cntWord L fl f g).2.stderr = g.stderr ∧
    ∃ outs, (cntWord L fl f g).2.stdout = g.stdout ++ outs ∧
      ∀ o ∈ outs, o = Out.lines 0 ∨ o = Out.words 0 ∨ o = Out.chars 0 := by
  unfold cntWord
  rw [generalScan_empty L fl f.reads h]
  have h1 := uadd_zero _ htot.1
  have h2 := uadd_zero _ htot.2.1
  have h3 := uadd_zero _ htot.2.2
  cases hl : fl.doline <;> cases hw : fl.doword <;> cases hc : fl.dochar <;>
    cases hm : fl.domulti <;>
    simp [Scan.start, h1, h2, h3]

theorem cntLine_empty (fl : Flags) (f : File) (g : State)
    (h : f.reads = [] ∨ ∃ rs, f.reads = Read.data [] :: rs)
    (htot : g.tlinect < UINTMAX_MOD ∧ g.twordct < UINTMAX_MOD ∧ g.tcharct < UINTMAX_MOD) :
    (cntLine fl f g).1 = 0 ∧ (cntLine fl f g).2.tlinect = g.tlinect ∧
    (cntLine fl f g).2.twordct = g.twordct ∧ (cntLine fl f g).2.tcharct = g.tcharct ∧
    (cntLine fl f g).2.stderr = g.stderr ∧
    ∃ outs, (cntLine fl f g).2.stdout = g.stdout ++ outs ∧
      ∀ o ∈ outs, o = Out.lines 0 ∨ o = Out.words 0 ∨ o = Out.chars 0 := by
  unfold cntLine
  rw [lineReads_empty f.reads h]
  have h1 := uadd_zero _ htot.1
  have h3 := uadd_zero _ htot.2.2
  cases hc : fl.dochar <;>
    simp [Scan.start, h1, h3]

/-- C13: for the empty stream (the first read returns 0; when the size query is
made it succeeds, and a regular file has size 0), for every metric selection
and in every locale, on whichever path is taken: `cnt` returns 0, every count
it prints is 0 (the locals `linect`, `wordct`, `charct` of both scan loops are
0), nothing is written to `thread_stderr`, and the running totals, being
`uintmax_t` values, keep their values. -/
theorem empty_stream_counts_zero (L : Locale) (fl : Flags) (f : File) (g : State)
    (hopen : f.stdin = true ∨ f.openOk = true)
    (hreads : f.reads = [] ∨ ∃ rs, f.reads = Read.data [] :: rs)
    (hstat : f.fstat = none → fl.doword = true ∨ fl.doline = true ∨
      (fl.domulti = true ∧ L.MB_CUR_MAX ≠ 1) ∨ (fl.dochar = false ∧ fl.domulti = false))
    (hsize : ∀ sb, f.fstat = some sb → sb.isReg = true → sb.st_size = 0)
    (htot : g.tlinect < UINTMAX_MOD ∧ g.twordct < UINTMAX_MOD ∧ g.tcharct < UINTMAX_MOD) :
    ((cnt L fl f g).1 = 0 ∧ (cnt L fl f g).2.tlinect = g.tlinect ∧
      (cnt L fl f g).2.twordct = g.twordct ∧ (cnt L fl f g).2.tcharct = g.tcharct ∧
      (cnt L fl f g).2.stderr = g.stderr ∧
      ∃ outs, (cnt L fl f g).2.stdout = g.stdout ++ outs ∧
        ∀ o ∈ outs, o = Out.lines 0 ∨ o = Out.words 0 ∨ o = Out.chars 0) ∧
    generalScan L fl f.reads = Outcome.done ⟨0, 0, 0, true, false, MbState.init, []⟩ ∧
    lineReads f.reads Scan.start = Outcome.done ⟨0, 0, 0, true, false, MbState.init, []⟩ := by
  refine ⟨?_, generalScan_empty L fl f.reads hreads, lineReads_empty f.reads hreads _⟩
  have hopen2 : (!f.stdin && !f.openOk) = false := by
    rcases hopen with h | h <;> simp [h]
  have hsb := sizeBuffer_fields f g
  have htot2 : (sizeBuffer f g).tlinect < UINTMAX_MOD ∧ (sizeBuffer f g).twordct < UINTMAX_MOD ∧
      (sizeBuffer f g).tcharct < UINTMAX_MOD := by
    rw [hsb.1, hsb.2.1, hsb.2.2.1]; exact htot
  have hW := cntWord_empty L fl f (sizeBuffer f g) hreads htot2
  have hLn := cntLine_empty fl f (sizeBuffer f g) hreads htot2
  rw [hsb.1, hsb.2.1, hsb.2.2.1, hsb.2.2.2.1, hsb.2.2.2.2] at hW hLn
  unfold cnt
  rw [hopen2]
  simp only [Bool.false_eq_true, if_false]
  split
  · exact hW
  · rename_i hw
    split
    · exact hLn
    · rename_i hl
      split
      · rename_i hc
        cases hst : f.fstat with
        | none =>
          exfalso
          rcases hstat hst with h | h | ⟨h1, h2⟩ | ⟨h1, h2⟩
          · simp [h] at hw
          · exact hl h
          · simp [h1, h2] at hw
          · simp [h1, h2] at hc
        | some sb =>
          simp only
          split
          · rename_i hreg
            have h0 := hsize sb hst hreg
            rw [h0]
            simp only [hsb.1, hsb.2.1, hsb.2.2.1, hsb.2.2.2.1, hsb.2.2.2.2, uadd_zero _ htot.2.2]
            exact ⟨trivial, trivial, trivial, trivial, trivial, [Out.chars 0], rfl, by simp⟩
          · exact hW
      · exact hW

theorem empty_stream_counts_zero_witness :
    ((cnt localeUTF8 ⟨false, false, false, true⟩
        ⟨false, true, some SMALL_BUF_SIZE, true, some ⟨true, 0⟩, []⟩ State.init).1 = 0 ∧
      (cnt localeUTF8 ⟨false, false, false, true⟩
        ⟨false, true, some SMALL_BUF_SIZE, true, some ⟨true, 0⟩, []⟩ State.init).2.tlinect
        = State.init.tlinect ∧
      (cnt localeUTF8 ⟨false, false, false, true⟩
        ⟨false, true, some SMALL_BUF_SIZE, true, some ⟨true, 0⟩, []⟩ State.init).2.twordct
        = State.init.twordct ∧
      (cnt localeUTF8 ⟨false, false, false, true⟩
        ⟨false, true, some SMALL_BUF_SIZE, true, some ⟨true, 0⟩, []⟩ State.init).2.tcharct
        = State.init.tcharct ∧
      (cnt localeUTF8 ⟨false, false, false, true⟩
        ⟨false, true, some SMALL_BUF_SIZE, true, some ⟨true, 0⟩, []⟩ State.init).2.stderr
        = State.init.stderr ∧
      ∃ outs, (cnt localeUTF8 ⟨false, false, false, true⟩
          ⟨false, true, some SMALL_BUF_SIZE, true, some ⟨true, 0⟩, []⟩ State.init).2.stdout
          = State.init.stdout ++ outs ∧
        ∀ o ∈ outs, o = Out.lines 0 ∨ o = Out.words 0 ∨ o = Out.chars 0) ∧
    generalScan localeUTF8 ⟨false, false, false, true⟩
        (⟨false, true, some SMALL_BUF_SIZE, true, some ⟨true, 0⟩, []⟩ : File).reads
      = Outcome.done ⟨0, 0, 0, true, false, MbState.init, []⟩ ∧
    lineReads (⟨false, true, some SMALL_BUF_SIZE, true, some ⟨true, 0⟩, []⟩ : File).reads
        Scan.start
      = Outcome.done ⟨0, 0, 0, true, false, MbState.init, []⟩ :=
  empty_stream_counts_zero localeUTF8 ⟨false, false, false, true⟩
    ⟨false, true, some SMALL_BUF_SIZE, true, some ⟨true, 0⟩, []⟩ State.init
    (Or.inr rfl) (Or.inl rfl) (by decide) (by decide) (by decide)

theorem scanReads_fail (L : Locale) (fl : Flags) (chunks : List (List Byte))
    (hne : ∀ c ∈ chunks, c ≠ []) (rest : List Read) (s : Scan) :
    scanReads L fl (chunks.map Read.data ++ Read.fail :: rest) s
      = Outcome.readFailed { scanChunks L fl chunks s with
          stderr := (scanChunks L fl chunks s).stderr ++ [Diag.readErr] } := by
  induction chunks generalizing s with
  | nil => rfl
  | cons c cs ih =>
    have hc : c ≠ [] := hne c (List.mem_cons_self _ _)
    cases c with
    | nil => exact absurd rfl hc
    | cons b buf =>
      have hunf : scanReads L fl (((b :: buf) :: cs).map Read.data ++ Read.fail :: rest) s
          = scanReads L fl (cs.map Read.data ++ Read.fail :: rest) (scanBuf L fl (b :: buf) s) :=
        rfl
      rw [hunf, ih (fun c hc => hne c (List.mem_cons_of_mem _ hc))]
      rfl

theorem lineReads_fail (chunks : List (List Byte)) (hne : ∀ c ∈ chunks, c ≠ [])
    (rest : List Read) (s : Scan) :
    lineReads (chunks.map Read.data ++ Read.fail :: rest) s
      = Outcome.readFailed { lineChunks chunks s with
          stderr := (lineChunks chunks s).stderr ++ [Diag.readErr] } := by
  induction chunks generalizing s with
  | nil => rfl
  | cons c cs ih =>
    have hc : c ≠ [] := hne c (List.mem_cons_self _ _)
    cases c with
    | nil => exact absurd rfl hc
    | cons b buf =>
      have hunf : lineReads (((b :: buf) :: cs).map Read.data ++ Read.fail :: rest) s
          = lineReads (cs.map Read.data ++ Read.fail :: rest)
              { s with charct := uadd s.charct (b :: buf).length,
                       linect := countNewlines (b :: buf) s.linect } := rfl
      rw [hunf, ih (fun c hc => hne c (List.mem_cons_of_mem _ hc))]
      rfl

theorem cntWord_fail (L : Locale) (fl : Flags) (f : File) (g : State)
    (chunks : List (List Byte)) (hne : ∀ c ∈ chunks, c ≠ []) (rest : List Read)
    (hreads : f.reads = chunks.map Read.data ++ Read.fail :: rest) :
    cntWord L fl f g = (1, { g with stderr := g.stderr ++
      ((scanChunks L fl chunks Scan.start).stderr ++ [Diag.readErr]) }) := by
  unfold cntWord generalScan
  rw [hreads, scanReads_fail L fl chunks hne rest]

theorem cntLine_fail (fl : Flags) (f : File) (g : State)
    (chunks : List (List Byte)) (hne : ∀ c ∈ chunks, c ≠ []) (rest : List Read)
    (hreads : f.reads = chunks.map Read.data ++ Read.fail :: rest) :
    cntLine fl f g = (1, { g with stderr := g.stderr ++
      ((lineChunks chunks Scan.start).stderr ++ [Diag.readErr]) }) := by
  unfold cntLine
  rw [hreads, lineReads_fail chunks hne rest]

/-- C14: if a read on the stream fails (returns -1) after any number of reads
that succeeded, on the line-fast-path as on the general scan (reached by the
jump to `word:` or by falling through), `cnt` writes the read message, returns
1 and leaves `tlinect`, `twordct`, `tcharct` and the output exactly as they
were, however many bytes the earlier reads delivered. -/
theorem read_failure_leaves_totals (L : Locale) (fl : Flags) (f : File) (g : State)
    (hopen : f.stdin = true ∨ f.openOk = true)
    (chunks : List (List Byte)) (hne : ∀ c ∈ chunks, c ≠ []) (rest : List Read)
    (hreads : f.reads = chunks.map Read.data ++ Read.fail :: rest)
    (hpath : fl.doword = true ∨ (fl.domulti = true ∧ L.MB_CUR_MAX ≠ 1) ∨ fl.doline = true ∨
      (fl.dochar = false ∧ fl.domulti = false) ∨ ∃ sb, f.fstat = some sb ∧ sb.isReg = false) :
    (cnt L fl f g).1 = 1 ∧ (cnt L fl f g).2.tlinect = g.tlinect ∧
    (cnt L fl f g).2.twordct = g.twordct ∧ (cnt L fl f g).2.tcharct = g.tcharct ∧
    (cnt L fl f g).2.stdout = g.stdout ∧
    ∃ e, (cnt L fl f g).2.stderr = g.stderr ++ (e ++ [Diag.readErr]) := by
  have hopen2 : (!f.stdin && !f.openOk) = false := by
    rcases hopen with h | h <;> simp [h]
  have hsb := sizeBuffer_fields f g
  have hW : (cntWord L fl f (sizeBuffer f g)).1 = 1 ∧
      (cntWord L fl f (sizeBuffer f g)).2.tlinect = g.tlinect ∧
      (cntWord L fl f (sizeBuffer f g)).2.twordct = g.twordct ∧
      (cntWord L fl f (sizeBuffer f g)).2.tcharct = g.tcharct ∧
      (cntWord L fl f (sizeBuffer f g)).2.stdout = g.stdout ∧
      ∃ e, (cntWord L fl f (sizeBuffer f g)).2.stderr = g.stderr ++ (e ++ [Diag.readErr]) := by
    rw [cntWord_fail L fl f _ chunks hne rest hreads]
    exact ⟨rfl, hsb.1, hsb.2.1, hsb.2.2.1, hsb.2.2.2.1, (scanChunks L fl chunks Scan.start).stderr,
      by simp only [hsb.2.2.2.2]⟩
  have hLn : (cntLine fl f (sizeBuffer f g)).1 = 1 ∧
      (cntLine fl f (sizeBuffer f g)).2.tlinect = g.tlinect ∧
      (cntLine fl f (sizeBuffer f g)).2.twordct = g.twordct ∧
      (cntLine fl f (sizeBuffer f g)).2.tcharct = g.tcharct ∧
      (cntLine fl f (sizeBuffer f g)).2.stdout = g.stdout ∧
      ∃ e, (cntLine fl f (sizeBuffer f g)).2.stderr = g.stderr ++ (e ++ [Diag.readErr]) := by
    rw [cntLine_fail fl f _ chunks hne rest hreads]
    exact ⟨rfl, hsb.1, hsb.2.1, hsb.2.2.1, hsb.2.2.2.1, (lineChunks chunks Scan.start).stderr,
      by simp only [hsb.2.2.2.2]⟩
  unfold cnt
  rw [hopen2]
  simp only [Bool.false_eq_true, if_false]
  split
  · exact hW
  · rename_i hw
    split
    · exact hLn
    · rename_i hl
      split
      · rename_i hc
        rcases hpath with h | ⟨h1, h2⟩ | h | ⟨h1, h2⟩ | ⟨sb, hst, hreg⟩
        · simp [h] at hw
        · simp [h1, h2] at hw
        · exact absurd h hl
        · simp [h1, h2] at hc
        · rw [hst]
          simp only [hreg, Bool.false_eq_true, if_false]
          exact hW
      · exact hW

theorem read_failure_leaves_totals_witness :
    (cnt localeC ⟨true, false, true, false⟩
        ⟨false, true, some SMALL_BUF_SIZE, true, some ⟨true, 9⟩,
          [Read.data [0x61, 0x0a], Read.fail]⟩ ⟨5, 6, 7, true, SMALL_BUF_SIZE, [], []⟩).1 = 1 ∧
    (cnt localeC ⟨true, false, true, false⟩
        ⟨false, true, some SMALL_BUF_SIZE, true, some ⟨true, 9⟩,
          [Read.data [0x61, 0x0a], Read.fail]⟩ ⟨5, 6, 7, true, SMALL_BUF_SIZE, [], []⟩).2.tlinect
      = 5 ∧
    (cnt localeC ⟨true, false, true, false⟩
        ⟨false, true, some SMALL_BUF_SIZE, true, some ⟨true, 9⟩,
          [Read.data [0x61, 0x0a], Read.fail]⟩ ⟨5, 6, 7, true, SMALL_BUF_SIZE, [], []⟩).2.twordct
      = 6 ∧
    (cnt localeC ⟨true, false, true, false⟩
        ⟨false, true, some SMALL_BUF_SIZE, true, some ⟨true, 9⟩,
          [Read.data [0x61, 0x0a], Read.fail]⟩ ⟨5, 6, 7, true, SMALL_BUF_SIZE, [], []⟩).2.tcharct
      = 7 ∧
    (cnt localeC ⟨true, false, true, false⟩
        ⟨false, true, some SMALL_BUF_SIZE, true, some ⟨true, 9⟩,
          [Read.data [0x61, 0x0a], Read.fail]⟩ ⟨5, 6, 7, true, SMALL_BUF_SIZE, [], []⟩).2.stdout
      = [] ∧
    ∃ e, (cnt localeC ⟨true, false, true, false⟩
        ⟨false, true, some SMALL_BUF_SIZE, true, some ⟨true, 9⟩,
          [Read.data [0x61, 0x0a], Read.fail]⟩ ⟨5, 6, 7, true, SMALL_BUF_SIZE, [], []⟩).2.stderr
      = [] ++ (e ++ [Diag.readErr]) :=
  read_failure_leaves_totals localeC ⟨true, false, true, false⟩
    ⟨false, true, some SMALL_BUF_SIZE, true, some ⟨true, 9⟩, [Read.data [0x61, 0x0a], Read.fail]⟩
    ⟨5, 6, 7, true, SMALL_BUF_SIZE, [], []⟩ (Or.inr rfl) [[0x61, 0x0a]] (by decide) [] rfl
    (Or.inr (Or.inr (Or.inl rfl)))

/-- C15: for every metric selection, every locale, every stream and every
state, a call of `cnt` leaves the running total of each metric that is not
selected as it was: `tlinect` when `doline` is off, `twordct` when `doword` is
off, `tcharct` when `dochar` and `domulti` are both off. -/
theorem unselected_totals_unchanged (L : Locale) (fl : Flags) (f : File) (g : State) :
    (fl.doline = false → (cnt L fl f g).2.tlinect = g.tlinect) ∧
    (fl.doword = false → (cnt L fl f g).2.twordct = g.twordct) ∧
    (fl.dochar = false → fl.domulti = false → (cnt L fl f g).2.tcharct = g.tcharct) := by
  have hsb := sizeBuffer_fields f g
  have hW : ∀ g1 : State,
      (fl.doline = false → (cntWord L fl f g1).2.tlinect = g1.tlinect) ∧
      (fl.doword = false → (cntWord L fl f g1).2.twordct = g1.twordct) ∧
      (fl.dochar = false → fl.domulti = false → (cntWord L fl f g1).2.tcharct = g1.tcharct) := by
    intro g1
    unfold cntWord
    cases generalScan L fl f.reads with
    | readFailed s => simp
    | done s =>
      refine ⟨fun h => ?_, fun h => ?_, fun h1 h2 => ?_⟩
      · simp only [h, Bool.false_eq_true, if_false]
        split_ifs <;> rfl
      · simp only [h, Bool.false_eq_true, if_false]
        split_ifs <;> rfl
      · simp only [h1, h2, Bool.or_self, Bool.false_eq_true, if_false]
        split_ifs <;> rfl
  have hLn : ∀ g1 : State,
      (cntLine fl f g1).2.twordct = g1.twordct ∧
      (fl.dochar = false → (cntLine fl f g1).2.tcharct = g1.tcharct) := by
    intro g1
    unfold cntLine
    cases lineReads f.reads Scan.start with
    | readFailed s => simp
    | done s =>
      refine ⟨?_, fun h => ?_⟩
      · simp only
        split_ifs <;> rfl
      · simp only [h, Bool.false_eq_true, if_false]
  unfold cnt
  split
  · simp
  · simp only
    split
    · have h := hW (sizeBuffer f g)
      rw [hsb.1, hsb.2.1, hsb.2.2.1] at h
      exact h
    · split
      · rename_i hl
        have h := hLn (sizeBuffer f g)
        rw [hsb.2.1, hsb.2.2.1] at h
        exact ⟨fun h0 => absurd hl (by rw [h0]; decide), fun _ => h.1, fun h1 _ => h.2 h1⟩
      · split
        · rename_i hc
          refine ⟨fun hl0 => ?_, fun hw0 => ?_, fun h1 h2 => ?_⟩
          · cases f.fstat with
            | none => simp [hsb.1]
            | some sb =>
              simp only
              split
              · simp [hsb.1]
              · rw [(hW (sizeBuffer f g)).1 hl0, hsb.1]
          · cases f.fstat with
            | none => simp [hsb.2.1]
            | some sb =>
              simp only
              split
              · simp [hsb.2.1]
              · rw [(hW (sizeBuffer f g)).2.1 hw0, hsb.2.1]
          · simp [h1, h2] at hc
        · have h := hW (sizeBuffer f g)
          rw [hsb.1, hsb.2.1, hsb.2.2.1] at h
          exact h

theorem unselected_totals_unchanged_witness :
    (cnt localeC ⟨true, false, false, false⟩
        ⟨false, true, some SMALL_BUF_SIZE, true, some ⟨true, 4⟩, [Read.data [0x61, 0x20, 0x62, 0x0a]]⟩
        ⟨5, 6, 7, true, SMALL_BUF_SIZE, [], []⟩).2.twordct = 6 ∧
    (cnt localeC ⟨true, false, false, false⟩
        ⟨false, true, some SMALL_BUF_SIZE, true, some ⟨true, 4⟩, [Read.data [0x61, 0x20, 0x62, 0x0a]]⟩
        ⟨5, 6, 7, true, SMALL_BUF_SIZE, [], []⟩).2.tcharct = 7 :=
  ⟨(unselected_totals_unchanged localeC ⟨true, false, false, false⟩
      ⟨false, true, some SMALL_BUF_SIZE, true, some ⟨true, 4⟩, [Read.data [0x61, 0x20, 0x62, 0x0a]]⟩
      ⟨5, 6, 7, true, SMALL_BUF_SIZE, [], []⟩).2.1 rfl,
   (unselected_totals_unchanged localeC ⟨true, false, false, false⟩
      ⟨false, true, some SMALL_BUF_SIZE, true, some ⟨true, 4⟩, [Read.data [0x61, 0x20, 0x62, 0x0a]]⟩
      ⟨5, 6, 7, true, SMALL_BUF_SIZE, [], []⟩).2.2 rfl rfl⟩

/-! ## `wc_main`: options, and the loop over the streams -/

theorem optLoop_append (a b : List Char) (fl : Flags) :
    optLoop (a ++ b) fl = (optLoop a fl).bind (optLoop b) := by
  induction a generalizing fl with
  | nil => rfl
  | cons ch a ih =>
    simp only [List.cons_append, optLoop]
    split_ifs <;> first | exact ih _ | rfl

theorem optLoop_recognised (opts : List Char) (fl : Flags)
    (h : ∀ ch ∈ opts, ch = 'c' ∨ ch = 'l' ∨ ch = 'm' ∨ ch = 'w')
    (hex : ¬(fl.dochar = true ∧ fl.domulti = true)) :
    ∃ fl1, optLoop opts fl = some fl1 ∧ ¬(fl1.dochar = true ∧ fl1.domulti = true) ∧
      (opts ≠ [] → fl1.doline = true ∨ fl1.doword = true ∨ fl1.dochar = true ∨
        fl1.domulti = true) ∧
      ('m' ∉ opts → fl.dochar = true → fl1.dochar = true) ∧
      ('m' ∉ opts → fl.domulti = false → fl1.domulti = false) ∧
      ('c' ∉ opts → fl.domulti = true → fl1.domulti = true) ∧
      ('c' ∉ opts → fl.dochar = false → fl1.dochar = false) ∧
      (fl.doline = true → fl1.doline = true) ∧ (fl.doword = true → fl1.doword = true) ∧
      (fl.dochar = true ∨ fl.domulti = true → fl1.dochar = true ∨ fl1.domulti = true) := by
  induction opts generalizing fl with
  | nil =>
    exact ⟨fl, rfl, hex, fun h => absurd rfl h, fun _ h => h, fun _ h => h, fun _ h => h,
      fun _ h => h, fun h => h, fun h => h, fun h => h⟩
  | cons ch rest ih =>
    have hrest : ∀ c ∈ rest, c = 'c' ∨ c = 'l' ∨ c = 'm' ∨ c = 'w' :=
      fun c hc => h c (List.mem_cons_of_mem _ hc)
    rcases h ch (List.mem_cons_self _ _) with rfl | rfl | rfl | rfl
    · obtain ⟨fl1, h1, h2, _, h4, h5, h6, h7, h8, h9, h10⟩ :=
        ih { fl with dochar := true, domulti := false } hrest (by simp)
      refine ⟨fl1, by simpa [optLoop] using h1, h2, fun _ => Or.inr (Or.inr (h10 (Or.inl rfl))),
        ?_, ?_, ?_, ?_, h8, h9, fun _ => h10 (Or.inl rfl)⟩
      · intro hm _; exact h4 (fun h => hm (List.mem_cons_of_mem _ h)) rfl
      · intro hm _; exact h5 (fun h => hm (List.mem_cons_of_mem _ h)) rfl
      · intro hc; exact absurd (List.mem_cons_self _ _) hc
      · intro hc; exact absurd (List.mem_cons_self _ _) hc
    · obtain ⟨fl1, h1, h2, _, h4, h5, h6, h7, h8, h9, h10⟩ :=
        ih { fl with doline := true } hrest hex
      refine ⟨fl1, by simpa [optLoop] using h1, h2, fun _ => Or.inl (h8 rfl),
        ?_, ?_, ?_, ?_, fun _ => h8 rfl, h9, h10⟩
      · intro hm hc; exact h4 (fun h => hm (List.mem_cons_of_mem _ h)) hc
      · intro hm hc; exact h5 (fun h => hm (List.mem_cons_of_mem _ h)) hc
      · intro hm hc; exact h6 (fun h => hm (List.mem_cons_of_mem _ h)) hc
      · intro hm hc; exact h7 (fun h => hm (List.mem_cons_of_mem _ h)) hc
    · obtain ⟨fl1, h1, h2, _, h4, h5, h6, h7, h8, h9, h10⟩ :=
        ih { fl with domulti := true, dochar := false } hrest (by simp)
      refine ⟨fl1, by simpa [optLoop] using h1, h2, fun _ => Or.inr (Or.inr (h10 (Or.inr rfl))),
        ?_, ?_, ?_, ?_, h8, h9, fun _ => h10 (Or.inr rfl)⟩
      · intro hm; exact absurd (List.mem_cons_self _ _) hm
      · intro hm; exact absurd (List.mem_cons_self _ _) hm
      · intro hc _; exact h6 (fun h => hc (List.mem_cons_of_mem _ h)) rfl
      · intro hc _; exact h7 (fun h => hc (List.mem_cons_of_mem _ h)) rfl
    · obtain ⟨fl1, h1, h2, _, h4, h5, h6, h7, h8, h9, h10⟩ :=
        ih { fl with doword := true } hrest hex
      refine ⟨fl1, by simpa [optLoop] using h1, h2, fun _ => Or.inr (Or.inl (h9 rfl)),
        ?_, ?_, ?_, ?_, h8, fun _ => h9 rfl, h10⟩
      · intro hm hc; exact h4 (fun h => hm (List.mem_cons_of_mem _ h)) hc
      · intro hm hc; exact h5 (fun h => hm (List.mem_cons_of_mem _ h)) hc
      · intro hm hc; exact h6 (fun h => hm (List.mem_cons_of_mem _ h)) hc
      · intro hm hc; exact h7 (fun h => hm (List.mem_cons_of_mem _ h)) hc

theorem defaultFlags_of_some (fl : Flags)
    (h : fl.doline = true ∨ fl.doword = true ∨ fl.dochar = true ∨ fl.domulti = true) :
    defaultFlags fl = fl := by
  unfold defaultFlags
  rcases h with h | h | h | h <;> simp [h]

/-- C16: for every sequence of recognised options (`-c`, `-l`, `-m`, `-w`) the
option loop ends without `usage()`, and the flags with which counting starts
never have both `dochar` and `domulti` set; the later of `-c` and `-m` wins and
clears the other; with no option at all the flags are exactly `doline`,
`doword`, `dochar` with `domulti` off; and in every case at least one flag is
set. -/
theorem option_loop_metric_set (opts : List Char)
    (h : ∀ ch ∈ opts, ch = 'c' ∨ ch = 'l' ∨ ch = 'm' ∨ ch = 'w') :
    ∃ fl, parseFlags opts = some fl ∧
      ¬(fl.dochar = true ∧ fl.domulti = true) ∧
      (∀ pre post, opts = pre ++ 'c' :: post → 'm' ∉ post →
        fl.dochar = true ∧ fl.domulti = false) ∧
      (∀ pre post, opts = pre ++ 'm' :: post → 'c' ∉ post →
        fl.domulti = true ∧ fl.dochar = false) ∧
      (opts = [] → fl = ⟨true, true, true, false⟩) ∧
      (fl.doline = true ∨ fl.doword = true ∨ fl.dochar = true ∨ fl.domulti = true) := by
  obtain ⟨fl1, h1, h2, h3, -⟩ := optLoop_recognised opts ⟨false, false, false, false⟩ h (by simp)
  by_cases hnil : opts = []
  · subst hnil
    simp only [optLoop, Option.some.injEq] at h1
    subst h1
    refine ⟨⟨true, true, true, false⟩, by decide, by simp, ?_, ?_, fun _ => rfl, Or.inl rfl⟩
    · intro pre post he; simp at he
    · intro pre post he; simp at he
  · have hsome := h3 hnil
    have hpf : parseFlags opts = some fl1 := by
      unfold parseFlags
      rw [h1]
      simp only [defaultFlags_of_some fl1 hsome]
    refine ⟨fl1, hpf, h2, ?_, ?_, fun h0 => absurd h0 hnil, hsome⟩
    · intro pre post he hm
      have hpre : ∀ ch ∈ pre, ch = 'c' ∨ ch = 'l' ∨ ch = 'm' ∨ ch = 'w' := by
        intro ch hch; exact h ch (by rw [he]; exact List.mem_append_left _ hch)
      have hpost : ∀ ch ∈ post, ch = 'c' ∨ ch = 'l' ∨ ch = 'm' ∨ ch = 'w' := by
        intro ch hch
        exact h ch (by rw [he]; exact List.mem_append_right _ (List.mem_cons_of_mem _ hch))
      obtain ⟨flp, hp1, -⟩ := optLoop_recognised pre ⟨false, false, false, false⟩ hpre (by simp)
      obtain ⟨flq, hq1, -, -, hq4, hq5, -⟩ :=
        optLoop_recognised post { flp with dochar := true, domulti := false } hpost (by simp)
      have hall : optLoop opts ⟨false, false, false, false⟩ = some flq := by
        rw [he, optLoop_append, hp1]
        simpa [optLoop] using hq1
      rw [h1] at hall
      cases hall
      exact ⟨hq4 hm rfl, hq5 hm rfl⟩
    · intro pre post he hc
      have hpre : ∀ ch ∈ pre, ch = 'c' ∨ ch = 'l' ∨ ch = 'm' ∨ ch = 'w' := by
        intro ch hch; exact h ch (by rw [he]; exact List.mem_append_left _ hch)
      have hpost : ∀ ch ∈ post, ch = 'c' ∨ ch = 'l' ∨ ch = 'm' ∨ ch = 'w' := by
        intro ch hch
        exact h ch (by rw [he]; exact List.mem_append_right _ (List.mem_cons_of_mem _ hch))
      obtain ⟨flp, hp1, -⟩ := optLoop_recognised pre ⟨false, false, false, false⟩ hpre (by simp)
      obtain ⟨flq, hq1, -, -, -, -, hq6, hq7, -⟩ :=
        optLoop_recognised post { flp with domulti := true, dochar := false } hpost (by simp)
      have hall : optLoop opts ⟨false, false, false, false⟩ = some flq := by
        rw [he, optLoop_append, hp1]
        simpa [optLoop] using hq1
      rw [h1] at hall
      cases hall
      exact ⟨hq6 hc rfl, hq7 hc rfl⟩

theorem option_loop_metric_set_witness :
    (∀ ch ∈ ['l', 'c', 'm', 'w', 'c'], ch = 'c' ∨ ch = 'l' ∨ ch = 'm' ∨ ch = 'w') ∧
    ∃ fl, parseFlags ['l', 'c', 'm', 'w', 'c'] = some fl ∧
      ¬(fl.dochar = true ∧ fl.domulti = true) ∧
      (∀ pre post, ['l', 'c', 'm', 'w', 'c'] = pre ++ 'c' :: post → 'm' ∉ post →
        fl.dochar = true ∧ fl.domulti = false) ∧
      (∀ pre post, ['l', 'c', 'm', 'w', 'c'] = pre ++ 'm' :: post → 'c' ∉ post →
        fl.domulti = true ∧ fl.dochar = false) ∧
      (['l', 'c', 'm', 'w', 'c'] = [] → fl = ⟨true, true, true, false⟩) ∧
      (fl.doline = true ∨ fl.doword = true ∨ fl.dochar = true ∨ fl.domulti = true) :=
  ⟨by decide, option_loop_metric_set ['l', 'c', 'm', 'w', 'c'] (by decide)⟩

theorem cntCalls_files (L : Locale) (fl : Flags) (files : List File) (g : State) :
    (cntCalls L fl files g).map (fun c => c.1) = files := by
  induction files generalizing g with
  | nil => rfl
  | cons f fs ih => simp only [cntCalls, List.map_cons, ih]

theorem countFiles_errors (L : Locale) (fl : Flags) (files : List File) (errors : Nat)
    (g : State) :
    (countFiles L fl files errors g).1
      = errors + ((cntCalls L fl files g).filter (fun c => c.2.2 != 0)).length ∧
    (countFiles L fl files errors g).2 = files.foldl (fun g f => (cnt L fl f g).2) g := by
  induction files generalizing errors g with
  | nil => exact ⟨rfl, rfl⟩
  | cons f fs ih =>
    simp only [countFiles, cntCalls, List.foldl_cons, List.filter_cons]
    have h := ih (if (cnt L fl f g).1 ≠ 0 then errors + 1 else errors) (cnt L fl f g).2
    refine ⟨?_, h.2⟩
    rw [h.1]
    by_cases hr : (cnt L fl f g).1 = 0
    · simp [hr]
    · simp [hr]; omega

/-- C17: for every non-empty list of streams given to `wc_main` (with options
that the option loop accepts), `cnt` is called on every stream, in order, each
call in the state left by the calls before it, whatever these returned; the
count `errors` is the number of calls that returned non-zero, and the exit
status is 1 if at least one call returned non-zero and 0 otherwise. -/
theorem wc_main_exit_status (L : Locale) (opts : List Char) (fl : Flags)
    (hopts : parseFlags opts = some fl) (stdinFile : File) (f : File) (fs : List File)
    (g0 : State) :
    (cntCalls L fl ((f :: fs).map (fun f => { f with stdin := false }))
        { g0 with tlinect := 0, twordct := 0, tcharct := 0 }).map (fun c => c.1)
      = (f :: fs).map (fun f => { f with stdin := false }) ∧
    (countFiles L fl ((f :: fs).map (fun f => { f with stdin := false })) 0
        { g0 with tlinect := 0, twordct := 0, tcharct := 0 }).1
      = ((cntCalls L fl ((f :: fs).map (fun f => { f with stdin := false }))
          { g0 with tlinect := 0, twordct := 0, tcharct := 0 }).filter
            (fun c => c.2.2 != 0)).length ∧
    ((wc_main L opts stdinFile (f :: fs) g0).1 ≠ 0 ↔
      ∃ c ∈ cntCalls L fl ((f :: fs).map (fun f => { f with stdin := false }))
        { g0 with tlinect := 0, twordct := 0, tcharct := 0 }, c.2.2 ≠ 0) ∧
    ((wc_main L opts stdinFile (f :: fs) g0).1 = 0 ∨
      (wc_main L opts stdinFile (f :: fs) g0).1 = 1) := by
  have hce := countFiles_errors L fl ((f :: fs).map (fun f => { f with stdin := false })) 0
    { g0 with tlinect := 0, twordct := 0, tcharct := 0 }
  rw [Nat.zero_add] at hce
  have hstatus : (wc_main L opts stdinFile (f :: fs) g0).1
      = if (countFiles L fl ((f :: fs).map (fun f => { f with stdin := false })) 0
          { g0 with tlinect := 0, twordct := 0, tcharct := 0 }).1 = 0 then 0 else 1 := by
    simp only [wc_main, hopts]
  refine ⟨cntCalls_files L fl _ _, hce.1, ?_, ?_⟩
  · rw [hstatus, hce.1]
    constructor
    · intro h
      have hpos : 0 < ((cntCalls L fl ((f :: fs).map (fun f => { f with stdin := false }))
          { g0 with tlinect := 0, twordct := 0, tcharct := 0 }).filter
            (fun c => c.2.2 != 0)).length := by
        by_contra h0
        have : ((cntCalls L fl ((f :: fs).map (fun f => { f with stdin := false }))
          { g0 with tlinect := 0, twordct := 0, tcharct := 0 }).filter
            (fun c => c.2.2 != 0)).length = 0 := by omega
        rw [this] at h
        exact h rfl
      obtain ⟨c, hc⟩ := List.exists_mem_of_length_pos hpos
      rw [List.mem_filter] at hc
      exact ⟨c, hc.1, by simpa using hc.2⟩
    · rintro ⟨c, hc, hne⟩
      have hmem : c ∈ (cntCalls L fl ((f :: fs).map (fun f => { f with stdin := false }))
          { g0 with tlinect := 0, twordct := 0, tcharct := 0 }).filter
            (fun c => c.2.2 != 0) := by
        rw [List.mem_filter]
        exact ⟨hc, by simpa using hne⟩
      have hpos := List.length_pos_of_mem hmem
      have hne0 : ((cntCalls L fl ((f :: fs).map (fun f => { f with stdin := false }))
          { g0 with tlinect := 0, twordct := 0, tcharct := 0 }).filter
            (fun c => c.2.2 != 0)).length ≠ 0 := by omega
      rw [if_neg hne0]
      exact Nat.one_ne_zero
  · rw [hstatus]
    split
    · exact Or.inl rfl
    · exact Or.inr rfl

theorem wc_main_exit_status_witness :
    (wc_main localeC ['l'] ⟨true, true, none, true, none, []⟩
        [⟨false, false, none, true, none, []⟩,
         ⟨false, true, some SMALL_BUF_SIZE, true, some ⟨true, 2⟩, [Read.data [0x61, 0x0a]]⟩]
        State.init).1 ≠ 0 ↔
      ∃ c ∈ cntCalls localeC ⟨true, false, false, false⟩
          (([⟨false, false, none, true, none, []⟩,
             ⟨false, true, some SMALL_BUF_SIZE, true, some ⟨true, 2⟩, [Read.data [0x61, 0x0a]]⟩] :
             List File).map (fun f => { f with stdin := false }))
          { State.init with tlinect := 0, twordct := 0, tcharct := 0 }, c.2.2 ≠ 0 :=
  (wc_main_exit_status localeC ['l'] ⟨true, false, false, false⟩ (by decide)
    ⟨true, true, none, true, none, []⟩ ⟨false, false, none, true, none, []⟩
    [⟨false, true, some SMALL_BUF_SIZE, true, some ⟨true, 2⟩, [Read.data [0x61, 0x0a]]⟩]
    State.init).2.2.1

/-! ## Strategy selection -/

/-- The general scan of a stream of well-formed encoded characters in multibyte
mode, however it is cut into reads: one tally per character. -/
theorem generalScan_wellFormed (L : Locale) (fl : Flags)
    (hmulti : fl.domulti = true ∧ 1 < L.MB_CUR_MAX) (chars : List (List Byte))
    (hwf : ∀ c ∈ chars, wellFormedChar c = true)
    (chunks : List (List Byte)) (hne : ∀ c ∈ chunks, c ≠ [])
    (hjoin : chunks.flatten = chars.flatten) :
    generalScan L fl (chunks.map Read.data) = Outcome.done (tallyChars L chars Scan.start) := by
  have hm := multi_mode L fl hmulti
  have hcont := scanBuf_wellFormed L fl hm chars Scan.start rfl hwf
  have hf := tallyChars_fields L chars Scan.start
  have hw : (scanBuf L fl chunks.flatten Scan.start).warned = false := by
    rw [hjoin, hcont, hf.2.2.1]; rfl
  have hch := scanChunks_eq_scanBuf L fl hm chunks Scan.start MbOk_init hw
  rw [hjoin, hcont] at hch
  have hflush : flushMbs L fl (tallyChars L chars Scan.start) = tallyChars L chars Scan.start := by
    unfold flushMbs
    have : mbrtowcFlush (tallyChars L chars Scan.start).mbs ≠ -1 := by
      rw [hf.2.2.2.1]; decide
    simp [this]
  rw [generalScan_data L fl chunks hne, hch, hflush]

/-- C18: whenever `doword` is set, or `domulti` is set and `MB_CUR_MAX != 1`,
an opened stream is counted by the general scan: `cnt` is then the code from
the label `word:` on, whatever `doline` and `fstat` say, so neither the
line-fast-path nor the size shortcut is used.  In particular, with `domulti`
alone in a multibyte locale, for a stream of well-formed encoded characters
(a regular file or not, whatever its size in bytes), `cnt` returns 0 and the
char count it prints and adds to `tcharct` is the number of decoded characters
(as a `uintmax_t`); for a regular file of size 3 holding the three bytes of
U+20AC the char count is 1. -/
theorem strategy_general_scan (L : Locale) (fl : Flags) (f : File) (g : State)
    (hopen : f.stdin = true ∨ f.openOk = true)
    (hsel : fl.doword = true ∨ (fl.domulti = true ∧ L.MB_CUR_MAX ≠ 1)) :
    cnt L fl f g = cntWord L fl f (sizeBuffer f g) ∧
    (fl.doline = false → fl.doword = false → fl.dochar = false → 1 < L.MB_CUR_MAX →
      ∀ chars : List (List Byte), (∀ c ∈ chars, wellFormedChar c = true) →
      ∀ chunks : List (List Byte), (∀ c ∈ chunks, c ≠ []) → f.reads = chunks.map Read.data →
        chunks.flatten = chars.flatten →
        cnt L fl f g = (0, { sizeBuffer f g with
          tcharct := uadd g.tcharct (chars.length % UINTMAX_MOD),
          stdout := g.stdout ++ [Out.chars (chars.length % UINTMAX_MOD)] })) ∧
    cnt localeUTF8 ⟨false, false, false, true⟩
        ⟨false, true, some SMALL_BUF_SIZE, true, some ⟨true, 3⟩, [Read.data [0xe2, 0x82, 0xac]]⟩
        State.init
      = (0, ⟨0, 0, 1, true, SMALL_BUF_SIZE, [Out.chars 1], []⟩) := by
  have hopen2 : (!f.stdin && !f.openOk) = false := by
    rcases hopen with h | h <;> simp [h]
  have hw : (fl.doword || (fl.domulti && L.MB_CUR_MAX != 1)) = true := by
    rcases hsel with h | ⟨h1, h2⟩
    · simp [h]
    · simp [h1, h2]
  have hcnt : cnt L fl f g = cntWord L fl f (sizeBuffer f g) := by
    simp only [cnt, hopen2, Bool.false_eq_true, if_false, hw, if_true]
  refine ⟨hcnt, ?_, by decide⟩
  intro hl hwd hc hmb chars hwf chunks hne hreads hjoin
  have hmulti : fl.domulti = true ∧ 1 < L.MB_CUR_MAX := by
    rcases hsel with h | ⟨h1, _⟩
    · rw [hwd] at h; cases h
    · exact ⟨h1, hmb⟩
  have hsb := sizeBuffer_fields f g
  have hf := tallyChars_fields L chars Scan.start
  have hc1 : (tallyChars L chars Scan.start).charct = chars.length % UINTMAX_MOD := by
    have := hf.1
    rw [Nat.mod_eq_of_lt (hf.2.1 start_lt.2.2)] at this
    simpa [Scan.start] using this
  rw [hcnt]
  unfold cntWord
  rw [hreads, generalScan_wellFormed L fl hmulti chars hwf chunks hne hjoin]
  simp only [hl, hwd, hc, hmulti.1, Bool.false_eq_true, if_false, Bool.or_true, if_true, hc1,
    hf.2.2.2.2, hsb.2.2.1, hsb.2.2.2.1, hsb.2.2.2.2]
  simp only [Scan.start, List.append_nil]

theorem strategy_general_scan_witness :
    cnt localeUTF8 ⟨false, false, false, true⟩
        ⟨false, true, some SMALL_BUF_SIZE, true, some ⟨true, 3⟩, [Read.data [0xe2, 0x82, 0xac]]⟩
        State.init
      = cntWord localeUTF8 ⟨false, false, false, true⟩
        ⟨false, true, some SMALL_BUF_SIZE, true, some ⟨true, 3⟩, [Read.data [0xe2, 0x82, 0xac]]⟩
        (sizeBuffer ⟨false, true, some SMALL_BUF_SIZE, true, some ⟨true, 3⟩,
          [Read.data [0xe2, 0x82, 0xac]]⟩ State.init) ∧
    cnt localeUTF8 ⟨false, false, false, true⟩
        ⟨false, true, some SMALL_BUF_SIZE, true, some ⟨true, 3⟩, [Read.data [0xe2, 0x82, 0xac]]⟩
        State.init
      = (0, { sizeBuffer ⟨false, true, some SMALL_BUF_SIZE, true, some ⟨true, 3⟩,
            [Read.data [0xe2, 0x82, 0xac]]⟩ State.init with
          tcharct := uadd State.init.tcharct
            (([[0xe2, 0x82, 0xac]] : List (List Byte)).length % UINTMAX_MOD),
          stdout := State.init.stdout ++
            [Out.chars (([[0xe2, 0x82, 0xac]] : List (List Byte)).length % UINTMAX_MOD)] }) :=
  ⟨(strategy_general_scan localeUTF8 ⟨false, false, false, true⟩
      ⟨false, true, some SMALL_BUF_SIZE, true, some ⟨true, 3⟩, [Read.data [0xe2, 0x82, 0xac]]⟩
      State.init (Or.inr rfl) (Or.inr ⟨rfl, by decide⟩)).1,
   (strategy_general_scan localeUTF8 ⟨false, false, false, true⟩
      ⟨false, true, some SMALL_BUF_SIZE, true, some ⟨true, 3⟩, [Read.data [0xe2, 0x82, 0xac]]⟩
      State.init (Or.inr rfl) (Or.inr ⟨rfl, by decide⟩)).2.1 rfl rfl rfl (by decide)
      [[0xe2, 0x82, 0xac]] (by decide) [[0xe2, 0x82, 0xac]] (by decide) rfl rfl⟩


/-! ## The read buffer -/

theorem bufInv_init : BufInv BufState.init := by
  unfold BufInv BufState.init
  exact ⟨rfl, by simp⟩

theorem sizeStep_some (n : Nat) (mallocOk : Bool) (st : BufState) :
    sizeStep (some n) mallocOk st =
      if n ≠ st.buf_size then
        if n = SMALL_BUF_SIZE || !mallocOk then ⟨Buf.small_buf, SMALL_BUF_SIZE⟩
        else ⟨Buf.heap n, n⟩
      else st := rfl

theorem sizeStep_none (mallocOk : Bool) (st : BufState) :
    sizeStep none mallocOk st =
      if SMALL_BUF_SIZE ≠ st.buf_size then ⟨Buf.small_buf, SMALL_BUF_SIZE⟩ else st := by
  unfold sizeStep
  simp

theorem sizeStep_inv (fstatfs : Option Nat) (mallocOk : Bool) (st : BufState) (h : BufInv st) :
    BufInv (sizeStep fstatfs mallocOk st) := by
  cases fstatfs with
  | none =>
    rw [sizeStep_none]
    split
    · exact bufInv_init
    · exact h
  | some n =>
    rw [sizeStep_some]
    split
    · split
      · exact bufInv_init
      · rename_i h1 h2
        have hne : n ≠ SMALL_BUF_SIZE := by
          intro h0; simp [h0] at h2
        exact ⟨rfl, by simp [hne]⟩
    · exact h

/-- The buffer variables of `cnt` in `State` follow the step `sizeStep`. -/
theorem sizeBuffer_eq_sizeStep (f : File) (g : State) (b : Buf)
    (hb : g.small = true ↔ b = Buf.small_buf) :
    (sizeBuffer f g).buf_size = (sizeStep f.fstatfs f.mallocOk ⟨b, g.buf_size⟩).buf_size ∧
    ((sizeBuffer f g).small = true ↔
      (sizeStep f.fstatfs f.mallocOk ⟨b, g.buf_size⟩).buf = Buf.small_buf) := by
  cases hf : f.fstatfs with
  | none =>
    rw [sizeStep_none]
    unfold sizeBuffer
    rw [hf]
    dsimp only
    split
    · simp
    · exact ⟨rfl, hb⟩
  | some n =>
    rw [sizeStep_some]
    unfold sizeBuffer
    rw [hf]
    dsimp only
    split
    · split
      · simp
      · simp
    · exact ⟨rfl, hb⟩

/-- C20, counterexample: from the initial buffer, a first stream with preferred
block size 65536 and a successful `malloc` gives a heap buffer of 65536 bytes;
a second stream with preferred block size 8192, for which `malloc` would
succeed as well, brings the buffer back to the static `small_buf` with
`buf_size = 8192`: no allocation failed. -/
theorem buffer_shrinks_without_allocation_failure :
    sizeStep (some 65536) true BufState.init = ⟨Buf.heap 65536, 65536⟩ ∧
    sizeStep (some 8192) true ⟨Buf.heap 65536, 65536⟩ = ⟨Buf.small_buf, 8192⟩ ∧
    sizeStep none true ⟨Buf.heap 65536, 65536⟩ = ⟨Buf.small_buf, 8192⟩ := by
  decide

/-- C20, amended: the buffer sizing of `cnt` as a step on (`buf`, `buf_size`)
with the preferred block size and the allocation result as inputs.  If before
the step `buf_size` is the capacity of the buffer in use, and is 8192 exactly
when that buffer is the static `small_buf` (as it is initially), the same
holds after the step; `buf_size` equals the stream's preferred block size when
that size is discoverable and allocation succeeds; and a heap buffer is given
up for the 8192-byte `small_buf` only when the preferred block size is not
discoverable (`fstatfs` fails), is itself 8192, or the allocation fails. -/
theorem buffer_sizing_step (fstatfs : Option Nat) (mallocOk : Bool) (st : BufState) :
    BufInv BufState.init ∧
    (BufInv st → BufInv (sizeStep fstatfs mallocOk st)) ∧
    (∀ n, fstatfs = some n → mallocOk = true → BufInv st →
      (sizeStep fstatfs mallocOk st).buf_size = n) ∧
    (st.buf ≠ Buf.small_buf → (sizeStep fstatfs mallocOk st).buf = Buf.small_buf →
      fstatfs = none ∨ fstatfs = some SMALL_BUF_SIZE ∨ mallocOk = false) := by
  refine ⟨bufInv_init, sizeStep_inv fstatfs mallocOk st, ?_, ?_⟩
  · intro n hn hm _
    subst hn
    rw [sizeStep_some]
    split
    · split
      · rename_i h1 h2
        simp only [hm, Bool.not_true, Bool.or_false, decide_eq_true_eq] at h2
        exact h2.symm
      · rfl
    · rename_i h1
      simp only [ne_eq, not_not] at h1
      exact h1.symm
  · intro hb hafter
    cases fstatfs with
    | none => exact Or.inl rfl
    | some n =>
      rw [sizeStep_some] at hafter
      split at hafter
      · split at hafter
        · rename_i h1 h2
          simp only [Bool.or_eq_true, decide_eq_true_eq, Bool.not_eq_true'] at h2
          rcases h2 with h2 | h2
          · exact Or.inr (Or.inl (by rw [h2]))
          · exact Or.inr (Or.inr h2)
        · cases hafter
      · exact absurd hafter hb

theorem buffer_sizing_step_witness :
    BufInv (sizeStep (some 65536) true BufState.init) ∧
    (sizeStep (some 65536) true BufState.init).buf_size = 65536 :=
  ⟨(buffer_sizing_step (some 65536) true BufState.init).2.1
      (buffer_sizing_step (some 65536) true BufState.init).1,
   (buffer_sizing_step (some 65536) true BufState.init).2.2.1 65536 rfl rfl
      (buffer_sizing_step (some 65536) true BufState.init).1⟩

/-! ## Progress and termination of the decode loop -/

theorem mbrtowc_ret_le (s : List Byte) (ps : MbState) (h : 1 ≤ (mbrtowc s ps).ret) :
    (mbrtowc s ps).ret ≤ (s.length : Int) := by
  have hfin : ∀ (len lb w ch : Nat) (x : List Byte) (pre : Nat), len = pre + w →
      1 ≤ (mbFinish len lb ps (contLoop w ch x)).ret →
      (mbFinish len lb ps (contLoop w ch x)).ret ≤ ((pre + x.length : Nat) : Int) := by
    intro len lb w ch x pre hlen h1
    rcases mbFinish_cases len lb ps (contLoop w ch x) with h2 | ⟨w1, ch1, _, h2⟩ | ⟨wch, hc, _, h2⟩
    · omega
    · rw [h2] at h1; simp at h1
    · have hd := contLoop_done hc
      rw [h2] at h1 ⊢
      simp only at h1 ⊢
      split
      · omega
      · omega
  unfold mbrtowc at h ⊢
  split at h
  · simp at h
  · rename_i h4
    simp only [h4, if_false]
    cases s with
    | nil => simp at h
    | cons b rest =>
      simp only at h ⊢
      split at h
      · rename_i h0
        simp only [h0, if_true]
        split at h
        · rename_i hA
          simp only [hA, if_true]
          simp only [List.length_cons]
          split <;> omega
        · rename_i hA
          simp only [hA, if_false]
          split at h
          · rename_i hB
            simp only [hB, if_true]
            have := hfin 2 0x80 1 _ rest 1 rfl h
            simp only [List.length_cons]; omega
          · rename_i hB
            simp only [hB, if_false]
            split at h
            · rename_i hC
              simp only [hC, if_true]
              have := hfin 3 0x800 2 _ rest 1 rfl h
              simp only [List.length_cons]; omega
            · rename_i hC
              simp only [hC, if_false]
              split at h
              · rename_i hD
                simp only [hD, if_true]
                have := hfin 4 0x10000 3 _ rest 1 rfl h
                simp only [List.length_cons]; omega
              · simp at h
      · rename_i h0
        simp only [h0, if_false]
        have := hfin ps.want ps.lbound ps.want ps.ch (b :: rest) 0 (by omega) h
        simpa using this

theorem scanLoop_step (L : Locale) (fl : Flags) (fuel : Nat) (b : Byte) (rest : List Byte)
    (s : Scan) :
    scanLoop L fl (fuel + 1) (b :: rest) s =
      match scanStep L fl b rest s with
      | Step.advance clen s1 => scanLoop L fl fuel ((b :: rest).drop clen) s1
      | Step.leave s1 => s1 := by
  unfold scanStep
  simp only [scanLoop]
  split
  · rfl
  · split
    · rfl
    · split
      · rfl
      · split
        · rfl
        · rfl

theorem scanStep_progress (L : Locale) (fl : Flags) (b : Byte) (rest : List Byte) (s : Scan)
    (clen : Nat) (s1 : Scan) (h : scanStep L fl b rest s = Step.advance clen s1) :
    1 ≤ clen ∧ clen ≤ (b :: rest).length := by
  unfold scanStep at h
  split at h
  · cases h; simp
  · dsimp only at h
    split at h
    · cases h; simp
    · split at h
      · cases h
      · split at h
        · cases h; simp
        · rename_i h1 h2 h3
          cases h
          have hge : 1 ≤ (mbrtowc (b :: rest) s.mbs).ret := by
            rcases mbrtowc_ret (b :: rest) s.mbs with h | h | h | h
            · exact absurd h h1
            · exact absurd h h2
            · exact absurd h h3
            · exact h
          have hle := mbrtowc_ret_le (b :: rest) s.mbs hge
          constructor <;> omega

theorem scanLoopExit_spec (L : Locale) (fl : Flags) (fuel : Nat) :
    ∀ (buf : List Byte) (s : Scan), buf.length ≤ fuel →
      (scanLoopExit L fl fuel buf s = LoopExit.lenZero (scanLoop L fl fuel buf s) ∨
       ∃ (rem : List Byte) (s0 : Scan), scanLoopExit L fl fuel buf s = LoopExit.broke (scanLoop L fl fuel buf s) rem ∧
         rem ≠ [] ∧ (mbrtowc rem s0.mbs).ret = -2 ∧
         scanLoop L fl fuel buf s = { s0 with mbs := (mbrtowc rem s0.mbs).mbs }) := by
  induction fuel with
  | zero =>
    intro buf s hlen
    have : buf = [] := List.eq_nil_of_length_eq_zero (Nat.le_zero.mp hlen)
    subst this
    left; rfl
  | succ n ih =>
    intro buf s hlen
    cases buf with
    | nil => left; rfl
    | cons b rest =>
      rw [scanLoop_step]
      simp only [scanLoopExit]
      cases hst : scanStep L fl b rest s with
      | advance clen s1 =>
        have hp := scanStep_progress L fl b rest s clen s1 hst
        simp only
        apply ih
        simp only [List.length_drop]
        simp only [List.length_cons] at hlen hp ⊢
        omega
      | leave s1 =>
        right
        refine ⟨b :: rest, s, rfl, by simp, ?_⟩
        unfold scanStep at hst
        split at hst
        · cases hst
        · dsimp only at hst
          split at hst
          · cases hst
          · split at hst
            · rename_i h2
              cases hst
              exact ⟨h2, rfl⟩
            · split at hst <;> cases hst

theorem scanLoopExit_fuel (L : Locale) (fl : Flags) (fuel : Nat) :
    ∀ (buf : List Byte) (s : Scan), buf.length ≤ fuel →
      scanLoopExit L fl fuel buf s = scanLoopExit L fl buf.length buf s := by
  induction fuel using Nat.strong_induction_on with
  | _ fuel ih =>
    intro buf s hf
    cases buf with
    | nil => cases fuel <;> rfl
    | cons b rest =>
      cases fuel with
      | zero => simp at hf
      | succ n =>
        simp only [List.length_cons, Nat.add_le_add_iff_right] at hf
        simp only [List.length_cons, scanLoopExit]
        cases hst : scanStep L fl b rest s with
        | leave s1 => rfl
        | advance clen s1 =>
          have hp := scanStep_progress L fl b rest s clen s1 hst
          simp only
          have hlen : ((b :: rest).drop clen).length ≤ rest.length := by
            simp only [List.length_drop, List.length_cons]; omega
          rw [ih n (Nat.lt_succ_self n) _ s1 (Nat.le_trans hlen hf),
            ih rest.length (Nat.lt_succ_of_le hf) _ s1 hlen]

/-- C19: the decode loop of the general scan makes progress and ends.  Every
iteration that does not leave through `break` takes `clen` bytes with
`1 ≤ clen ≤ len`, so that the remaining length `len - clen` is smaller and not
negative; in single-byte mode, after a decode error (`-1`) and for the NUL
result `0`, `clen` is 1.  For every buffer, `len` iterations are enough: the
loop is then over, either because no byte remains or through `break` on an
incomplete sequence, the bytes that remained having gone to the decoder
(`mbrtowc` returned `-2` on them and its state is kept); the locals are those
that `scanBuf` gives, and more iterations change nothing. -/
theorem decode_loop_progress (L : Locale) (fl : Flags) :
    (∀ (b : Byte) (rest : List Byte) (s : Scan) (clen : Nat) (s1 : Scan),
      scanStep L fl b rest s = Step.advance clen s1 →
        1 ≤ clen ∧ clen ≤ (b :: rest).length ∧
        ((b :: rest).drop clen).length = (b :: rest).length - clen ∧
        ((b :: rest).drop clen).length < (b :: rest).length) ∧
    (∀ (b : Byte) (rest : List Byte) (s : Scan),
      ((!fl.domulti || L.MB_CUR_MAX == 1) = true ∨ (mbrtowc (b :: rest) s.mbs).ret = -1 ∨
        (mbrtowc (b :: rest) s.mbs).ret = 0) →
      ∃ s1, scanStep L fl b rest s = Step.advance 1 s1) ∧
    (∀ (buf : List Byte) (s : Scan),
      scanLoopExit L fl buf.length buf s = LoopExit.lenZero (scanBuf L fl buf s) ∨
      ∃ (rem : List Byte) (s0 : Scan), scanLoopExit L fl buf.length buf s = LoopExit.broke (scanBuf L fl buf s) rem ∧
        rem ≠ [] ∧ (mbrtowc rem s0.mbs).ret = -2 ∧
        scanBuf L fl buf s = { s0 with mbs := (mbrtowc rem s0.mbs).mbs }) ∧
    (∀ (fuel : Nat) (buf : List Byte) (s : Scan), buf.length ≤ fuel →
      scanLoopExit L fl fuel buf s = scanLoopExit L fl buf.length buf s ∧
      scanLoop L fl fuel buf s = scanBuf L fl buf s) := by
  refine ⟨?_, ?_, ?_, ?_⟩
  · intro b rest s clen s1 h
    have hp := scanStep_progress L fl b rest s clen s1 h
    refine ⟨hp.1, hp.2, List.length_drop _ _, ?_⟩
    rw [List.length_drop]
    have : 0 < (b :: rest).length := by simp
    omega
  · intro b rest s h
    unfold scanStep
    rcases h with h | h | h
    · exact ⟨_, by rw [if_pos h]⟩
    · by_cases hm : (!fl.domulti || L.MB_CUR_MAX == 1) = true
      · exact ⟨_, by rw [if_pos hm]⟩
      · exact ⟨_, by rw [if_neg hm]; dsimp only; rw [if_pos h]⟩
    · by_cases hm : (!fl.domulti || L.MB_CUR_MAX == 1) = true
      · exact ⟨_, by rw [if_pos hm]⟩
      · exact ⟨_, by
          rw [if_neg hm]; dsimp only
          rw [if_neg (by omega), if_neg (by omega), if_pos h]⟩
  · intro buf s
    exact scanLoopExit_spec L fl buf.length buf s (Nat.le_refl _)
  · intro fuel buf s hf
    exact ⟨scanLoopExit_fuel L fl fuel buf s hf, scanLoop_fuel L fl fuel buf s hf⟩

theorem decode_loop_progress_witness :
    scanLoopExit localeUTF8 ⟨false, false, false, true⟩ 7 [0x61, 0xe2, 0x82, 0xac, 0xe2]
        Scan.start
      = scanLoopExit localeUTF8 ⟨false, false, false, true⟩
          ([0x61, 0xe2, 0x82, 0xac, 0xe2] : List Byte).length [0x61, 0xe2, 0x82, 0xac, 0xe2]
          Scan.start ∧
    scanLoop localeUTF8 ⟨false, false, false, true⟩ 7 [0x61, 0xe2, 0x82, 0xac, 0xe2] Scan.start
      = scanBuf localeUTF8 ⟨false, false, false, true⟩ [0x61, 0xe2, 0x82, 0xac, 0xe2] Scan.start :=
  (decode_loop_progress localeUTF8 ⟨false, false, false, true⟩).2.2.2 7
    [0x61, 0xe2, 0x82, 0xac, 0xe2] Scan.start (by decide)


/-! ## Warnings of the multibyte scan -/

theorem mbrtowcFlush_iff (ps : MbState) (hps : MbOk ps) :
    mbrtowcFlush ps = -1 ↔ ps.want ≠ 0 := by
  unfold mbrtowcFlush
  by_cases h0 : ps.want = 0
  · have : (mbrtowc [0] ps).ret = 0 := by
      simp [mbrtowc, h0]
    rw [this]
    simp [h0]
  · have h3 : ps.want ≤ 3 := by
      rcases hps with h | h
      · exact absurd h h0
      · exact h.1
    rw [mbrtowc_resumed 0 [] ps (by omega) h0]
    obtain ⟨w, hw⟩ : ∃ w, ps.want = w + 1 := ⟨ps.want - 1, by omega⟩
    have hc : contLoop ps.want ps.ch [0] = ContOut.bad := by
      rw [hw]
      simp [contLoop]
    rw [hc]
    simp [mbFinish, h0]

theorem scanBuf_first_ok (L : Locale) (fl : Flags)
    (hm : (!fl.domulti || L.MB_CUR_MAX == 1) = false) (b1 : Byte) (y : List Byte) (s : Scan)
    (hw : (scanBuf L fl (b1 :: y) s).warned = false) : (mbrtowc (b1 :: y) s.mbs).ret ≠ -1 := by
  intro h
  rw [scanBuf_cons_multi L fl hm, if_pos h] at hw
  have := scanBuf_warned_mono L fl y.length y (tally L b1.toNat (warnIlseq s)) (Nat.le_refl _)
    (by rw [(tally_warned_mbs L _ _).1]; exact (warnIlseq_fields s).2.2.2.2.2)
  rw [this] at hw
  cases hw

theorem scanBuf_mbOk (L : Locale) (fl : Flags) (buf : List Byte) (s : Scan) (h : MbOk s.mbs) :
    MbOk (scanBuf L fl buf s).mbs :=
  (scanBuf_linect L fl buf.length buf s (Nat.le_refl _) h).2.1

/-- In multibyte mode, when the scan of the stream cut into buffers meets no
invalid sequence, it gives what the scan of the whole stream as one buffer
gives. -/
theorem scanChunks_clean_eq (L : Locale) (fl : Flags)
    (hm : (!fl.domulti || L.MB_CUR_MAX == 1) = false) (chunks : List (List Byte)) :
    ∀ s : Scan, MbOk s.mbs → (scanChunks L fl chunks s).warned = false →
      scanChunks L fl chunks s = scanBuf L fl chunks.flatten s := by
  induction chunks with
  | nil => intro s _ _; rfl
  | cons c cs ih =>
    intro s hok hw
    have hunf : scanChunks L fl (c :: cs) s = scanChunks L fl cs (scanBuf L fl c s) := rfl
    rw [hunf] at hw ⊢
    have hok1 := scanBuf_mbOk L fl c s hok
    have h1 := ih (scanBuf L fl c s) hok1 hw
    rw [h1] at hw ⊢
    rw [List.flatten_cons]
    have hcond : cs.flatten = [] ∨ (scanBuf L fl c s).mbs.want = 0 ∨
        (mbrtowc cs.flatten (scanBuf L fl c s).mbs).ret ≠ -1 := by
      cases hfl : cs.flatten with
      | nil => exact Or.inl rfl
      | cons b1 y =>
        rw [hfl] at hw
        exact Or.inr (Or.inr (scanBuf_first_ok L fl hm b1 y _ hw))
    exact (scanBuf_append L fl hm c.length c cs.flatten s (Nat.le_refl _) hok hcond).symm

theorem mbrtowc_take (b : Byte) (rest : List Byte) (h : 1 ≤ (mbrtowc (b :: rest) MbState.init).ret) :
    wellFormedChar ((b :: rest).take (mbrtowc (b :: rest) MbState.init).ret.toNat) = true := by
  have hle := mbrtowc_ret_le (b :: rest) MbState.init h
  obtain ⟨k, hk⟩ : ∃ k : Nat, (mbrtowc (b :: rest) MbState.init).ret = ((k + 1 : Nat) : Int) :=
    ⟨(mbrtowc (b :: rest) MbState.init).ret.toNat - 1, by omega⟩
  have hkt : (mbrtowc (b :: rest) MbState.init).ret.toNat = k + 1 := by omega
  have hklen : k + 1 ≤ (b :: rest).length := by omega
  rw [hkt, List.take_succ_cons]
  have hklen2 : k ≤ rest.length := by simp only [List.length_cons] at hklen; omega
  have hlen : (b :: rest.take k).length = k + 1 := by
    simp only [List.length_cons, List.length_take]; omega
  have hsplit : b :: rest = (b :: rest.take k) ++ rest.drop k := by
    rw [List.cons_append, List.take_append_drop]
  have hret : (mbrtowc (b :: rest.take k) MbState.init).ret = ((k + 1 : Nat) : Int) := by
    by_cases hr : (mbrtowc (b :: rest.take k) MbState.init).ret = -2
    · exfalso
      cases hd : rest.drop k with
      | nil =>
        rw [hd, List.append_nil] at hsplit
        rw [hsplit] at hk
        omega
      | cons b1 y =>
        rw [hd] at hsplit
        have hap := mbrtowc_append_more b (rest.take k) MbState.init b1 y MbOk_init hr
        rw [← hsplit] at hap
        rcases mbrtowc_ret (b1 :: y) (mbrtowc (b :: rest.take k) MbState.init).mbs with
          hq | hq | hq | hq
        · have := hap.2.1.mpr hq
          omega
        · have := hap.2.2.1 hq
          rw [this] at hk
          omega
        · exact hap.2.2.2.1 hq
        · have := (hap.2.2.2.2.2 hq).1
          rw [hlen] at this
          omega
    · have e := mbrtowc_append_done b (rest.take k) (rest.drop k) MbState.init hr
      rw [← hsplit] at e
      rw [← e]
      exact hk
  unfold wellFormedChar
  rw [hret, hlen]
  simp

theorem wellFormedChar_nul (b : Byte) (hb : b.toNat = 0) : wellFormedChar [b] = true := by
  have : (mbrtowc [b] MbState.init).ret = 0 := by
    simp [mbrtowc, MbState.init, hb]
  unfold wellFormedChar
  rw [this]
  simp

/-- In multibyte mode, a scan of a buffer from the initial decoder state that
meets no invalid sequence and ends with no sequence pending has scanned a
concatenation of well-formed encoded characters. -/
theorem scanBuf_clean_wellFormed (L : Locale) (fl : Flags)
    (hm : (!fl.domulti || L.MB_CUR_MAX == 1) = false) (n : Nat) :
    ∀ (buf : List Byte) (s : Scan), buf.length ≤ n → s.mbs = MbState.init →
      (scanBuf L fl buf s).warned = false → (scanBuf L fl buf s).mbs.want = 0 →
      wellFormedStream buf := by
  induction n with
  | zero =>
    intro buf s hlen _ _ _
    have : buf = [] := List.eq_nil_of_length_eq_zero (Nat.le_zero.mp hlen)
    subst this
    exact ⟨[], by simp, rfl⟩
  | succ n ih =>
    intro buf s hlen hs hw hp
    cases buf with
    | nil => exact ⟨[], by simp, rfl⟩
    | cons b rest =>
      simp only [List.length_cons, Nat.add_le_add_iff_right] at hlen
      have hne1 := scanBuf_first_ok L fl hm b rest s hw
      rw [scanBuf_cons_multi L fl hm, if_neg hne1] at hw hp
      have hok : MbOk s.mbs := by rw [hs]; exact MbOk_init
      rcases mbrtowc_spec b rest s.mbs hok with h | ⟨h, _, _, hwant⟩ | ⟨h, _, hb, _, hst⟩ |
        ⟨h, hle, hst, _, _⟩
      · exact absurd h hne1
      · rw [if_pos h] at hp
        exact absurd hp hwant
      · rw [if_neg (by omega), if_pos h] at hw hp
        obtain ⟨chars, hwf, hfl⟩ := ih rest _ hlen (by
          rw [(tally_warned_mbs L _ _).2]; exact hst) hw hp
        refine ⟨[b] :: chars, ?_, by rw [List.flatten_cons, hfl]; rfl⟩
        intro c hc
        rcases List.mem_cons.mp hc with rfl | hc
        · exact wellFormedChar_nul b hb
        · exact hwf c hc
      · rw [if_neg (by omega), if_neg (by omega)] at hw hp
        obtain ⟨chars, hwf, hfl⟩ := ih _ _ (by
          simp only [List.length_drop, List.length_cons]; omega) (by
          rw [(tally_warned_mbs L _ _).2]; exact hst) hw hp
        refine ⟨(b :: rest).take (mbrtowc (b :: rest) s.mbs).ret.toNat :: chars, ?_, by
          rw [List.flatten_cons, hfl, List.take_append_drop]⟩
        intro c hc
        rcases List.mem_cons.mp hc with rfl | hc
        · rw [hs] at h ⊢
          exact mbrtowc_take b rest h
        · exact hwf c hc

theorem scanBuf_stderr (L : Locale) (fl : Flags) (n : Nat) :
    ∀ (buf : List Byte) (s : Scan), buf.length ≤ n →
      (scanBuf L fl buf s).stderr
        = s.stderr ++ (if s.warned = false ∧ (scanBuf L fl buf s).warned = true
            then [Diag.ilseq] else []) := by
  induction n with
  | zero =>
    intro buf s hlen
    have : buf = [] := List.eq_nil_of_length_eq_zero (Nat.le_zero.mp hlen)
    subst this
    rw [scanBuf_nil]
    cases hw : s.warned <;> simp
  | succ n ih =>
    intro buf s hlen
    cases buf with
    | nil =>
      rw [scanBuf_nil]
      cases hw : s.warned <;> simp
    | cons b rest =>
      simp only [List.length_cons, Nat.add_le_add_iff_right] at hlen
      have hstep : ∀ (w : Nat) (s0 : Scan) (tl : List Byte), tl.length ≤ n →
          s0.warned = s.warned → s0.stderr = s.stderr →
          (scanBuf L fl tl (tally L w s0)).stderr
            = s.stderr ++ (if s.warned = false ∧ (scanBuf L fl tl (tally L w s0)).warned = true
                then [Diag.ilseq] else []) := by
        intro w s0 tl htl hw0 he0
        have h := ih tl (tally L w s0) htl
        rw [(tally_rest L w s0).1, (tally_rest L w s0).2.2, hw0, he0] at h
        exact h
      by_cases hm : (!fl.domulti || L.MB_CUR_MAX == 1) = true
      · rw [scanBuf_cons_single L fl hm]
        exact hstep _ s rest hlen rfl rfl
      · have hm2 : (!fl.domulti || L.MB_CUR_MAX == 1) = false := by simpa using hm
        rw [scanBuf_cons_multi L fl hm2]
        split
        · have hwf := warnIlseq_fields s
          have h := ih rest (tally L b.toNat (warnIlseq s)) hlen
          have hmono := scanBuf_warned_mono L fl rest.length rest (tally L b.toNat (warnIlseq s))
            (Nat.le_refl _) (by rw [(tally_rest L _ _).1]; exact hwf.2.2.2.2.2)
          rw [(tally_rest L _ _).1, (tally_rest L _ _).2.2, hwf.2.2.2.2.2] at h
          rw [h, hmono]
          unfold warnIlseq
          cases hw : s.warned <;> simp
        · split
          · cases hw : s.warned <;> simp [hw]
          · split
            · exact hstep _ _ rest hlen rfl rfl
            · rename_i h1 h2 h3
              refine hstep _ _ _ ?_ rfl rfl
              rcases mbrtowc_ret (b :: rest) s.mbs with h | h | h | h
              · exact absurd h h1
              · exact absurd h h2
              · exact absurd h h3
              · simp only [List.length_drop, List.length_cons]; omega

theorem scanChunks_stderr (L : Locale) (fl : Flags) (chunks : List (List Byte)) :
    ∀ s : Scan, s.warned = false → s.stderr = [] → MbOk s.mbs →
      (scanChunks L fl chunks s).stderr
        = (if (scanChunks L fl chunks s).warned = true then [Diag.ilseq] else []) ∧
      MbOk (scanChunks L fl chunks s).mbs := by
  have hmono : ∀ (cs : List (List Byte)) (s : Scan), s.warned = true →
      (scanChunks L fl cs s).warned = true ∧ (scanChunks L fl cs s).stderr = s.stderr := by
    intro cs
    induction cs with
    | nil => intro s h; exact ⟨h, rfl⟩
    | cons c cs ih =>
      intro s h
      have hunf : scanChunks L fl (c :: cs) s = scanChunks L fl cs (scanBuf L fl c s) := rfl
      have h1 := scanBuf_warned_mono L fl c.length c s (Nat.le_refl _) h
      have h2 := scanBuf_stderr L fl c.length c s (Nat.le_refl _)
      rw [hunf]
      refine ⟨(ih _ h1).1, ?_⟩
      rw [(ih _ h1).2, h2]
      simp [h]
  have hok : ∀ (cs : List (List Byte)) (s : Scan), MbOk s.mbs →
      MbOk (scanChunks L fl cs s).mbs := by
    intro cs
    induction cs with
    | nil => intro s h; exact h
    | cons c cs ih => intro s h; exact ih _ (scanBuf_mbOk L fl c s h)
  induction chunks with
  | nil =>
    intro s hw he hk
    refine ⟨?_, hk⟩
    show s.stderr = if s.warned = true then [Diag.ilseq] else []
    rw [hw, he]
    simp
  | cons c cs ih =>
    intro s hw he hk
    refine ⟨?_, hok _ s hk⟩
    have hunf : scanChunks L fl (c :: cs) s = scanChunks L fl cs (scanBuf L fl c s) := rfl
    rw [hunf]
    have h2 := scanBuf_stderr L fl c.length c s (Nat.le_refl _)
    rw [hw, he] at h2
    cases hc : (scanBuf L fl c s).warned with
    | true =>
      have := hmono cs _ hc
      rw [this.1, this.2, h2, hc]
      simp
    | false =>
      rw [hc] at h2
      exact (ih _ hc (by rw [h2]; simp) (scanBuf_mbOk L fl c s hk)).1

/-- C11: in multibyte mode (`domulti` set, `MB_CUR_MAX > 1`, UTF-8 decoder),
for every byte stream cut into non-empty reads in any way: the general scan
does not abort on a decode failure (it reaches end of file, and `cnt` returns
0); it writes no warning when the stream is a concatenation of well-formed
encoded characters, and exactly one warning otherwise, that is when the stream
holds a malformed sequence or ends in an incomplete one, never more than one;
and at a byte where decoding fails (`mbrtowc` returns `-1`) the scan goes on
with the next byte after a tally that adds exactly 1 to `charct`. -/
theorem decode_failure_single_warning (L : Locale) (fl : Flags)
    (hmulti : fl.domulti = true ∧ 1 < L.MB_CUR_MAX) (bytes : List Byte)
    (chunks : List (List Byte)) (hne : ∀ c ∈ chunks, c ≠ []) (hjoin : chunks.flatten = bytes) :
    (∃ s, generalScan L fl (chunks.map Read.data) = Outcome.done s ∧
      (wellFormedStream bytes → s.stderr = []) ∧
      (¬ wellFormedStream bytes → s.stderr = [Diag.ilseq]) ∧
      (s.stderr = [] ∨ s.stderr = [Diag.ilseq])) ∧
    (∀ (f : File) (g : State), (f.stdin = true ∨ f.openOk = true) →
      f.reads = chunks.map Read.data → (cnt L fl f g).1 = 0) ∧
    (∀ (b : Byte) (rest : List Byte) (s0 : Scan), (mbrtowc (b :: rest) s0.mbs).ret = -1 →
      scanBuf L fl (b :: rest) s0 = scanBuf L fl rest (tally L b.toNat (warnIlseq s0)) ∧
      scanStep L fl b rest s0 = Step.advance 1 (tally L b.toNat (warnIlseq s0)) ∧
      (tally L b.toNat (warnIlseq s0)).charct = uadd s0.charct 1) := by
  have hm := multi_mode L fl hmulti
  have hgs := generalScan_data L fl chunks hne
  have hst := scanChunks_stderr L fl chunks Scan.start rfl rfl MbOk_init
  have hfl : (fl.domulti && decide (1 < L.MB_CUR_MAX)) = true := by simp [hmulti.1, hmulti.2]
  -- the three ways the read loop can end
  have hcases : (wellFormedStream bytes ∧
        (flushMbs L fl (scanChunks L fl chunks Scan.start)).stderr = []) ∨
      (¬ wellFormedStream bytes ∧
        (flushMbs L fl (scanChunks L fl chunks Scan.start)).stderr = [Diag.ilseq]) := by
    by_cases hwf : wellFormedStream bytes
    · left
      refine ⟨hwf, ?_⟩
      obtain ⟨chars, hc1, hc2⟩ := hwf
      have h := generalScan_wellFormed L fl hmulti chars hc1 chunks hne (by rw [hjoin, hc2])
      rw [hgs] at h
      rw [Outcome.done.inj h, (tallyChars_fields L chars Scan.start).2.2.2.2]
      rfl
    · right
      refine ⟨hwf, ?_⟩
      cases hw : (scanChunks L fl chunks Scan.start).warned with
      | true =>
        have h1 := hst.1
        rw [hw] at h1
        unfold flushMbs
        simp only [hfl, if_true, hw, Bool.not_true, Bool.and_false, Bool.false_eq_true, if_false]
        simpa using h1
      | false =>
        have h1 := hst.1
        rw [hw] at h1
        have hwant : (scanChunks L fl chunks Scan.start).mbs.want ≠ 0 := by
          intro h0
          apply hwf
          have heq := scanChunks_clean_eq L fl hm chunks Scan.start MbOk_init hw
          rw [heq] at hw h0
          rw [← hjoin]
          exact scanBuf_clean_wellFormed L fl hm chunks.flatten.length chunks.flatten Scan.start
            (Nat.le_refl _) rfl hw h0
        have hf := (mbrtowcFlush_iff _ hst.2).mpr hwant
        unfold flushMbs
        simp only [hfl, if_true, hw, hf, Bool.not_false, Bool.and_true, decide_True]
        rw [h1]
        rfl
  refine ⟨⟨_, hgs, ?_, ?_, ?_⟩, ?_, ?_⟩
  · intro hwf
    rcases hcases with h | h
    · exact h.2
    · exact absurd hwf h.1
  · intro hwf
    rcases hcases with h | h
    · exact absurd h.1 hwf
    · exact h.2
  · rcases hcases with h | h
    · exact Or.inl h.2
    · exact Or.inr h.2
  · intro f g hopen hreads
    have hopen2 : (!f.stdin && !f.openOk) = false := by
      rcases hopen with h | h <;> simp [h]
    have hw : (fl.doword || (fl.domulti && L.MB_CUR_MAX != 1)) = true := by
      have : L.MB_CUR_MAX ≠ 1 := by omega
      simp [hmulti.1, this]
    simp only [cnt, hopen2, Bool.false_eq_true, if_false, hw, if_true]
    unfold cntWord
    rw [hreads, hgs]
  · intro b rest s0 h
    refine ⟨by rw [scanBuf_cons_multi L fl hm, if_pos h], ?_, ?_⟩
    · unfold scanStep
      rw [hm]
      simp only [Bool.false_eq_true, if_false, h, if_true]
    · rw [tally_charct, (warnIlseq_fields s0).2.2.1]

theorem decode_failure_single_warning_witness :
    (∀ c ∈ ([[0x61, 0xe2], [0x41, 0xff], [0xc3]] : List (List Byte)), c ≠ []) ∧
    ∃ s, generalScan localeUTF8 ⟨false, false, false, true⟩
        (([[0x61, 0xe2], [0x41, 0xff], [0xc3]] : List (List Byte)).map Read.data)
        = Outcome.done s ∧
      (wellFormedStream [0x61, 0xe2, 0x41, 0xff, 0xc3] → s.stderr = []) ∧
      (¬ wellFormedStream [0x61, 0xe2, 0x41, 0xff, 0xc3] → s.stderr = [Diag.ilseq]) ∧
      (s.stderr = [] ∨ s.stderr = [Diag.ilseq]) :=
  ⟨by decide, (decode_failure_single_warning localeUTF8 ⟨false, false, false, true⟩ (by decide)
    [0x61, 0xe2, 0x41, 0xff, 0xc3] [[0x61, 0xe2], [0x41, 0xff], [0xc3]] (by decide)
    (by decide)).1⟩


end Wc
